import Mathlib

/-!
# Ternary sparse GEMM: TCSC and BCSR encodings and their multiply kernels

A shallow embedding of `src/sparse/tcsc.c`, `src/sparse/bcsr.c`,
`src/dense/dense.c`, `src/dense/utils.h` and of the class `SparseFormat`, the
generator and the reference kernels of `src/SparseGEMM.h`.

Modelling conventions

* `float` elements are exact rationals (`ℚ`); the claims below are all stated
  "with element arithmetic taken as exact".
* A C buffer is a `List` of its elements.  A read `p[i]` is `rd p i`, a write
  `p[i] = v` is `List.set p i v`.  The theorems carry the size hypotheses under
  which every access of the C code is inside its buffer.
* `int` dimensions, counters and indices are natural numbers (all of them are
  non-negative in the code, and no claim below is about `int` overflow); the
  one array that stores the sentinel `-1` (`is_valid_block`) is a list of `Int`.
* `malloc` / `aligned_alloc` return a buffer with indeterminate contents: the
  initial contents are an explicit parameter `junk` of the builders.
* A `for (int i = lo; i < hi; ++i) body` loop is `forLoop lo hi body`; a loop
  that can `return` early carries an `Option` that is `some` once it returned.
* Allocation is assumed to succeed, also for a request of zero bytes (the
  builders return the descriptor).
* A `while` loop is `whileLoop`, run on a bounded number of tests of its
  condition (`fuel`); its result is `none` when the loop has not ended by then.
* The library random distributions are parameters of the generators: the
  outcome of the `i`-th draw is given by a function, constrained only by the
  range of the distribution.
* Where a claim is about the memory accesses of a function, the accesses are
  collected in program order by a trace function that follows the loops of the
  source.
* A `std::vector<int>` is a list and `push_back` appends to it.
* A `__m256` value is the list of its eight lanes; the intrinsics
  (`_mm256_load_ps`, `_mm256_store_ps`, `_mm256_set1_ps`, `_mm256_fmadd_ps`,
  `_mm256_mul_ps`, `_mm256_cmp_ps`, `_mm256_blendv_ps`) act lane by lane in
  exact arithmetic; a comparison mask is a list of booleans; alignment is not
  modelled.
* Distinct pointer arguments of a kernel denote disjoint buffers: the output
  buffer `Y` is passed in with its initial content and returned with its final
  content, and the inputs are not changed by the writes to `Y`.
-/

namespace SparseGemm

/-! ## Loops, buffers -/

/-- The loop `for (int i = lo; i < hi; ++i) s = body i s`. -/
def forLoop {σ : Type} (lo hi : Nat) (body : Nat → σ → σ) (s : σ) : σ :=
  (List.range' lo (hi - lo)).foldl (fun s i => body i s) s

/-- Read of element `i` of a float buffer. -/
def rd (p : List ℚ) (i : Nat) : ℚ := p.getD i 0

/-- Read of element `i` of an `int` buffer holding non-negative values. -/
def rdN (p : List Nat) (i : Nat) : Nat := p.getD i 0

/-- Read of element `i` of an `int` buffer. -/
def rdI (p : List Int) (i : Nat) : Int := p.getD i 0

/-- A freshly allocated buffer of `n` elements; its contents are whatever the
allocator left there (`junk`). -/
def malloc {α : Type} (junk : Nat → α) (n : Nat) : List α :=
  (List.range n).map junk

/-! ## `src/sparse/tcsc.h`, `src/sparse/tcsc.c` -/

/-- The struct `tcsc_t`. -/
structure tcsc_t where
  rows : Nat
  cols : Nat
  n_elem_pos : Nat
  n_elem_neg : Nat
  col_start_pos : List Nat
  col_start_neg : List Nat
  row_index_pos : List Nat
  row_index_neg : List Nat
  deriving DecidableEq

/-- Pass 1 of `tcsc_from_dense` (tcsc.c:8-19): the row-major count of `+1` and
`-1` entries, returned as `(n_elem_pos, n_elem_neg)`. -/
def tcsc_count (dense : List ℚ) (rows cols : Nat) : Nat × Nat :=
  forLoop 0 rows (fun i cnt =>
    forLoop 0 cols (fun j cnt =>
      let value := rd dense (i * cols + j)
      if value = 1 then (cnt.1 + 1, cnt.2)
      else if value = -1 then (cnt.1, cnt.2 + 1)
      else cnt) cnt) (0, 0)

/-- The loop state of pass 2 of `tcsc_from_dense`: the descriptor under
construction and the two write counters. -/
structure tcsc_fill where
  sparse : tcsc_t
  pos_counter : Nat
  neg_counter : Nat

/-- The body of the inner loop of pass 2 (tcsc.c:53-58) at row `i`, column `j`. -/
def tcsc_fill_elem (dense : List ℚ) (cols j i : Nat) (st : tcsc_fill) : tcsc_fill :=
  let value := rd dense (i * cols + j)
  if value = 1 then
    { st with
      sparse := { st.sparse with
        row_index_pos := st.sparse.row_index_pos.set st.pos_counter i }
      pos_counter := st.pos_counter + 1 }
  else if value = -1 then
    { st with
      sparse := { st.sparse with
        row_index_neg := st.sparse.row_index_neg.set st.neg_counter i }
      neg_counter := st.neg_counter + 1 }
  else st

/-- The body of the outer loop of pass 2 (tcsc.c:49-59) at column `j`. -/
def tcsc_fill_col (dense : List ℚ) (rows cols j : Nat) (st : tcsc_fill) : tcsc_fill :=
  let st : tcsc_fill :=
    { st with
      sparse := { st.sparse with
        col_start_pos := st.sparse.col_start_pos.set j st.pos_counter
        col_start_neg := st.sparse.col_start_neg.set j st.neg_counter } }
  forLoop 0 rows (tcsc_fill_elem dense cols j) st

/-- The function `tcsc_from_dense` (tcsc.c:6-66).  `junk a` is the initial
content of the `a`-th allocated array. -/
def tcsc_from_dense (junk : Nat → Nat → Nat) (dense : List ℚ) (rows cols : Nat) : tcsc_t :=
  let cnt := tcsc_count dense rows cols
  let n_elem_pos := cnt.1
  let n_elem_neg := cnt.2
  let sparse : tcsc_t :=
    { rows := rows
      cols := cols
      n_elem_pos := n_elem_pos
      n_elem_neg := n_elem_neg
      col_start_pos := malloc (junk 0) (cols + 1)
      col_start_neg := malloc (junk 1) (cols + 1)
      row_index_pos := malloc (junk 2) n_elem_pos
      row_index_neg := malloc (junk 3) n_elem_neg }
  let st := forLoop 0 cols (tcsc_fill_col dense rows cols)
    { sparse := sparse, pos_counter := 0, neg_counter := 0 }
  { st.sparse with
    col_start_pos := st.sparse.col_start_pos.set cols st.pos_counter
    col_start_neg := st.sparse.col_start_neg.set cols st.neg_counter }

/-- The function `tcsc_sgemm_basic` (tcsc.c:69-98); `Y` is the initial content
of the output buffer and the result is its final content. -/
def tcsc_sgemm_basic (X : List ℚ) (W : tcsc_t) (B Y : List ℚ) (M N K : Nat) : List ℚ :=
  let Y := forLoop 0 M (fun m Y =>
    forLoop 0 N (fun n Y => Y.set (m * N + n) (rd B n)) Y) Y
  forLoop 0 M (fun m Y =>
    forLoop 0 N (fun n Y =>
      let y := rd Y (m * N + n)
      let y := forLoop (rdN W.col_start_pos n) (rdN W.col_start_pos (n + 1))
        (fun k y => y + rd X (m * K + rdN W.row_index_pos k)) y
      let y := forLoop (rdN W.col_start_neg n) (rdN W.col_start_neg (n + 1))
        (fun k y => y - rd X (m * K + rdN W.row_index_neg k)) y
      Y.set (m * N + n) y) Y) Y

/-- The function `tcsc_sgemm_optimized` (tcsc.c:101-140). -/
def tcsc_sgemm_optimized (X : List ℚ) (W : tcsc_t) (B Y : List ℚ) (M N K : Nat) : List ℚ :=
  let Y := forLoop 0 M (fun m Y =>
    forLoop 0 N (fun n Y => Y.set (m * N + n) (rd B n)) Y) Y
  forLoop 0 N (fun n Y =>
    let pos_start := rdN W.col_start_pos n
    let pos_end := rdN W.col_start_pos (n + 1)
    let Y := forLoop 0 M (fun m Y =>
      let acc_pos : ℚ := 0
      let acc_pos := forLoop pos_start pos_end
        (fun k acc_pos => acc_pos + rd X (m * K + rdN W.row_index_pos k)) acc_pos
      Y.set (m * N + n) (rd Y (m * N + n) + acc_pos)) Y
    let neg_start := rdN W.col_start_neg n
    let neg_end := rdN W.col_start_neg (n + 1)
    forLoop 0 M (fun m Y =>
      let acc_neg : ℚ := 0
      let acc_neg := forLoop neg_start neg_end
        (fun k acc_neg => acc_neg + rd X (m * K + rdN W.row_index_neg k)) acc_neg
      Y.set (m * N + n) (rd Y (m * N + n) - acc_neg)) Y) Y

/-- The function `tcsc_sgemm_prelu_basic` (tcsc.c:143-165). -/
def tcsc_sgemm_prelu_basic (X : List ℚ) (W : tcsc_t) (B : List ℚ) (a : ℚ) (Y : List ℚ)
    (M N K : Nat) : List ℚ :=
  forLoop 0 M (fun m Y =>
    forLoop 0 N (fun n Y =>
      let y : ℚ := 0
      let y := forLoop (rdN W.col_start_pos n) (rdN W.col_start_pos (n + 1))
        (fun k y => y + rd X (m * K + rdN W.row_index_pos k)) y
      let y := forLoop (rdN W.col_start_neg n) (rdN W.col_start_neg (n + 1))
        (fun k y => y - rd X (m * K + rdN W.row_index_neg k)) y
      let y := y + rd B n
      Y.set (m * N + n) (if y < 0 then a * y else y)) Y) Y

/-- The function `tcsc_sgemm_prelu_optimized_separate` (tcsc.c:179-227). -/
def tcsc_sgemm_prelu_optimized_separate (X : List ℚ) (W : tcsc_t) (B : List ℚ) (a : ℚ)
    (Y : List ℚ) (M N K : Nat) : List ℚ :=
  let Y := forLoop 0 M (fun m Y =>
    forLoop 0 N (fun n Y => Y.set (m * N + n) (rd B n)) Y) Y
  let Y := forLoop 0 N (fun n Y =>
    let pos_start := rdN W.col_start_pos n
    let pos_end := rdN W.col_start_pos (n + 1)
    let Y := forLoop 0 M (fun m Y =>
      let acc_pos : ℚ := 0
      let acc_pos := forLoop pos_start pos_end
        (fun k acc_pos => acc_pos + rd X (m * K + rdN W.row_index_pos k)) acc_pos
      Y.set (m * N + n) (rd Y (m * N + n) + acc_pos)) Y
    let neg_start := rdN W.col_start_neg n
    let neg_end := rdN W.col_start_neg (n + 1)
    forLoop 0 M (fun m Y =>
      let acc_neg : ℚ := 0
      let acc_neg := forLoop neg_start neg_end
        (fun k acc_neg => acc_neg + rd X (m * K + rdN W.row_index_neg k)) acc_neg
      Y.set (m * N + n) (rd Y (m * N + n) - acc_neg)) Y) Y
  forLoop 0 M (fun m Y =>
    forLoop 0 N (fun n Y =>
      let val := rd Y (m * N + n)
      Y.set (m * N + n) (if val < 0 then a * val else val)) Y) Y

/-- The function `tcsc_sgemm_prelu_optimized_onthego` (tcsc.c:231-275). -/
def tcsc_sgemm_prelu_optimized_onthego (X : List ℚ) (W : tcsc_t) (B : List ℚ) (a : ℚ)
    (Y : List ℚ) (M N K : Nat) : List ℚ :=
  let Y := forLoop 0 M (fun m Y =>
    forLoop 0 N (fun n Y => Y.set (m * N + n) (rd B n)) Y) Y
  forLoop 0 N (fun n Y =>
    let pos_start := rdN W.col_start_pos n
    let pos_end := rdN W.col_start_pos (n + 1)
    let Y := forLoop 0 M (fun m Y =>
      let acc_pos : ℚ := 0
      let acc_pos := forLoop pos_start pos_end
        (fun k acc_pos => acc_pos + rd X (m * K + rdN W.row_index_pos k)) acc_pos
      Y.set (m * N + n) (rd Y (m * N + n) + acc_pos)) Y
    let neg_start := rdN W.col_start_neg n
    let neg_end := rdN W.col_start_neg (n + 1)
    forLoop 0 M (fun m Y =>
      let acc_neg : ℚ := 0
      let acc_neg := forLoop neg_start neg_end
        (fun k acc_neg => acc_neg + rd X (m * K + rdN W.row_index_neg k)) acc_neg
      let Y := Y.set (m * N + n) (rd Y (m * N + n) - acc_neg)
      let val := rd Y (m * N + n)
      Y.set (m * N + n) (if val < 0 then a * val else val)) Y) Y

/-! ## `src/sparse/bcsr.h`, `src/sparse/bcsr.c` -/

/-- The struct `bcsr_t`. -/
structure bcsr_t where
  r : Nat
  c : Nat
  br : Nat
  bc : Nat
  k : Nat
  b_row_start : List Nat
  b_col_idx : List Nat
  b_values : List ℚ
  deriving DecidableEq

/-- The initial contents of the four buffers that `bcsr_from_dense` allocates.
The leftover of an `int` cell of `b_row_start` or `b_col_idx` is taken
non-negative: a negative leftover in `b_row_start` gives the kernels an empty
block loop, as the leftover 0 does. -/
structure bcsr_junk where
  is_valid_block : Nat → Int
  b_values : Nat → ℚ
  b_row_start : Nat → Nat
  b_col_idx : Nat → Nat

/-- The scan of one block in pass 1 (bcsr.c:50-64): the final value of
`need_new_block` for block `(brow, bcol)`. -/
def bcsr_need_new_block (dense : List ℚ) (cols r c brow bcol : Nat) : Bool :=
  forLoop 0 r (fun row need_new_block =>
    forLoop 0 c (fun col need_new_block =>
      let i := brow * r + row
      let j := bcol * c + col
      let ij := i * cols + j
      let val := rd dense ij
      need_new_block || (decide (val = -1) || decide (val = 1))) need_new_block) false

/-- The loop state of pass 1 of `bcsr_from_dense`. -/
structure bcsr_scan where
  is_valid_block : List Int
  k : Nat

/-- Pass 1 of `bcsr_from_dense` (bcsr.c:31-72). -/
def bcsr_pass1 (junk : bcsr_junk) (dense : List ℚ) (cols r c br bc : Nat) : bcsr_scan :=
  let is_valid_block := malloc junk.is_valid_block (br * bc)
  let is_valid_block := forLoop 0 (br * bc) (fun i a => a.set i (-1)) is_valid_block
  forLoop 0 br (fun brow st =>
    forLoop 0 bc (fun bcol st =>
      if bcsr_need_new_block dense cols r c brow bcol then
        { is_valid_block := st.is_valid_block.set (brow * bc + bcol) (st.k : Int)
          k := st.k + 1 }
      else st) st)
    { is_valid_block := is_valid_block, k := 0 }

/-- The loop state of pass 2 of `bcsr_from_dense`. -/
structure bcsr_fill where
  matrix : bcsr_t
  b_row_start_index : Nat
  is_new_row : Bool

/-- The block copy of pass 2 (bcsr.c:122-134). -/
def bcsr_copy_block (dense : List ℚ) (cols r c brow bcol block_index : Nat)
    (b_values : List ℚ) : List ℚ :=
  forLoop 0 r (fun row b_values =>
    forLoop 0 c (fun col b_values =>
      let i := brow * r + row
      let j := bcol * c + col
      let ij := i * cols + j
      let bij := block_index * r * c + (row * c + col)
      b_values.set bij (rd dense ij)) b_values) b_values

/-- The body of the inner loop of pass 2 (bcsr.c:107-134) at block
`(brow, bcol)`. -/
def bcsr_fill_block (dense : List ℚ) (is_valid_block : List Int) (cols r c bc brow bcol : Nat)
    (st : bcsr_fill) : bcsr_fill :=
  let block_index := rdI is_valid_block (brow * bc + bcol)
  if block_index = -1 then st
  else
    let st : bcsr_fill :=
      if st.is_new_row then
        { matrix := { st.matrix with
            b_row_start := st.matrix.b_row_start.set st.b_row_start_index block_index.toNat }
          b_row_start_index := st.b_row_start_index + 1
          is_new_row := false }
      else st
    { st with
      matrix := { st.matrix with
        b_col_idx := st.matrix.b_col_idx.set block_index.toNat bcol
        b_values := bcsr_copy_block dense cols r c brow bcol block_index.toNat
          st.matrix.b_values } }

/-- Allocation and pass 2 of `bcsr_from_dense` (bcsr.c:75-138), given the
`is_valid_block` array and the block count `k` left by pass 1. -/
def bcsr_pass2 (junk : bcsr_junk) (dense : List ℚ) (cols r c br bc : Nat)
    (is_valid_block : List Int) (k : Nat) : bcsr_t :=
  let matrix : bcsr_t :=
    { k := k
      r := r
      c := c
      br := br
      bc := bc
      b_values := malloc junk.b_values (k * (r * c))
      b_row_start := malloc junk.b_row_start (1 * (br + 1))
      b_col_idx := malloc junk.b_col_idx (1 * k) }
  let st := forLoop 0 br (fun brow st =>
    forLoop 0 bc (bcsr_fill_block dense is_valid_block cols r c bc brow)
      { st with is_new_row := true })
    { matrix := matrix, b_row_start_index := 0, is_new_row := true }
  { st.matrix with b_row_start := st.matrix.b_row_start.set st.b_row_start_index k }

/-- The function `bcsr_from_dense` (bcsr.c:19-139). -/
def bcsr_from_dense (junk : bcsr_junk) (dense : List ℚ) (rows cols r c : Nat) : bcsr_t :=
  let br := rows / r
  let bc := cols / c
  let p1 := bcsr_pass1 junk dense cols r c br bc
  bcsr_pass2 junk dense cols r c br bc p1.is_valid_block p1.k

/-- The function `bcsr_sgemm_basic` (bcsr.c:141-175). -/
def bcsr_sgemm_basic (X : List ℚ) (W : bcsr_t) (B Y : List ℚ) (M N K : Nat) : List ℚ :=
  let Y := forLoop 0 M (fun m Y =>
    forLoop 0 N (fun n Y => Y.set (m * N + n) (rd B n)) Y) Y
  let r := W.r
  let c := W.c
  forLoop 0 M (fun m Y =>
    forLoop 0 W.br (fun br Y =>
      forLoop (rdN W.b_row_start br) (rdN W.b_row_start (br + 1)) (fun bi Y =>
        let bc := rdN W.b_col_idx bi
        forLoop 0 r (fun i Y =>
          forLoop 0 c (fun j Y =>
            let val := rd W.b_values (bi * r * c + i * c + j)
            Y.set (m * N + bc * c + j)
              (rd Y (m * N + bc * c + j) + rd X (m * K + br * r + i) * val)) Y) Y) Y) Y) Y

/-! ## `src/dense/dense.c`, `src/SparseGEMM.h`: the dense references -/

/-- The function `gemm_basic` (dense.c:64-77). -/
def gemm_basic (X W B Y : List ℚ) (M N K : Nat) : List ℚ :=
  forLoop 0 M (fun m Y =>
    forLoop 0 N (fun n Y =>
      let y : ℚ := 0
      let y := forLoop 0 K (fun k y => y + rd X (m * K + k) * rd W (k * N + n)) y
      Y.set (m * N + n) (y + rd B n)) Y) Y

/-- The function `GEMM_PReLU` (SparseGEMM.h:135-149) at element type `ℚ`. -/
def GEMM_PReLU (X W b Y : List ℚ) (M N K : Nat) (a : ℚ) : List ℚ :=
  forLoop 0 M (fun m Y =>
    forLoop 0 N (fun n Y =>
      let y : ℚ := 0
      let y := forLoop 0 K (fun k y => y + rd X (m * K + k) * rd W (k * N + n)) y
      let y := y + rd b n
      Y.set (m * N + n) (if y < 0 then a * y else y)) Y) Y

/-- The tolerance `tol = 1e-4` of `compare` (dense.c:43). -/
def compare_tol : ℚ := 1 / 10000

/-- The scan of `compare` (dense.c:44-57): `none` while no mismatch has been
found, `some (row, col, tar, res)` once the function has printed the mismatch
at `(row, col)` and returned `false`. -/
def compare_scan (result target : List ℚ) (rows cols : Nat) : Option (Nat × Nat × ℚ × ℚ) :=
  forLoop 0 rows (fun row ret =>
    forLoop 0 cols (fun col ret =>
      match ret with
      | some r => some r
      | none =>
        let ij := row * cols + col
        let res := rd result ij
        let tar := rd target ij
        if |res - tar| > compare_tol then some (row, col, tar, res) else none) ret) none

/-- The function `compare` (dense.c:42-59). -/
def compare (result target : List ℚ) (rows cols : Nat) : Bool :=
  (compare_scan result target rows cols).isNone

/-! ## Specification-side definitions -/

/-- The slice `l[a .. b)` of an index list. -/
def slice (l : List Nat) (a b : Nat) : List Nat := (l.drop a).take (b - a)

/-- Decoding of a TCSC descriptor into a dense row-major buffer, following the
round-trip rule of the specification: entry `(i, j)` is `+1` if `i` occurs in
`row_index_pos[col_start_pos[j] .. col_start_pos[j+1])`, `-1` if `i` occurs in
`row_index_neg[col_start_neg[j] .. col_start_neg[j+1])`, and `0` otherwise. -/
def tcsc_decode (T : tcsc_t) : List ℚ :=
  (List.range (T.rows * T.cols)).map (fun p =>
    let i := p / T.cols
    let j := p % T.cols
    if i ∈ slice T.row_index_pos (rdN T.col_start_pos j) (rdN T.col_start_pos (j + 1)) then 1
    else if i ∈ slice T.row_index_neg (rdN T.col_start_neg j) (rdN T.col_start_neg (j + 1))
    then -1
    else 0)

/-- Rebuilding a dense `rows × cols` buffer from a BCSR descriptor, following
the round-trip rule of the specification: for each block-row `i` and each `t`
in `[b_row_start[i], b_row_start[i+1])` the value
`b_values[t*r*c + row*c + col]` is placed at
`(i*r + row, b_col_idx[t]*c + col)`; every other entry is zero. -/
def bcsr_decode (T : bcsr_t) (rows cols : Nat) : List ℚ :=
  forLoop 0 T.br (fun i D =>
    forLoop (rdN T.b_row_start i) (rdN T.b_row_start (i + 1)) (fun t D =>
      forLoop 0 T.r (fun row D =>
        forLoop 0 T.c (fun col D =>
          D.set ((i * T.r + row) * cols + (rdN T.b_col_idx t * T.c + col))
            (rd T.b_values (t * T.r * T.c + row * T.c + col))) D) D) D)
    (List.replicate (rows * cols) 0)

/-- The number of stored (nonzero) blocks in block-row `brow`: the blocks of
that row containing at least one entry equal to `+1` or `-1`. -/
def bcsr_blocks_in_row (dense : List ℚ) (cols r c bc brow : Nat) : Nat :=
  ((List.range bc).filter (fun bcol => bcsr_need_new_block dense cols r c brow bcol)).length

/-- A dense buffer is ternary when every entry is `-1`, `0` or `+1`. -/
def Ternary (W : List ℚ) : Prop := ∀ w ∈ W, w = -1 ∨ w = 0 ∨ w = 1

/-- The activation `p(y) = y` if `y ≥ 0` and `a * y` otherwise. -/
def prelu (a y : ℚ) : ℚ := if 0 ≤ y then y else a * y

/-- The dot product `Σ_{k < K} X[m,k] * W[k,n]` of row `m` of `X` (`M × K`)
with column `n` of `W` (`K × N`). -/
def dot (X W : List ℚ) (N K m n : Nat) : ℚ :=
  ∑ k in Finset.range K, rd X (m * K + k) * rd W (k * N + n)

/-- Validity of a TCSC descriptor for a `K × N` weight matrix: both `col_start`
arrays have `N + 1` entries, are nondecreasing and end inside their
`row_index` array, and every stored row index lies in `[0, K)`. -/
def tcsc_valid (W : tcsc_t) (K N : Nat) : Prop :=
  W.col_start_pos.length = N + 1 ∧ W.col_start_neg.length = N + 1 ∧
  (∀ n, n < N → rdN W.col_start_pos n ≤ rdN W.col_start_pos (n + 1)) ∧
  (∀ n, n < N → rdN W.col_start_neg n ≤ rdN W.col_start_neg (n + 1)) ∧
  rdN W.col_start_pos N ≤ W.row_index_pos.length ∧
  rdN W.col_start_neg N ≤ W.row_index_neg.length ∧
  (∀ k ∈ W.row_index_pos, k < K) ∧ (∀ k ∈ W.row_index_neg, k < K)

/-- The sum of `X[m, row_index_pos[k]]` over the positive list of column `n`. -/
def tcsc_pos_sum (X : List ℚ) (W : tcsc_t) (K m n : Nat) : ℚ :=
  ((List.range' (rdN W.col_start_pos n)
    (rdN W.col_start_pos (n + 1) - rdN W.col_start_pos n)).map
      (fun k => rd X (m * K + rdN W.row_index_pos k))).sum

/-- The sum of `X[m, row_index_neg[k]]` over the negative list of column `n`. -/
def tcsc_neg_sum (X : List ℚ) (W : tcsc_t) (K m n : Nat) : ℚ :=
  ((List.range' (rdN W.col_start_neg n)
    (rdN W.col_start_neg (n + 1) - rdN W.col_start_neg n)).map
      (fun k => rd X (m * K + rdN W.row_index_neg k))).sum

/-- The value `B[n] + Σ_pos X[m,k] - Σ_neg X[m,k]` of output cell `(m, n)`. -/
def tcsc_val (X : List ℚ) (W : tcsc_t) (B : List ℚ) (K m n : Nat) : ℚ :=
  rd B n + tcsc_pos_sum X W K m n - tcsc_neg_sum X W K m n

/-- The rows `i < rows` of column `j` whose dense entry equals `t`, ascending. -/
def colRows (t : ℚ) (dense : List ℚ) (rows cols j : Nat) : List Nat :=
  (List.range rows).filter (fun i => rd dense (i * cols + j) = t)

/-- The concatenation of `colRows` over the columns before `j`. -/
def colsUpTo (t : ℚ) (dense : List ℚ) (rows cols : Nat) : Nat → List Nat
  | 0 => []
  | j + 1 => colsUpTo t dense rows cols j ++ colRows t dense rows cols j

/-- The row indices recorded by the column-major scan before it reaches row `i`
of column `j`. -/
def scanned (t : ℚ) (dense : List ℚ) (rows cols j i : Nat) : List Nat :=
  colsUpTo t dense rows cols j ++ (List.range i).filter (fun i => rd dense (i * cols + j) = t)

/-- Invariant of pass 2 of `tcsc_from_dense` for one sign (`t = 1` or `t = -1`):
`cs`, `ri`, `ctr` are the `col_start` array, the `row_index` array (of allocated
size `P`) and the write counter when the scan is about to visit row `i` of
column `j`, the first `jb` column starts being written. -/
structure Half (t : ℚ) (dense : List ℚ) (rows cols P jb j i : Nat)
    (cs ri : List Nat) (ctr : Nat) : Prop where
  cs_len : cs.length = cols + 1
  ri_len : ri.length = P
  ctr_eq : ctr = (scanned t dense rows cols j i).length
  take_eq : ri.take ctr = scanned t dense rows cols j i
  cs_eq : ∀ jj, jj < jb → rdN cs jj = (colsUpTo t dense rows cols jj).length

/-- Invariant of pass 2 of `tcsc_from_dense` on the whole loop state. -/
def FillInv (dense : List ℚ) (rows cols Pp Pn jb j i : Nat) (st : tcsc_fill) : Prop :=
  Half 1 dense rows cols Pp jb j i
    st.sparse.col_start_pos st.sparse.row_index_pos st.pos_counter ∧
  Half (-1) dense rows cols Pn jb j i
    st.sparse.col_start_neg st.sparse.row_index_neg st.neg_counter ∧
  st.sparse.rows = rows ∧ st.sparse.cols = cols ∧
  st.sparse.n_elem_pos = Pp ∧ st.sparse.n_elem_neg = Pn

/-- Indicator of a dense entry equal to `t`. -/
def ind (t : ℚ) (dense : List ℚ) (cols i j : Nat) : Nat :=
  if rd dense (i * cols + j) = t then 1 else 0

/-- The ternary reading of a dense entry: `+1` and `-1` are kept, every other
value counts as `0`. -/
def tern (w : ℚ) : ℚ := if w = 1 then 1 else if w = -1 then -1 else 0

instance (W : tcsc_t) (K N : Nat) : Decidable (tcsc_valid W K N) := by
  unfold tcsc_valid
  infer_instance

/-- The function `f` on buffers of length `L` acts cell by cell: the new value
of cell `p` is `F p` of its old value. -/
def Pointwise (L : Nat) (f : List ℚ → List ℚ) (F : Nat → ℚ → ℚ) : Prop :=
  ∀ Y : List ℚ, Y.length = L → (f Y).length = L ∧ ∀ p, p < L → rd (f Y) p = F p (rd Y p)

/-- The state of pass 2 of `tcsc_from_dense` (tcsc.c:45-60) when the inner loop
is about to visit row `i` of column `j`: the columns before `j` are done, the
two column starts of column `j` are written, and the rows before `i` of column
`j` are done.  With `j = cols` and `i = 0` it is the state after the two final
stores (tcsc.c:62-63). -/
def tcsc_fill_at (junk : Nat → Nat → Nat) (dense : List ℚ) (rows cols j i : Nat) : tcsc_fill :=
  let cnt := tcsc_count dense rows cols
  let n_elem_pos := cnt.1
  let n_elem_neg := cnt.2
  let sparse : tcsc_t :=
    { rows := rows
      cols := cols
      n_elem_pos := n_elem_pos
      n_elem_neg := n_elem_neg
      col_start_pos := malloc (junk 0) (cols + 1)
      col_start_neg := malloc (junk 1) (cols + 1)
      row_index_pos := malloc (junk 2) n_elem_pos
      row_index_neg := malloc (junk 3) n_elem_neg }
  let st := forLoop 0 j (tcsc_fill_col dense rows cols)
    { sparse := sparse, pos_counter := 0, neg_counter := 0 }
  let st : tcsc_fill :=
    { st with
      sparse := { st.sparse with
        col_start_pos := st.sparse.col_start_pos.set j st.pos_counter
        col_start_neg := st.sparse.col_start_neg.set j st.neg_counter } }
  forLoop 0 i (tcsc_fill_elem dense cols j) st

/-! ## `src/SparseGEMM.h`: the class `SparseFormat` -/

/-- The four vectors of the class `SparseFormat` (SparseGEMM.h:13-18). -/
structure SparseFormat where
  col_start_pos : List Nat
  col_start_neg : List Nat
  row_index_pos : List Nat
  row_index_neg : List Nat
  deriving DecidableEq

/-- The loop state of the constructor of `SparseFormat`: the object under
construction and the two running counts. -/
structure SparseFormat_state where
  this : SparseFormat
  column_start_pos : Nat
  column_start_neg : Nat

/-- The body of the inner loop of the constructor (SparseGEMM.h:27-34) at row
`k`, column `n`; `push_back` appends to the vector. -/
def SparseFormat_elem (matrix : List Int) (N n k : Nat) (st : SparseFormat_state) :
    SparseFormat_state :=
  if rdI matrix (k * N + n) ≥ 1 then
    { st with
      column_start_pos := st.column_start_pos + 1
      this := { st.this with row_index_pos := st.this.row_index_pos ++ [k] } }
  else if rdI matrix (k * N + n) ≤ -1 then
    { st with
      column_start_neg := st.column_start_neg + 1
      this := { st.this with row_index_neg := st.this.row_index_neg ++ [k] } }
  else st

/-- The body of the outer loop of the constructor (SparseGEMM.h:24-35) at
column `n`. -/
def SparseFormat_col (matrix : List Int) (K N n : Nat) (st : SparseFormat_state) :
    SparseFormat_state :=
  let st : SparseFormat_state :=
    { st with
      this := { st.this with
        col_start_pos := st.this.col_start_pos ++ [st.column_start_pos]
        col_start_neg := st.this.col_start_neg ++ [st.column_start_neg] } }
  forLoop 0 K (SparseFormat_elem matrix N n) st

/-- The constructor `SparseFormat::SparseFormat(int* matrix, int K, int N)`
(SparseGEMM.h:20-39). -/
def SparseFormat_new (matrix : List Int) (K N : Nat) : SparseFormat :=
  let st := forLoop 0 N (SparseFormat_col matrix K N)
    { this := { col_start_pos := [], col_start_neg := [], row_index_pos := [],
                row_index_neg := [] }
      column_start_pos := 0
      column_start_neg := 0 }
  { st.this with
    col_start_pos := st.this.col_start_pos ++ [st.column_start_pos]
    col_start_neg := st.this.col_start_neg ++ [st.column_start_neg] }

/-- The rows `k < K` of column `n` whose entry satisfies `q`, ascending. -/
def rowsWhere (q : Int → Bool) (matrix : List Int) (K N n : Nat) : List Nat :=
  (List.range K).filter (fun k => q (rdI matrix (k * N + n)))

/-- The concatenation of the lists `f 0, ..., f (n - 1)`. -/
def catUpTo (f : Nat → List Nat) : Nat → List Nat
  | 0 => []
  | n + 1 => catUpTo f n ++ f n

/-- Invariant of the constructor of `SparseFormat` for one sign, when the scan
is about to visit row `k` of column `n`, `nb` column starts being pushed. -/
structure SfHalf (q : Int → Bool) (matrix : List Int) (K N nb n k : Nat)
    (cs ri : List Nat) (ctr : Nat) : Prop where
  ri_eq : ri = catUpTo (rowsWhere q matrix K N) n ++
    (List.range k).filter (fun k => q (rdI matrix (k * N + n)))
  ctr_eq : ctr = ri.length
  cs_eq : cs = (List.range nb).map (fun j => (catUpTo (rowsWhere q matrix K N) j).length)

/-! ## `src/sparse/bcsr.c`: the fused and the vector kernels -/

/-- The function `bcsr_sgemm_prelu_basic` (bcsr.c:177-218). -/
def bcsr_sgemm_prelu_basic (X : List ℚ) (W : bcsr_t) (B : List ℚ) (a : ℚ) (Y : List ℚ)
    (M N K : Nat) : List ℚ :=
  let r := W.r
  let c := W.c
  let Y := forLoop 0 M (fun m Y =>
    forLoop 0 N (fun n Y => Y.set (m * N + n) (rd B n)) Y) Y
  forLoop 0 M (fun m Y =>
    forLoop 0 W.br (fun br Y =>
      forLoop (rdN W.b_row_start br) (rdN W.b_row_start (br + 1)) (fun bi Y =>
        let bc := rdN W.b_col_idx bi
        forLoop 0 r (fun i Y =>
          forLoop 0 c (fun j Y =>
            let val := rd W.b_values (bi * r * c + i * c + j)
            let result := rd Y (m * N + bc * c + j)
            let result := result + rd X (m * K + br * r + i) * val
            let result := if result > 0 then result else a * result
            Y.set (m * N + bc * c + j) result) Y) Y) Y) Y) Y

/-- The loop `for (int i = lo; i < hi; i += step) s = body i s`. -/
def forLoopStep {σ : Type} (lo hi step : Nat) (body : Nat → σ → σ) (s : σ) : σ :=
  (List.range' lo ((hi - lo + step - 1) / step) step).foldl (fun s i => body i s) s

/-- The intrinsic `_mm256_load_ps(&p[i])`: the eight lanes `p[i], ..., p[i+7]`. -/
def mm256_load_ps (p : List ℚ) (i : Nat) : List ℚ :=
  (List.range 8).map (fun l => rd p (i + l))

/-- The intrinsic `_mm256_store_ps(&p[i], v)`: lane `l` of `v` goes to `p[i+l]`. -/
def mm256_store_ps (p : List ℚ) (i : Nat) (v : List ℚ) : List ℚ :=
  forLoop 0 8 (fun l p => p.set (i + l) (rd v l)) p

/-- The intrinsic `_mm256_set1_ps(x)`: `x` broadcast to the eight lanes. -/
def mm256_set1_ps (x : ℚ) : List ℚ := List.replicate 8 x

/-- The intrinsic `_mm256_fmadd_ps(a, b, c)`: lane-wise `a * b + c`, exact. -/
def mm256_fmadd_ps (a b c : List ℚ) : List ℚ :=
  (List.range 8).map (fun l => rd a l * rd b l + rd c l)

/-- The function `bcsr_sgemm_avx` (bcsr.c:222-261). -/
def bcsr_sgemm_avx (X : List ℚ) (W : bcsr_t) (B Y : List ℚ) (M N K : Nat) : List ℚ :=
  let Y := forLoop 0 M (fun m Y =>
    forLoopStep 0 N 8 (fun n Y =>
      let b := mm256_load_ps B n
      mm256_store_ps Y (m * N + n) b) Y) Y
  let r := W.r
  let c := W.c
  forLoop 0 M (fun m Y =>
    forLoop 0 W.br (fun br Y =>
      forLoop (rdN W.b_row_start br) (rdN W.b_row_start (br + 1)) (fun bi Y =>
        let bc := rdN W.b_col_idx bi
        forLoop 0 r (fun i Y =>
          let val := rd X (m * K + br * r + i)
          let x := mm256_set1_ps val
          let w := mm256_load_ps W.b_values (bi * r * c + i * c)
          let y := mm256_load_ps Y (m * N + bc * c)
          let y := mm256_fmadd_ps x w y
          mm256_store_ps Y (m * N + bc * c) y) Y) Y) Y) Y

/-- The effect of iteration `m` of the row loop of a scalar BCSR kernel on the
content `x` of cell `p`; `upd x t` is the new content of a cell holding `x` when
the product `t` is accumulated into it. -/
def bcsr_cell (upd : ℚ → ℚ → ℚ) (X : List ℚ) (W : bcsr_t) (N K p m : Nat) (x : ℚ) : ℚ :=
  forLoop 0 W.br (fun br x =>
    forLoop (rdN W.b_row_start br) (rdN W.b_row_start (br + 1)) (fun bi x =>
      forLoop 0 W.r (fun i x =>
        forLoop 0 W.c (fun j x =>
          if p = m * N + rdN W.b_col_idx bi * W.c + j then
            upd x (rd X (m * K + br * W.r + i) * rd W.b_values (bi * W.r * W.c + i * W.c + j))
          else x) x) x) x) x

/-- Validity of a BCSR descriptor for a `K × N` weight matrix: `b_row_start`
has `br + 1` nondecreasing entries and ends inside `b_col_idx`, `b_values`
holds one `r × c` block per entry of `b_col_idx`, the block rows fit in `K`
rows and every stored block-column fits in `N` columns. -/
def bcsr_valid (W : bcsr_t) (K N : Nat) : Prop :=
  W.b_row_start.length = W.br + 1 ∧
  (∀ i, i < W.br → rdN W.b_row_start i ≤ rdN W.b_row_start (i + 1)) ∧
  rdN W.b_row_start W.br ≤ W.b_col_idx.length ∧
  W.b_values.length = W.b_col_idx.length * (W.r * W.c) ∧
  W.br * W.r ≤ K ∧
  (∀ bc ∈ W.b_col_idx, (bc + 1) * W.c ≤ N)

instance (W : bcsr_t) (K N : Nat) : Decidable (bcsr_valid W K N) := by
  unfold bcsr_valid
  infer_instance

/-- Block `(brow, bcol)` contains at least one entry equal to `+1` or `-1`. -/
def bcsr_block_nonzero (dense : List ℚ) (cols r c brow bcol : Nat) : Prop :=
  ∃ row, row < r ∧ ∃ col, col < c ∧
    (rd dense ((brow * r + row) * cols + (bcol * c + col)) = -1 ∨
     rd dense ((brow * r + row) * cols + (bcol * c + col)) = 1)

instance (dense : List ℚ) (cols r c brow bcol : Nat) :
    Decidable (bcsr_block_nonzero dense cols r c brow bcol) := by
  unfold bcsr_block_nonzero
  infer_instance

/-- The positions `q = brow * bc + bcol` of the blocks that contain an entry
equal to `+1` or `-1`, in row-major block-scan order. -/
def bcsr_stored (dense : List ℚ) (cols r c br bc : Nat) : List Nat :=
  (List.range (br * bc)).filter
    (fun q => decide (bcsr_block_nonzero dense cols r c (q / bc) (q % bc)))

/-- The number of stored blocks before position `q` of the block scan. -/
def bcsr_rank (dense : List ℚ) (cols r c bc q : Nat) : Nat :=
  ((List.range q).filter
    (fun q => decide (bcsr_block_nonzero dense cols r c (q / bc) (q % bc)))).length

/-- Invariant of pass 1 of `bcsr_from_dense` when the scan is about to visit
block position `q`. -/
structure ScanInv (dense : List ℚ) (cols r c br bc q : Nat) (st : bcsr_scan) : Prop where
  k_eq : st.k = bcsr_rank dense cols r c bc q
  len : st.is_valid_block.length = br * bc
  cell : ∀ p, p < br * bc → rdI st.is_valid_block p =
    if p < q ∧ bcsr_block_nonzero dense cols r c (p / bc) (p % bc)
    then (bcsr_rank dense cols r c bc p : Int) else -1

/-- Invariant of pass 2 of `bcsr_from_dense` when the scan is about to visit
block position `q`: the blocks stored so far have their column index and their
values in place. -/
structure BlockInv (dense : List ℚ) (cols r c br bc k q : Nat) (st : bcsr_fill) : Prop where
  k_eq : st.matrix.k = k
  r_eq : st.matrix.r = r
  c_eq : st.matrix.c = c
  br_eq : st.matrix.br = br
  bc_eq : st.matrix.bc = bc
  col_len : st.matrix.b_col_idx.length = k
  val_len : st.matrix.b_values.length = k * (r * c)
  col : ∀ p, p < q → bcsr_block_nonzero dense cols r c (p / bc) (p % bc) →
    rdN st.matrix.b_col_idx (bcsr_rank dense cols r c bc p) = p % bc
  val : ∀ p, p < q → bcsr_block_nonzero dense cols r c (p / bc) (p % bc) →
    ∀ e, e < r * c → rd st.matrix.b_values (bcsr_rank dense cols r c bc p * (r * c) + e) =
      rd dense ((p / bc * r + e / c) * cols + (p % bc * c + e % c))

/-! ## `src/SparseGEMM.h`: `sparseGEMM`, `GEMM`, `compare_results` -/

/-- The function `sparseGEMM` (SparseGEMM.h:104-119) at element type `ℚ`, which
contains the integers. -/
def sparseGEMM (X : List ℚ) (col_start_pos col_start_neg row_index_pos row_index_neg : List Nat)
    (b Y : List ℚ) (M N K : Nat) : List ℚ :=
  forLoop 0 M (fun m Y =>
    forLoop 0 N (fun n Y =>
      let y : ℚ := 0
      let y := forLoop (rdN col_start_pos n) (rdN col_start_pos (n + 1))
        (fun k y => y + rd X (m * K + rdN row_index_pos k)) y
      let y := forLoop (rdN col_start_neg n) (rdN col_start_neg (n + 1))
        (fun k y => y - rd X (m * K + rdN row_index_neg k)) y
      Y.set (m * N + n) (y + rd b n)) Y) Y

/-- The function `GEMM` (SparseGEMM.h:121-133) at element type `ℚ`. -/
def GEMM (X W b Y : List ℚ) (M N K : Nat) : List ℚ :=
  forLoop 0 M (fun m Y =>
    forLoop 0 N (fun n Y =>
      let y : ℚ := 0
      let y := forLoop 0 K (fun k y => y + rd X (m * K + k) * rd W (k * N + n)) y
      Y.set (m * N + n) (y + rd b n)) Y) Y

/-- The scan of `compare_results` (SparseGEMM.h:173-181): `none` while no
mismatch has been found, `some (h, w, result[i], groundTruth[i])` once the
function has printed the mismatch and returned `false`.  The literal `10e-6` is
`1/100000`. -/
def compare_results_scan (result groundTruth : List ℚ) (H W : Nat) :
    Option (Nat × Nat × ℚ × ℚ) :=
  forLoop 0 H (fun h ret =>
    forLoop 0 W (fun w ret =>
      match ret with
      | some r => some r
      | none =>
        let i := h * W + w
        if |rd result i - rd groundTruth i| > 10 / 1000000 then
          some (h, w, rd result i, rd groundTruth i)
        else none) ret) none

/-- The function `compare_results` (SparseGEMM.h:171-184). -/
def compare_results (result groundTruth : List ℚ) (H W : Nat) : Bool :=
  (compare_results_scan result groundTruth H W).isNone

/-- The conversion `vector<float> W_FP32(W.begin(), W.end())` of the integer
weight matrix to the element type (SparseGEMM.cpp:97). -/
def W_FP32 (W : List Int) : List ℚ := W.map (fun (w : Int) => (w : ℚ))

/-! ## `src/dense/utils.h`, `src/dense/dense.c`: the random ternary generator -/

/-- The value `p_zero = (float) (non_zero - 1) / non_zero` of `rands_sparse`
(utils.h:42), exact. -/
def rands_sparse_p_zero (non_zero : Nat) : ℚ :=
  (((non_zero : Int) - 1 : Int) : ℚ) / ((non_zero : Int) : ℚ)

/-- The value `p_one = 1. / (2 * non_zero)` of `rands_sparse` (utils.h:43),
exact. -/
def rands_sparse_p_one (non_zero : Nat) : ℚ := 1 / ((2 * (non_zero : Int) : Int) : ℚ)

/-- The weights `{p_one, p_zero, p_one}` that `rands_sparse` passes to
`std::discrete_distribution` for the outcomes 0, 1, 2 (utils.h:59-64). -/
def rands_sparse_weights (non_zero : Nat) : List ℚ :=
  [rands_sparse_p_one non_zero, rands_sparse_p_zero non_zero, rands_sparse_p_one non_zero]

/-- The function `rands_sparse` (utils.h:36-68).  The library distribution is a
parameter: `discrete_distribution w i` is the outcome of the `i`-th draw of
`dist(gen)` for the distribution built from the three weights `w`, an index
into the three weights. -/
def rands_sparse (discrete_distribution : List ℚ → Nat → Fin 3) (m : List ℚ)
    (rows cols non_zero : Nat) : List ℚ :=
  let dist := discrete_distribution (rands_sparse_weights non_zero)
  forLoop 0 (rows * cols) (fun i m => m.set i (((dist i).val : ℚ) - 1)) m

/-- The function `init_rand_sparse` (dense.c:28-37); `junk` is the initial
content of the allocated buffer. -/
def init_rand_sparse (discrete_distribution : List ℚ → Nat → Fin 3) (junk : Nat → ℚ)
    (rows cols non_zero : Nat) : List ℚ :=
  let m := malloc junk (rows * cols)
  rands_sparse discrete_distribution m rows cols non_zero

/-- The probability that `std::discrete_distribution` built from the weights
`w` gives to outcome `i`: the weight of `i` divided by the sum of the weights. -/
def discrete_probability (w : List ℚ) (i : Nat) : ℚ := rd w i / w.sum

/-! ## `src/sparse/bcsr.c`: the fused vector kernel and the unrolled kernel -/

/-- The intrinsic `_mm256_setzero_ps()`. -/
def mm256_setzero_ps : List ℚ := List.replicate 8 0

/-- The intrinsic `_mm256_cmp_ps(a, b, _CMP_GT_OS)`: lane `l` of the mask is set
when `a[l] > b[l]`. -/
def mm256_cmp_ps_GT_OS (a b : List ℚ) : List Bool :=
  (List.range 8).map (fun l => decide (rd a l > rd b l))

/-- The intrinsic `_mm256_mul_ps(a, b)`: lane-wise product, exact. -/
def mm256_mul_ps (a b : List ℚ) : List ℚ :=
  (List.range 8).map (fun l => rd a l * rd b l)

/-- The intrinsic `_mm256_blendv_ps(a, b, mask)`: lane `l` is `b[l]` where the
mask is set and `a[l]` elsewhere. -/
def mm256_blendv_ps (a b : List ℚ) (mask : List Bool) : List ℚ :=
  (List.range 8).map (fun l => if mask.getD l false then rd b l else rd a l)

/-- The function `bcsr_sgemm_prelu_avx` (bcsr.c:264-312). -/
def bcsr_sgemm_prelu_avx (X : List ℚ) (W : bcsr_t) (B : List ℚ) (a : ℚ) (Y : List ℚ)
    (M N K : Nat) : List ℚ :=
  let r := W.r
  let c := W.c
  let Y := forLoop 0 M (fun m Y =>
    forLoopStep 0 N 8 (fun n Y =>
      let b := mm256_load_ps B n
      mm256_store_ps Y (m * N + n) b) Y) Y
  let relu_param := mm256_set1_ps a
  let zero := mm256_setzero_ps
  forLoop 0 M (fun m Y =>
    forLoop 0 W.br (fun br Y =>
      forLoop (rdN W.b_row_start br) (rdN W.b_row_start (br + 1)) (fun bi Y =>
        let bc := rdN W.b_col_idx bi
        forLoop 0 r (fun i Y =>
          let val := rd X (m * K + br * r + i)
          let x := mm256_set1_ps val
          let w := mm256_load_ps W.b_values (bi * r * c + i * c)
          let y := mm256_load_ps Y (m * N + bc * c)
          let y := mm256_fmadd_ps x w y
          let mask := mm256_cmp_ps_GT_OS y zero
          let neg_part := mm256_mul_ps y relu_param
          let y := mm256_blendv_ps neg_part y mask
          mm256_store_ps Y (m * N + bc * c) y) Y) Y) Y) Y

/-- The function `bcsr_sgemm_avx2` (bcsr.c:316-385). -/
def bcsr_sgemm_avx2 (X : List ℚ) (W : bcsr_t) (B Y : List ℚ) (M N K : Nat) : List ℚ :=
  let Y := forLoop 0 M (fun m Y =>
    forLoopStep 0 N 8 (fun n Y =>
      let b := mm256_load_ps B n
      mm256_store_ps Y (m * N + n) b) Y) Y
  let r := W.r
  let c := W.c
  forLoop 0 M (fun m Y =>
    forLoop 0 W.br (fun br Y =>
      forLoop (rdN W.b_row_start br) (rdN W.b_row_start (br + 1)) (fun bi Y =>
        let bc := rdN W.b_col_idx bi
        let index_x := m * K + br * r
        let index_w := bi * r * c
        let index_y := m * N + bc * c
        let x_0 := mm256_set1_ps (rd X index_x)
        let x_1 := mm256_set1_ps (rd X (index_x + 1))
        let x_2 := mm256_set1_ps (rd X (index_x + 2))
        let x_3 := mm256_set1_ps (rd X (index_x + 3))
        let x_4 := mm256_set1_ps (rd X (index_x + 4))
        let x_5 := mm256_set1_ps (rd X (index_x + 5))
        let x_6 := mm256_set1_ps (rd X (index_x + 6))
        let x_7 := mm256_set1_ps (rd X (index_x + 7))
        let w_0 := mm256_load_ps W.b_values (index_w + 0)
        let w_1 := mm256_load_ps W.b_values (index_w + 1 * c)
        let w_2 := mm256_load_ps W.b_values (index_w + 2 * c)
        let w_3 := mm256_load_ps W.b_values (index_w + 3 * c)
        let w_4 := mm256_load_ps W.b_values (index_w + 4 * c)
        let w_5 := mm256_load_ps W.b_values (index_w + 5 * c)
        let w_6 := mm256_load_ps W.b_values (index_w + 6 * c)
        let w_7 := mm256_load_ps W.b_values (index_w + 7 * c)
        let y := mm256_load_ps Y index_y
        let y := mm256_fmadd_ps x_0 w_0 y
        let y := mm256_fmadd_ps x_1 w_1 y
        let y := mm256_fmadd_ps x_2 w_2 y
        let y := mm256_fmadd_ps x_3 w_3 y
        let y := mm256_fmadd_ps x_4 w_4 y
        let y := mm256_fmadd_ps x_5 w_5 y
        let y := mm256_fmadd_ps x_6 w_6 y
        let y := mm256_fmadd_ps x_7 w_7 y
        mm256_store_ps Y index_y y) Y) Y) Y

/-- The scalar kernel `bcsr_sgemm_basic` with its innermost loop cut after the
first `w` columns of every stored block (specification side: with `w = W.c` it
is `bcsr_sgemm_basic` itself). -/
def bcsr_sgemm_basic_cols (w : Nat) (X : List ℚ) (W : bcsr_t) (B Y : List ℚ) (M N K : Nat) :
    List ℚ :=
  let Y := forLoop 0 M (fun m Y =>
    forLoop 0 N (fun n Y => Y.set (m * N + n) (rd B n)) Y) Y
  let r := W.r
  let c := W.c
  forLoop 0 M (fun m Y =>
    forLoop 0 W.br (fun br Y =>
      forLoop (rdN W.b_row_start br) (rdN W.b_row_start (br + 1)) (fun bi Y =>
        let bc := rdN W.b_col_idx bi
        forLoop 0 r (fun i Y =>
          forLoop 0 w (fun j Y =>
            let val := rd W.b_values (bi * r * c + i * c + j)
            Y.set (m * N + bc * c + j)
              (rd Y (m * N + bc * c + j) + rd X (m * K + br * r + i) * val)) Y) Y) Y) Y) Y

/-- The function `compare` (dense.c:42-59) with the memory it works on made
explicit: the state carries the two buffers next to the mismatch report.  The
loop body reads them and contains no store. -/
def compare_state (result target : List ℚ) (rows cols : Nat) :
    Option (Nat × Nat × ℚ × ℚ) × List ℚ × List ℚ :=
  forLoop 0 rows (fun row st =>
    forLoop 0 cols (fun col st =>
      match st.1 with
      | some _ => st
      | none =>
        let ij := row * cols + col
        let res := rd st.2.1 ij
        let tar := rd st.2.2 ij
        if |res - tar| > compare_tol then (some (row, col, tar, res), st.2.1, st.2.2)
        else st) st) (none, result, target)

/-- The state of the scan of `compare` when it is about to visit the row-major
position `q`: either nothing was reported and every earlier element is within
tolerance, or `s` is the report of the first element out of tolerance. -/
def CompareInv (result target : List ℚ) (cols q : Nat) (s : Option (Nat × Nat × ℚ × ℚ)) :
    Prop :=
  (s = none ∧ ∀ i, i < q → |rd result i - rd target i| ≤ compare_tol) ∨
  ∃ row col, col < cols ∧ row * cols + col < q ∧
    s = some (row, col, rd target (row * cols + col), rd result (row * cols + col)) ∧
    |rd result (row * cols + col) - rd target (row * cols + col)| > compare_tol ∧
    ∀ i, i < row * cols + col → |rd result i - rd target i| ≤ compare_tol

/-! ## `src/sparse/bcsr.c`: the memory accesses of `bcsr_from_dense` -/

/-- One access of `bcsr_from_dense` to one of its buffers: the read
`dense[i * cols + j]`, a read or a write of `is_valid_block[i]`, and the writes
`b_row_start[i]`, `b_col_idx[i]`, `b_values[i]`.  The last two are indexed by
`int` expressions built from `block_index`, which are kept as integers. -/
inductive bcsr_access where
  | dense_read (i j : Nat)
  | is_valid_block_write (i : Nat)
  | is_valid_block_read (i : Nat)
  | b_row_start_write (i : Nat)
  | b_col_idx_write (i : Int)
  | b_values_write (i : Int)
  deriving DecidableEq

/-- The accesses of the initialisation loop and of pass 1 of `bcsr_from_dense`
(bcsr.c:40-72), in program order. -/
def bcsr_pass1_trace (dense : List ℚ) (cols r c br bc : Nat) : List bcsr_access :=
  let log := forLoop 0 (br * bc) (fun i log => log ++ [bcsr_access.is_valid_block_write i]) []
  forLoop 0 br (fun brow log =>
    forLoop 0 bc (fun bcol log =>
      let log := forLoop 0 r (fun row log =>
        forLoop 0 c (fun col log =>
          let i := brow * r + row
          let j := bcol * c + col
          log ++ [bcsr_access.dense_read i j]) log) log
      if bcsr_need_new_block dense cols r c brow bcol then
        log ++ [bcsr_access.is_valid_block_write (brow * bc + bcol)]
      else log) log) log

/-- The loop state of pass 2 of `bcsr_from_dense` as far as the accesses depend
on it, with the accesses made so far. -/
structure bcsr_trace_fill where
  log : List bcsr_access
  b_row_start_index : Nat
  is_new_row : Bool

/-- The accesses of the body of the inner loop of pass 2 (bcsr.c:107-134) at
block `(brow, bcol)`. -/
def bcsr_fill_block_trace (is_valid_block : List Int) (r c bc brow bcol : Nat)
    (st : bcsr_trace_fill) : bcsr_trace_fill :=
  let st : bcsr_trace_fill :=
    { st with log := st.log ++ [bcsr_access.is_valid_block_read (brow * bc + bcol)] }
  let block_index := rdI is_valid_block (brow * bc + bcol)
  if block_index = -1 then st
  else
    let st : bcsr_trace_fill :=
      if st.is_new_row then
        { log := st.log ++ [bcsr_access.b_row_start_write st.b_row_start_index]
          b_row_start_index := st.b_row_start_index + 1
          is_new_row := false }
      else st
    let st : bcsr_trace_fill :=
      { st with log := st.log ++ [bcsr_access.b_col_idx_write block_index] }
    { st with
      log := forLoop 0 r (fun row log =>
        forLoop 0 c (fun col log =>
          let i := brow * r + row
          let j := bcol * c + col
          let bij : Int := block_index * r * c + (row * c + col)
          log ++ [bcsr_access.dense_read i j, bcsr_access.b_values_write bij]) log) st.log }

/-- The accesses of pass 2 of `bcsr_from_dense` (bcsr.c:99-137), appended to the
accesses `log` made before it. -/
def bcsr_pass2_trace (is_valid_block : List Int) (r c br bc : Nat) (log : List bcsr_access) :
    List bcsr_access :=
  let st := forLoop 0 br (fun brow st =>
    forLoop 0 bc (bcsr_fill_block_trace is_valid_block r c bc brow)
      { st with is_new_row := true })
    { log := log, b_row_start_index := 0, is_new_row := true }
  st.log ++ [bcsr_access.b_row_start_write st.b_row_start_index]

/-- All buffer accesses of `bcsr_from_dense` (bcsr.c:19-139), in program
order. -/
def bcsr_from_dense_trace (junk : bcsr_junk) (dense : List ℚ) (rows cols r c : Nat) :
    List bcsr_access :=
  let br := rows / r
  let bc := cols / c
  let p1 := bcsr_pass1 junk dense cols r c br bc
  bcsr_pass2_trace p1.is_valid_block r c br bc (bcsr_pass1_trace dense cols r c br bc)

/-- The access is inside its buffer: `dense` holds `rows * cols` elements,
`is_valid_block` holds `br * bc`, `b_row_start` holds `1 * (br + 1)`, `b_col_idx`
holds `1 * k` and `b_values` holds `k * (r * c)`, with `br = rows / r` and
`bc = cols / c`; a dense read moreover stays in the rows below `br * r` and the
columns below `bc * c`. -/
def bcsr_access_ok (rows cols r c k : Nat) : bcsr_access → Prop
  | bcsr_access.dense_read i j =>
      i < rows / r * r ∧ j < cols / c * c ∧ i * cols + j < rows * cols
  | bcsr_access.is_valid_block_write i => i < rows / r * (cols / c)
  | bcsr_access.is_valid_block_read i => i < rows / r * (cols / c)
  | bcsr_access.b_row_start_write i => i < 1 * (rows / r + 1)
  | bcsr_access.b_col_idx_write i => 0 ≤ i ∧ i < ((1 * k : Nat) : Int)
  | bcsr_access.b_values_write i => 0 ≤ i ∧ i < ((k * (r * c) : Nat) : Int)

/-- Invariant of pass 2 on the access state when the scan is in block-row
`brow`. -/
def TraceInv (P : bcsr_access → Prop) (brow : Nat) (st : bcsr_trace_fill) : Prop :=
  (∀ a ∈ st.log, P a) ∧ (st.is_new_row = true → st.b_row_start_index ≤ brow) ∧
  st.b_row_start_index ≤ brow + 1

/-! ## `src/SparseGEMM.h`: `generateSparseMatrix`, the non-uniform branch -/

/-- The loop `while (cond s) s = body s`, run for at most `fuel + 1` tests of
the condition: `none` when the loop has not ended by then. -/
def whileLoop {σ : Type} (cond : σ → Bool) (body : σ → σ) : Nat → σ → Option σ
  | 0, s => if cond s then none else some s
  | fuel + 1, s => if cond s then whileLoop cond body fuel (body s) else some s

/-- The state of a placement loop of `generateSparseMatrix`: the matrix, the
counter `count` and the number of draws taken from `generator` so far. -/
structure place_state where
  y : List Int
  count : Nat
  generator : Nat

/-- One of the two placement loops of `generateSparseMatrix`
(SparseGEMM.h:80-87 with `v = 1`, 90-97 with `v = -1`), started with
`count = 0`.  `range i` is the outcome of `range(generator)` when `i` draws have
been taken before it. -/
def generateSparseMatrix_place (range : Nat → Nat) (fuel W h : Nat) (v limit : Int)
    (y : List Int) (generator : Nat) : Option place_state :=
  whileLoop (fun s => decide ((s.count : Int) < limit))
    (fun s =>
      let randomA := range s.generator
      if rdI s.y (h * W + randomA) = 0 then
        { y := s.y.set (h * W + randomA) v, count := s.count + 1, generator := s.generator + 1 }
      else { s with generator := s.generator + 1 })
    fuel { y := y, count := 0, generator := generator }

/-- The body of the row loop of `generateSparseMatrix` (SparseGEMM.h:74-98) at
row `h`, on the matrix and the number of draws taken so far. -/
def generateSparseMatrix_row (uniform_int_distribution : Nat → Nat → Nat → Nat)
    (fuel W nonZero h : Nat) (st : List Int × Nat) : Option (List Int × Nat) :=
  let range := uniform_int_distribution 0 (W - 1)
  let variRange := uniform_int_distribution 0 (W / nonZero / 20 + 1)
  let posVari := variRange st.2
  let limitPos : Int := ((W / nonZero / 2 : Nat) : Int) + (posVari : Int)
  let limitNeg : Int := ((W / nonZero / 2 : Nat) : Int) - (posVari : Int)
  match generateSparseMatrix_place range fuel W h 1 limitPos st.1 (st.2 + 1) with
  | none => none
  | some s =>
    match generateSparseMatrix_place range fuel W h (-1) limitNeg s.y s.generator with
    | none => none
    | some s => some (s.y, s.generator)

/-- The function `generateSparseMatrix<int>(H, W, nonZero, false)`
(SparseGEMM.h:53-102, the branch `uniformDistribution = false`).  The library
distribution is a parameter: `uniform_int_distribution a b i` is the outcome of
a draw from `uniform_int_distribution<int>(a, b)` when `i` draws have been taken
from the generator before it.  Each `while` loop is run for at most `fuel + 1`
tests of its condition; the result is `none` when one of them has not ended. -/
def generateSparseMatrix (uniform_int_distribution : Nat → Nat → Nat → Nat)
    (fuel H W nonZero : Nat) : Option (List Int) :=
  let y : List Int := List.replicate (H * W) 0
  let st := forLoop 0 H (fun h st =>
    match st with
    | none => none
    | some s => generateSparseMatrix_row uniform_int_distribution fuel W nonZero h s)
    (some (y, 0))
  match st with
  | none => none
  | some s => some s.1

/-- The number of columns `w < n` with `y[base + w] = u`. -/
def countRow (u : Int) (y : List Int) (base n : Nat) : Nat :=
  ((List.range n).filter (fun w => rdI y (base + w) = u)).length

/-- Invariant of a placement loop of `generateSparseMatrix` that writes `v` into
the row starting at `base` of a matrix of `L` elements that was `y0` when the
loop began. -/
structure PlaceInv (v limit : Int) (y0 : List Int) (L base W : Nat) (s : place_state) :
    Prop where
  len : s.y.length = L
  le : (s.count : Int) ≤ limit
  hit : countRow v s.y base W = countRow v y0 base W + s.count
  other : ∀ u, u ≠ v → u ≠ 0 → countRow u s.y base W = countRow u y0 base W
  frame : ∀ p, (p < base ∨ base + W ≤ p) → rdI s.y p = rdI y0 p
  vals : ∀ p, rdI s.y p = rdI y0 p ∨ rdI s.y p = v

/-- Row `h` of the generated matrix holds `limitPos` entries `+1` and `limitNeg`
entries `-1` for a drawn `posVari` within its range. -/
def RowOK (y : List Int) (W nonZero h : Nat) : Prop :=
  ∃ posVari : Nat, posVari ≤ W / nonZero / 20 + 1 ∧ posVari ≤ W / nonZero / 2 ∧
    countRow 1 y (h * W) W = W / nonZero / 2 + posVari ∧
    countRow (-1) y (h * W) W = W / nonZero / 2 - posVari

/-- Invariant of the row loop of `generateSparseMatrix` before row `h`. -/
def GenInv (H W nonZero h : Nat) (st : Option (List Int × Nat)) : Prop :=
  ∀ s, st = some s →
    s.1.length = H * W ∧
    (∀ p, rdI s.1 p = -1 ∨ rdI s.1 p = 0 ∨ rdI s.1 p = 1) ∧
    (∀ p, h * W ≤ p → rdI s.1 p = 0) ∧
    ∀ h2, h2 < h → RowOK s.1 W nonZero h2

/-! ## Loop lemmas -/

theorem forLoop_empty {σ : Type} (lo hi : Nat) (h : hi ≤ lo) (body : Nat → σ → σ) (s : σ) :
    forLoop lo hi body s = s := by
  unfold forLoop
  rw [Nat.sub_eq_zero_of_le h]
  rfl

theorem forLoop_succ {σ : Type} (lo hi : Nat) (h : lo ≤ hi) (body : Nat → σ → σ) (s : σ) :
    forLoop lo (hi + 1) body s = body hi (forLoop lo hi body s) := by
  unfold forLoop
  have e : hi + 1 - lo = (hi - lo) + 1 := by omega
  rw [e, List.range'_concat, List.foldl_append]
  simp only [List.foldl_cons, List.foldl_nil, one_mul]
  congr 1
  omega

/-- Invariant rule for `forLoop`. -/
theorem forLoop_inv {σ : Type} (P : Nat → σ → Prop) (lo hi : Nat) (h : lo ≤ hi)
    (body : Nat → σ → σ) (s : σ) (h0 : P lo s)
    (hstep : ∀ i s, lo ≤ i → i < hi → P i s → P (i + 1) (body i s)) :
    P hi (forLoop lo hi body s) := by
  induction hi, h using Nat.le_induction with
  | base => rw [forLoop_empty lo lo (le_refl _)]; exact h0
  | succ n hn ih =>
    rw [forLoop_succ lo n hn]
    exact hstep n _ hn (Nat.lt_succ_self n)
      (ih (fun i s h1 h2 hp => hstep i s h1 (Nat.lt_succ_of_lt h2) hp))

/-- A loop whose iterations other than `own` leave the value alone. -/
theorem forLoop_owner {σ : Type} (lo hi own : Nat) (G : Nat → σ → σ) (x : σ)
    (h : ∀ i, lo ≤ i → i < hi → i ≠ own → ∀ y, G i y = y) :
    forLoop lo hi G x = if lo ≤ own ∧ own < hi then G own x else x := by
  rcases Nat.lt_or_ge hi lo with hlt | hge
  · rw [forLoop_empty lo hi (Nat.le_of_lt hlt), if_neg (by omega)]
  · induction hi, hge using Nat.le_induction with
    | base => rw [forLoop_empty lo lo (le_refl _), if_neg (by omega)]
    | succ n hn ih =>
      rw [forLoop_succ lo n hn, ih (fun i h1 h2 => h i h1 (Nat.lt_succ_of_lt h2))]
      by_cases e : n = own
      · subst e
        rw [if_neg (by omega), if_pos (by omega)]
      · rw [h n hn (Nat.lt_succ_self n) e]
        by_cases c : lo ≤ own ∧ own < n
        · rw [if_pos c, if_pos (by omega)]
        · rw [if_neg c, if_neg (by omega)]

/-- An accumulation loop adds the sum of its terms. -/
theorem forLoop_add (lo hi : Nat) (g : Nat → ℚ) (y : ℚ) :
    forLoop lo hi (fun k y => y + g k) y = y + ((List.range' lo (hi - lo)).map g).sum := by
  unfold forLoop
  generalize List.range' lo (hi - lo) = l
  induction l generalizing y with
  | nil => simp
  | cons a l ih => simp [ih, add_assoc]

theorem forLoop_sub (lo hi : Nat) (g : Nat → ℚ) (y : ℚ) :
    forLoop lo hi (fun k y => y - g k) y = y - ((List.range' lo (hi - lo)).map g).sum := by
  unfold forLoop
  generalize List.range' lo (hi - lo) = l
  induction l generalizing y with
  | nil => simp
  | cons a l ih => simp [ih, sub_sub]

/-- A loop whose iterations all leave the state alone. -/
theorem forLoop_fixed {σ : Type} (lo hi : Nat) (body : Nat → σ → σ) (s : σ)
    (h : ∀ i, lo ≤ i → i < hi → body i s = s) : forLoop lo hi body s = s := by
  rcases Nat.lt_or_ge hi lo with hlt | hge
  · exact forLoop_empty lo hi (Nat.le_of_lt hlt) body s
  · exact forLoop_inv (fun _ x => x = s) lo hi hge body s rfl
      (fun i x h1 h2 hx => by rw [hx]; exact h i h1 h2)

theorem forLoop_zero_one {σ : Type} (body : Nat → σ → σ) (s : σ) :
    forLoop 0 1 body s = body 0 s := rfl

theorem forLoop_zero_two {σ : Type} (body : Nat → σ → σ) (s : σ) :
    forLoop 0 2 body s = body 1 (body 0 s) := rfl

theorem rd_singleton_succ (v : ℚ) (i : Nat) (h : 1 ≤ i) : rd [v] i = 0 := by
  obtain ⟨j, rfl⟩ : ∃ j, i = j + 1 := ⟨i - 1, by omega⟩
  simp [rd]

theorem rdN_singleton_succ (v : Nat) (i : Nat) (h : 1 ≤ i) : rdN [v] i = 0 := by
  obtain ⟨j, rfl⟩ : ∃ j, i = j + 1 := ⟨i - 1, by omega⟩
  simp [rdN]

/-! ## Buffers -/

theorem rd_set (Y : List ℚ) (i p : Nat) (v : ℚ) (hp : p < Y.length) :
    rd (Y.set i v) p = if p = i then v else rd Y p := by
  unfold rd
  rw [List.getD_eq_getElem?_getD, List.getD_eq_getElem?_getD, List.getElem?_set]
  by_cases e : i = p
  · subst e
    simp [hp]
  · rw [if_neg e, if_neg (Ne.symm e)]

theorem list_ext_rd (Y Z : List ℚ) (hl : Y.length = Z.length)
    (h : ∀ p, p < Y.length → rd Y p = rd Z p) : Y = Z := by
  apply List.ext_getElem hl
  intro n h1 h2
  have := h n h1
  unfold rd at this
  rwa [List.getD_eq_getElem _ _ h1, List.getD_eq_getElem _ _ h2] at this

theorem Pointwise.set (L i : Nat) (h : ℚ → ℚ) :
    Pointwise L (fun Y => Y.set i (h (rd Y i))) (fun p x => if p = i then h x else x) := by
  intro Y hY
  refine ⟨by simp [hY], fun p hp => ?_⟩
  rw [rd_set Y i p _ (hY ▸ hp)]
  by_cases e : p = i
  · subst e; simp
  · simp [e]

theorem Pointwise.comp {L : Nat} {f g : List ℚ → List ℚ} {F G : Nat → ℚ → ℚ}
    (hf : Pointwise L f F) (hg : Pointwise L g G) :
    Pointwise L (fun Y => g (f Y)) (fun p x => G p (F p x)) := by
  intro Y hY
  obtain ⟨l1, e1⟩ := hf Y hY
  obtain ⟨l2, e2⟩ := hg (f Y) l1
  exact ⟨l2, fun p hp => by rw [e2 p hp, e1 p hp]⟩

theorem Pointwise.congr {L : Nat} {f : List ℚ → List ℚ} {F G : Nat → ℚ → ℚ}
    (hf : Pointwise L f F) (h : ∀ p, p < L → ∀ x, F p x = G p x) : Pointwise L f G := by
  intro Y hY
  obtain ⟨l1, e1⟩ := hf Y hY
  exact ⟨l1, fun p hp => by rw [e1 p hp, h p hp]⟩

theorem Pointwise.loop {L : Nat} (lo hi : Nat) (body : Nat → List ℚ → List ℚ)
    (F : Nat → Nat → ℚ → ℚ)
    (h : ∀ i, lo ≤ i → i < hi → Pointwise L (body i) (F i)) :
    Pointwise L (forLoop lo hi body) (fun p x => forLoop lo hi (fun i x => F i p x) x) := by
  rcases Nat.lt_or_ge hi lo with hlt | hge
  · intro Y hY
    rw [forLoop_empty lo hi (Nat.le_of_lt hlt)]
    refine ⟨hY, fun p _ => ?_⟩
    dsimp only
    rw [forLoop_empty lo hi (Nat.le_of_lt hlt)]
  · intro Y hY
    induction hi, hge using Nat.le_induction with
    | base =>
      rw [forLoop_empty lo lo (le_refl _)]
      refine ⟨hY, fun p _ => ?_⟩
      dsimp only
      rw [forLoop_empty lo lo (le_refl _)]
    | succ n hn ih =>
      obtain ⟨l1, e1⟩ := ih (fun i h1 h2 => h i h1 (Nat.lt_succ_of_lt h2))
      obtain ⟨l2, e2⟩ := h n hn (Nat.lt_succ_self n) _ l1
      rw [forLoop_succ lo n hn]
      refine ⟨l2, fun p hp => ?_⟩
      dsimp only
      rw [e2 p hp, e1 p hp, forLoop_succ lo n hn]

/-- Two functions acting cell by cell in the same way on every cell agree. -/
theorem Pointwise.ext {L : Nat} {f g : List ℚ → List ℚ} {F G : Nat → ℚ → ℚ}
    (hf : Pointwise L f F) (hg : Pointwise L g G)
    (h : ∀ p, p < L → ∀ x, F p x = G p x) (Y : List ℚ) (hY : Y.length = L) : f Y = g Y := by
  obtain ⟨l1, e1⟩ := hf Y hY
  obtain ⟨l2, e2⟩ := hg Y hY
  apply list_ext_rd _ _ (l1.trans l2.symm)
  intro p hp
  rw [l1] at hp
  rw [e1 p hp, e2 p hp, h p hp]

/-! ## Row-major and column-major sweeps over an `M × N` buffer -/

theorem cell_div (N m n : Nat) (hn : n < N) : (m * N + n) / N = m := by
  have hN : 0 < N := by omega
  rw [Nat.add_comm, Nat.add_mul_div_right _ _ hN, Nat.div_eq_of_lt hn, Nat.zero_add]

theorem cell_mod (N m n : Nat) (hn : n < N) : (m * N + n) % N = n := by
  rw [Nat.add_comm, Nat.add_mul_mod_self_right, Nat.mod_eq_of_lt hn]

theorem cell_lt (M N m n : Nat) (hm : m < M) (hn : n < N) : m * N + n < M * N := by
  have : (m + 1) * N ≤ M * N := Nat.mul_le_mul_right N hm
  rw [Nat.succ_mul] at this
  omega

theorem cell_decomp (N p : Nat) : p / N * N + p % N = p := by
  rw [Nat.mul_comm]; exact Nat.div_add_mod p N

theorem div_lt_of_cell (M N p : Nat) (hp : p < M * N) : p / N < M := by
  rw [Nat.mul_comm] at hp
  exact Nat.div_lt_of_lt_mul hp

theorem mod_lt_of_cell (M N p : Nat) (hp : p < M * N) : p % N < N := by
  apply Nat.mod_lt
  rcases Nat.eq_zero_or_pos N with h | h
  · subst h; simp at hp
  · exact h

/-- A sweep over the rows `m` of one column `n`. -/
theorem Pointwise.col_loop {L : Nat} (M N n : Nat) (hn : n < N)
    (body : Nat → List ℚ → List ℚ) (h : Nat → ℚ → ℚ)
    (hb : ∀ m, m < M → Pointwise L (body m) (fun p x => if p = m * N + n then h m x else x)) :
    Pointwise L (forLoop 0 M body)
      (fun p x => if p < M * N ∧ p % N = n then h (p / N) x else x) := by
  refine (Pointwise.loop 0 M body _ (fun m _ hm => hb m hm)).congr (fun p _ x => ?_)
  dsimp only
  rw [forLoop_owner 0 M (p / N)]
  · by_cases c : p < M * N ∧ p % N = n
    · obtain ⟨c1, c2⟩ := c
      have e : p = p / N * N + n := by rw [← c2]; exact (cell_decomp N p).symm
      rw [if_pos ⟨Nat.zero_le _, div_lt_of_cell M N p c1⟩, if_pos e, if_pos ⟨c1, c2⟩]
    · rw [if_neg c]
      by_cases d : 0 ≤ p / N ∧ p / N < M
      · rw [if_pos d, if_neg]
        intro e
        apply c
        have e2 : p % N = n := by rw [e, cell_mod N _ n hn]
        refine ⟨?_, e2⟩
        rw [e]
        exact cell_lt M N _ n d.2 hn
      · rw [if_neg d]
  · intro i _ _ hne y
    rw [if_neg]
    intro e
    apply hne
    rw [e, cell_div N i n hn]

/-- A column-outer sweep: iteration `n` touches the cells of column `n` only. -/
theorem Pointwise.col_major {L : Nat} (M N : Nat) (body : Nat → List ℚ → List ℚ)
    (g : Nat → Nat → ℚ → ℚ)
    (hb : ∀ n, n < N → Pointwise L (body n)
      (fun p x => if p < M * N ∧ p % N = n then g n (p / N) x else x)) :
    Pointwise L (forLoop 0 N body)
      (fun p x => if p < M * N then g (p % N) (p / N) x else x) := by
  refine (Pointwise.loop 0 N body _ (fun n _ hn => hb n hn)).congr (fun p _ x => ?_)
  dsimp only
  rw [forLoop_owner 0 N (p % N)]
  · by_cases c : p < M * N
    · rw [if_pos ⟨Nat.zero_le _, mod_lt_of_cell M N p c⟩, if_pos ⟨c, rfl⟩, if_pos c]
    · rw [if_neg c]
      by_cases d : 0 ≤ p % N ∧ p % N < N
      · rw [if_pos d, if_neg (fun e => c e.1)]
      · rw [if_neg d]
  · intro i _ _ hne y
    rw [if_neg]
    intro e
    exact hne e.2.symm

/-- A sweep over the columns `n` of one row `m`. -/
theorem Pointwise.row_loop {L : Nat} (N m : Nat)
    (body : Nat → List ℚ → List ℚ) (h : Nat → ℚ → ℚ)
    (hb : ∀ n, n < N → Pointwise L (body n) (fun p x => if p = m * N + n then h n x else x)) :
    Pointwise L (forLoop 0 N body)
      (fun p x => if p / N = m ∧ p % N < N then h (p % N) x else x) := by
  refine (Pointwise.loop 0 N body _ (fun n _ hn => hb n hn)).congr (fun p _ x => ?_)
  dsimp only
  rw [forLoop_owner 0 N (p % N)]
  · by_cases c : p / N = m ∧ p % N < N
    · obtain ⟨c1, c2⟩ := c
      have e : p = m * N + p % N := by rw [← c1]; exact (cell_decomp N p).symm
      rw [if_pos ⟨Nat.zero_le _, c2⟩, if_pos e, if_pos ⟨c1, c2⟩]
    · rw [if_neg c]
      by_cases d : 0 ≤ p % N ∧ p % N < N
      · rw [if_pos d, if_neg]
        intro e
        apply c
        refine ⟨?_, d.2⟩
        rw [e, cell_div N m _ d.2]
      · rw [if_neg d]
  · intro i _ hi hne y
    rw [if_neg]
    intro e
    apply hne
    rw [e, cell_mod N m i hi]

/-- A row-outer sweep: iteration `m` touches the cells of row `m` only. -/
theorem Pointwise.row_major {L : Nat} (M N : Nat) (body : Nat → List ℚ → List ℚ)
    (g : Nat → Nat → ℚ → ℚ)
    (hb : ∀ m, m < M → Pointwise L (body m)
      (fun p x => if p / N = m ∧ p % N < N then g m (p % N) x else x)) :
    Pointwise L (forLoop 0 M body)
      (fun p x => if p < M * N then g (p / N) (p % N) x else x) := by
  refine (Pointwise.loop 0 M body _ (fun m _ hm => hb m hm)).congr (fun p _ x => ?_)
  dsimp only
  rw [forLoop_owner 0 M (p / N)]
  · by_cases c : p < M * N
    · rw [if_pos ⟨Nat.zero_le _, div_lt_of_cell M N p c⟩,
        if_pos ⟨rfl, mod_lt_of_cell M N p c⟩, if_pos c]
    · rw [if_neg c]
      by_cases d : 0 ≤ p / N ∧ p / N < M
      · rw [if_pos d, if_neg]
        intro e
        apply c
        have := cell_lt M N (p / N) (p % N) d.2 e.2
        rwa [cell_decomp] at this
      · rw [if_neg d]
  · intro i _ _ hne y
    rw [if_neg]
    intro e
    exact hne e.1.symm

/-- The row-major double loop writing each cell `(m, n)` once. -/
theorem Pointwise.grid {L : Nat} (M N : Nat) (h : Nat → Nat → ℚ → ℚ) :
    Pointwise L
      (forLoop 0 M (fun m Y =>
        forLoop 0 N (fun n Y => Y.set (m * N + n) (h m n (rd Y (m * N + n)))) Y))
      (fun p x => if p < M * N then h (p / N) (p % N) x else x) :=
  Pointwise.row_major M N _ h (fun m _ =>
    Pointwise.row_loop N m _ (h m) (fun n _ => Pointwise.set L (m * N + n) (h m n)))

/-! ## The TCSC kernels, cell by cell -/

theorem act_eq_prelu (a y : ℚ) : (if y < 0 then a * y else y) = prelu a y := by
  unfold prelu
  by_cases h : y < 0
  · rw [if_pos h, if_neg (not_le.mpr h)]
  · rw [if_neg h, if_pos (not_lt.mp h)]

theorem tcsc_sgemm_basic_pw (L : Nat) (X : List ℚ) (W : tcsc_t) (B : List ℚ) (M N K : Nat) :
    Pointwise L (fun Y => tcsc_sgemm_basic X W B Y M N K)
      (fun p x => if p < M * N then tcsc_val X W B K (p / N) (p % N) else x) := by
  refine (Pointwise.comp (Pointwise.grid M N (fun _ n _ => rd B n))
    (Pointwise.grid M N (fun m n x =>
      forLoop (rdN W.col_start_neg n) (rdN W.col_start_neg (n + 1))
        (fun k y => y - rd X (m * K + rdN W.row_index_neg k))
        (forLoop (rdN W.col_start_pos n) (rdN W.col_start_pos (n + 1))
          (fun k y => y + rd X (m * K + rdN W.row_index_pos k)) x)))).congr ?_
  intro p _ x
  dsimp only
  by_cases c : p < M * N
  · rw [if_pos c, if_pos c, if_pos c, forLoop_add, forLoop_sub]
    rfl
  · rw [if_neg c, if_neg c, if_neg c]

/-- One column of the column-outer kernels: the positive sweep followed by the
negative sweep. -/
theorem tcsc_column_pw (L : Nat) (X : List ℚ) (W : tcsc_t) (M N K n : Nat) (hn : n < N) :
    Pointwise L
      (fun Y =>
        forLoop 0 M (fun m Y =>
          Y.set (m * N + n) (rd Y (m * N + n) -
            forLoop (rdN W.col_start_neg n) (rdN W.col_start_neg (n + 1))
              (fun k acc_neg => acc_neg + rd X (m * K + rdN W.row_index_neg k)) 0))
          (forLoop 0 M (fun m Y =>
            Y.set (m * N + n) (rd Y (m * N + n) +
              forLoop (rdN W.col_start_pos n) (rdN W.col_start_pos (n + 1))
                (fun k acc_pos => acc_pos + rd X (m * K + rdN W.row_index_pos k)) 0)) Y))
      (fun p x => if p < M * N ∧ p % N = n then
        x + tcsc_pos_sum X W K (p / N) n - tcsc_neg_sum X W K (p / N) n else x) := by
  refine (Pointwise.comp
    (Pointwise.col_loop M N n hn _
      (fun m x => x + forLoop (rdN W.col_start_pos n) (rdN W.col_start_pos (n + 1))
        (fun k acc_pos => acc_pos + rd X (m * K + rdN W.row_index_pos k)) 0)
      (fun m _ => Pointwise.set L (m * N + n) _))
    (Pointwise.col_loop M N n hn _
      (fun m x => x - forLoop (rdN W.col_start_neg n) (rdN W.col_start_neg (n + 1))
        (fun k acc_neg => acc_neg + rd X (m * K + rdN W.row_index_neg k)) 0)
      (fun m _ => Pointwise.set L (m * N + n) _))).congr ?_
  intro p _ x
  dsimp only
  by_cases c : p < M * N ∧ p % N = n
  · rw [if_pos c, if_pos c, if_pos c, forLoop_add, forLoop_add, zero_add, zero_add]
    rfl
  · rw [if_neg c, if_neg c, if_neg c]

theorem tcsc_sgemm_optimized_pw (L : Nat) (X : List ℚ) (W : tcsc_t) (B : List ℚ)
    (M N K : Nat) :
    Pointwise L (fun Y => tcsc_sgemm_optimized X W B Y M N K)
      (fun p x => if p < M * N then tcsc_val X W B K (p / N) (p % N) else x) := by
  refine (Pointwise.comp (Pointwise.grid M N (fun _ n _ => rd B n))
    (Pointwise.col_major M N _
      (fun n m x => x + tcsc_pos_sum X W K m n - tcsc_neg_sum X W K m n)
      (fun n hn => tcsc_column_pw L X W M N K n hn))).congr ?_
  intro p _ x
  dsimp only
  by_cases c : p < M * N
  · rw [if_pos c, if_pos c, if_pos c]
    rfl
  · rw [if_neg c, if_neg c, if_neg c]

theorem tcsc_sgemm_prelu_basic_pw (L : Nat) (X : List ℚ) (W : tcsc_t) (B : List ℚ) (a : ℚ)
    (M N K : Nat) :
    Pointwise L (fun Y => tcsc_sgemm_prelu_basic X W B a Y M N K)
      (fun p x => if p < M * N then prelu a (tcsc_val X W B K (p / N) (p % N)) else x) := by
  refine (Pointwise.grid M N (fun m n _ =>
    if forLoop (rdN W.col_start_neg n) (rdN W.col_start_neg (n + 1))
        (fun k y => y - rd X (m * K + rdN W.row_index_neg k))
        (forLoop (rdN W.col_start_pos n) (rdN W.col_start_pos (n + 1))
          (fun k y => y + rd X (m * K + rdN W.row_index_pos k)) 0) + rd B n < 0
    then a * (forLoop (rdN W.col_start_neg n) (rdN W.col_start_neg (n + 1))
        (fun k y => y - rd X (m * K + rdN W.row_index_neg k))
        (forLoop (rdN W.col_start_pos n) (rdN W.col_start_pos (n + 1))
          (fun k y => y + rd X (m * K + rdN W.row_index_pos k)) 0) + rd B n)
    else forLoop (rdN W.col_start_neg n) (rdN W.col_start_neg (n + 1))
        (fun k y => y - rd X (m * K + rdN W.row_index_neg k))
        (forLoop (rdN W.col_start_pos n) (rdN W.col_start_pos (n + 1))
          (fun k y => y + rd X (m * K + rdN W.row_index_pos k)) 0) + rd B n)).congr ?_
  intro p _ x
  dsimp only
  by_cases c : p < M * N
  · rw [if_pos c, if_pos c, act_eq_prelu, forLoop_add, forLoop_sub, zero_add]
    congr 1
    unfold tcsc_val tcsc_pos_sum tcsc_neg_sum
    ring
  · rw [if_neg c, if_neg c]

theorem tcsc_sgemm_prelu_optimized_separate_pw (L : Nat) (X : List ℚ) (W : tcsc_t)
    (B : List ℚ) (a : ℚ) (M N K : Nat) :
    Pointwise L (fun Y => tcsc_sgemm_prelu_optimized_separate X W B a Y M N K)
      (fun p x => if p < M * N then prelu a (tcsc_val X W B K (p / N) (p % N)) else x) := by
  refine (Pointwise.comp (Pointwise.comp (Pointwise.grid M N (fun _ n _ => rd B n))
    (Pointwise.col_major M N _
      (fun n m x => x + tcsc_pos_sum X W K m n - tcsc_neg_sum X W K m n)
      (fun n hn => tcsc_column_pw L X W M N K n hn)))
    (Pointwise.grid M N (fun _ _ val => if val < 0 then a * val else val))).congr ?_
  intro p _ x
  dsimp only
  by_cases c : p < M * N
  · rw [if_pos c, if_pos c, if_pos c, if_pos c, act_eq_prelu]
    rfl
  · rw [if_neg c, if_neg c, if_neg c, if_neg c]

/-- One column of the on-the-go kernel: the positive sweep, then the negative
sweep with the activation applied to each finished cell. -/
theorem tcsc_column_onthego_pw (L : Nat) (X : List ℚ) (W : tcsc_t) (a : ℚ)
    (M N K n : Nat) (hn : n < N) :
    Pointwise L
      (fun Y =>
        forLoop 0 M (fun m Y =>
          (Y.set (m * N + n) (rd Y (m * N + n) -
            forLoop (rdN W.col_start_neg n) (rdN W.col_start_neg (n + 1))
              (fun k acc_neg => acc_neg + rd X (m * K + rdN W.row_index_neg k)) 0)).set
            (m * N + n)
            (if rd (Y.set (m * N + n) (rd Y (m * N + n) -
                forLoop (rdN W.col_start_neg n) (rdN W.col_start_neg (n + 1))
                  (fun k acc_neg => acc_neg + rd X (m * K + rdN W.row_index_neg k)) 0))
                (m * N + n) < 0
             then a * rd (Y.set (m * N + n) (rd Y (m * N + n) -
                forLoop (rdN W.col_start_neg n) (rdN W.col_start_neg (n + 1))
                  (fun k acc_neg => acc_neg + rd X (m * K + rdN W.row_index_neg k)) 0))
                (m * N + n)
             else rd (Y.set (m * N + n) (rd Y (m * N + n) -
                forLoop (rdN W.col_start_neg n) (rdN W.col_start_neg (n + 1))
                  (fun k acc_neg => acc_neg + rd X (m * K + rdN W.row_index_neg k)) 0))
                (m * N + n)))
          (forLoop 0 M (fun m Y =>
            Y.set (m * N + n) (rd Y (m * N + n) +
              forLoop (rdN W.col_start_pos n) (rdN W.col_start_pos (n + 1))
                (fun k acc_pos => acc_pos + rd X (m * K + rdN W.row_index_pos k)) 0)) Y))
      (fun p x => if p < M * N ∧ p % N = n then
        prelu a (x + tcsc_pos_sum X W K (p / N) n - tcsc_neg_sum X W K (p / N) n) else x) := by
  refine (Pointwise.comp
    (Pointwise.col_loop M N n hn _
      (fun m x => x + forLoop (rdN W.col_start_pos n) (rdN W.col_start_pos (n + 1))
        (fun k acc_pos => acc_pos + rd X (m * K + rdN W.row_index_pos k)) 0)
      (fun m _ => Pointwise.set L (m * N + n) _))
    (Pointwise.col_loop M N n hn _
      (fun m x => prelu a (x - forLoop (rdN W.col_start_neg n) (rdN W.col_start_neg (n + 1))
        (fun k acc_neg => acc_neg + rd X (m * K + rdN W.row_index_neg k)) 0))
      (fun m _ => ?_))).congr ?_
  · refine (Pointwise.comp
      (Pointwise.set L (m * N + n)
        (fun x => x - forLoop (rdN W.col_start_neg n) (rdN W.col_start_neg (n + 1))
          (fun k acc_neg => acc_neg + rd X (m * K + rdN W.row_index_neg k)) 0))
      (Pointwise.set L (m * N + n) (fun val => if val < 0 then a * val else val))).congr ?_
    intro p _ x
    dsimp only
    by_cases c : p = m * N + n
    · rw [if_pos c, if_pos c, if_pos c, act_eq_prelu]
    · rw [if_neg c, if_neg c, if_neg c]
  · intro p _ x
    dsimp only
    by_cases c : p < M * N ∧ p % N = n
    · rw [if_pos c, if_pos c, if_pos c, forLoop_add, forLoop_add, zero_add, zero_add]
      rfl
    · rw [if_neg c, if_neg c, if_neg c]

theorem tcsc_sgemm_prelu_optimized_onthego_pw (L : Nat) (X : List ℚ) (W : tcsc_t)
    (B : List ℚ) (a : ℚ) (M N K : Nat) :
    Pointwise L (fun Y => tcsc_sgemm_prelu_optimized_onthego X W B a Y M N K)
      (fun p x => if p < M * N then prelu a (tcsc_val X W B K (p / N) (p % N)) else x) := by
  refine (Pointwise.comp (Pointwise.grid M N (fun _ n _ => rd B n))
    (Pointwise.col_major M N _
      (fun n m x => prelu a (x + tcsc_pos_sum X W K m n - tcsc_neg_sum X W K m n))
      (fun n hn => tcsc_column_onthego_pw L X W a M N K n hn))).congr ?_
  intro p _ x
  dsimp only
  by_cases c : p < M * N
  · rw [if_pos c, if_pos c, if_pos c]
    rfl
  · rw [if_neg c, if_neg c, if_neg c]

/-! ## Pass 2 of `tcsc_from_dense` -/

theorem rdN_set (l : List Nat) (i p v : Nat) (hp : p < l.length) :
    rdN (l.set i v) p = if p = i then v else rdN l p := by
  unfold rdN
  rw [List.getD_eq_getElem?_getD, List.getD_eq_getElem?_getD, List.getElem?_set]
  by_cases e : i = p
  · subst e
    simp [hp]
  · rw [if_neg e, if_neg (Ne.symm e)]

theorem take_set_self (l : List Nat) (c v : Nat) : (l.set c v).take c = l.take c := by
  apply List.ext_getElem?
  intro k
  rw [List.getElem?_take, List.getElem?_take]
  by_cases hk : k < c
  · rw [if_pos hk, if_pos hk, List.getElem?_set_ne (by omega)]
  · rw [if_neg hk, if_neg hk]

theorem take_set_succ (l : List Nat) (c v : Nat) (h : c < l.length) :
    (l.set c v).take (c + 1) = l.take c ++ [v] := by
  rw [List.take_succ, take_set_self]
  simp [List.getElem?_set, h]

theorem colsUpTo_length_mono (t : ℚ) (dense : List ℚ) (rows cols : Nat) (a b : Nat)
    (h : a ≤ b) :
    (colsUpTo t dense rows cols a).length ≤ (colsUpTo t dense rows cols b).length := by
  induction b, h using Nat.le_induction with
  | base => exact le_refl _
  | succ n _ ih =>
    show _ ≤ (colsUpTo t dense rows cols n ++ colRows t dense rows cols n).length
    rw [List.length_append]
    omega

theorem filter_range_length_mono (q : Nat → Bool) (a b : Nat) (h : a ≤ b) :
    ((List.range a).filter q).length ≤ ((List.range b).filter q).length := by
  induction b, h using Nat.le_induction with
  | base => exact le_refl _
  | succ n _ ih =>
    rw [List.range_succ, List.filter_append, List.length_append]
    omega

theorem scanned_zero (t : ℚ) (dense : List ℚ) (rows cols j : Nat) :
    scanned t dense rows cols j 0 = colsUpTo t dense rows cols j := by
  simp [scanned]

theorem scanned_rows (t : ℚ) (dense : List ℚ) (rows cols j : Nat) :
    scanned t dense rows cols j rows = colsUpTo t dense rows cols (j + 1) := rfl

theorem scanned_hit (t : ℚ) (dense : List ℚ) (rows cols j i : Nat)
    (h : rd dense (i * cols + j) = t) :
    scanned t dense rows cols j (i + 1) = scanned t dense rows cols j i ++ [i] := by
  simp [scanned, List.range_succ, List.filter_append, h]

theorem scanned_miss (t : ℚ) (dense : List ℚ) (rows cols j i : Nat)
    (h : rd dense (i * cols + j) ≠ t) :
    scanned t dense rows cols j (i + 1) = scanned t dense rows cols j i := by
  simp [scanned, List.range_succ, List.filter_append, h]

theorem scanned_length_le (t : ℚ) (dense : List ℚ) (rows cols j i : Nat)
    (hj : j < cols) (hi : i ≤ rows) :
    (scanned t dense rows cols j i).length ≤ (colsUpTo t dense rows cols cols).length := by
  refine le_trans ?_ (colsUpTo_length_mono t dense rows cols (j + 1) cols hj)
  show _ ≤ (colsUpTo t dense rows cols j ++ colRows t dense rows cols j).length
  unfold scanned colRows
  rw [List.length_append, List.length_append]
  exact Nat.add_le_add_left (filter_range_length_mono _ i rows hi) _

theorem Half.hit {t : ℚ} {dense : List ℚ} {rows cols P jb j i : Nat} {cs ri : List Nat}
    {ctr : Nat} (H : Half t dense rows cols P jb j i cs ri ctr)
    (hP : P = (colsUpTo t dense rows cols cols).length) (hj : j < cols) (hi : i < rows)
    (h : rd dense (i * cols + j) = t) :
    Half t dense rows cols P jb j (i + 1) cs (ri.set ctr i) (ctr + 1) := by
  have hlen := scanned_length_le t dense rows cols j (i + 1) hj hi
  rw [scanned_hit t dense rows cols j i h, List.length_append, ← H.ctr_eq, ← hP] at hlen
  have hc : ctr < ri.length := by rw [H.ri_len]; simpa using hlen
  refine ⟨H.cs_len, by rw [List.length_set, H.ri_len], ?_, ?_, H.cs_eq⟩
  · rw [scanned_hit t dense rows cols j i h, List.length_append, ← H.ctr_eq]
    rfl
  · rw [scanned_hit t dense rows cols j i h, take_set_succ ri ctr i hc, H.take_eq]

theorem Half.miss {t : ℚ} {dense : List ℚ} {rows cols P jb j i : Nat} {cs ri : List Nat}
    {ctr : Nat} (H : Half t dense rows cols P jb j i cs ri ctr)
    (h : rd dense (i * cols + j) ≠ t) :
    Half t dense rows cols P jb j (i + 1) cs ri ctr := by
  refine ⟨H.cs_len, H.ri_len, ?_, ?_, H.cs_eq⟩
  · rw [scanned_miss t dense rows cols j i h]; exact H.ctr_eq
  · rw [scanned_miss t dense rows cols j i h]; exact H.take_eq

theorem Half.start {t : ℚ} {dense : List ℚ} {rows cols P j : Nat} {cs ri : List Nat}
    {ctr : Nat} (H : Half t dense rows cols P j j 0 cs ri ctr) (hj : j < cols + 1) :
    Half t dense rows cols P (j + 1) j 0 (cs.set j ctr) ri ctr := by
  refine ⟨by rw [List.length_set, H.cs_len], H.ri_len, H.ctr_eq, H.take_eq, ?_⟩
  intro jj hjj
  rw [rdN_set cs j jj ctr (by rw [H.cs_len]; omega)]
  by_cases e : jj = j
  · rw [if_pos e, e, H.ctr_eq, scanned_zero]
  · rw [if_neg e]
    exact H.cs_eq jj (by omega)

theorem Half.next {t : ℚ} {dense : List ℚ} {rows cols P j : Nat} {cs ri : List Nat}
    {ctr : Nat} (H : Half t dense rows cols P (j + 1) j rows cs ri ctr) :
    Half t dense rows cols P (j + 1) (j + 1) 0 cs ri ctr := by
  refine ⟨H.cs_len, H.ri_len, ?_, ?_, H.cs_eq⟩
  · rw [scanned_zero, ← scanned_rows]; exact H.ctr_eq
  · rw [scanned_zero, ← scanned_rows]; exact H.take_eq

theorem tcsc_fill_elem_inv (dense : List ℚ) (rows cols Pp Pn jb j i : Nat) (st : tcsc_fill)
    (hPp : Pp = (colsUpTo 1 dense rows cols cols).length)
    (hPn : Pn = (colsUpTo (-1) dense rows cols cols).length)
    (hj : j < cols) (hi : i < rows) (H : FillInv dense rows cols Pp Pn jb j i st) :
    FillInv dense rows cols Pp Pn jb j (i + 1) (tcsc_fill_elem dense cols j i st) := by
  obtain ⟨hp, hn, h1, h2, h3, h4⟩ := H
  unfold tcsc_fill_elem
  dsimp only
  by_cases c1 : rd dense (i * cols + j) = 1
  · rw [if_pos c1]
    have c2 : rd dense (i * cols + j) ≠ -1 := by rw [c1]; norm_num
    exact ⟨hp.hit hPp hj hi c1, hn.miss c2, h1, h2, h3, h4⟩
  · rw [if_neg c1]
    by_cases c2 : rd dense (i * cols + j) = -1
    · rw [if_pos c2]
      exact ⟨hp.miss c1, hn.hit hPn hj hi c2, h1, h2, h3, h4⟩
    · rw [if_neg c2]
      exact ⟨hp.miss c1, hn.miss c2, h1, h2, h3, h4⟩

theorem tcsc_fill_col_inv (dense : List ℚ) (rows cols Pp Pn j : Nat) (st : tcsc_fill)
    (hPp : Pp = (colsUpTo 1 dense rows cols cols).length)
    (hPn : Pn = (colsUpTo (-1) dense rows cols cols).length)
    (hj : j < cols) (H : FillInv dense rows cols Pp Pn j j 0 st) :
    FillInv dense rows cols Pp Pn (j + 1) (j + 1) 0 (tcsc_fill_col dense rows cols j st) := by
  obtain ⟨hp, hn, h1, h2, h3, h4⟩ := H
  unfold tcsc_fill_col
  have key := forLoop_inv (fun i s => FillInv dense rows cols Pp Pn (j + 1) j i s) 0 rows
    (Nat.zero_le _) (tcsc_fill_elem dense cols j)
    { st with
      sparse := { st.sparse with
        col_start_pos := st.sparse.col_start_pos.set j st.pos_counter
        col_start_neg := st.sparse.col_start_neg.set j st.neg_counter } }
    ⟨hp.start (by omega), hn.start (by omega), h1, h2, h3, h4⟩
    (fun i s _ hi Hs => tcsc_fill_elem_inv dense rows cols Pp Pn (j + 1) j i s hPp hPn hj hi Hs)
  obtain ⟨kp, kn, k1, k2, k3, k4⟩ := key
  exact ⟨kp.next, kn.next, k1, k2, k3, k4⟩

/-! ## Pass 1 of `tcsc_from_dense` -/

theorem colRows_length (t : ℚ) (dense : List ℚ) (rows cols j : Nat) :
    (colRows t dense rows cols j).length = ∑ i in Finset.range rows, ind t dense cols i j := by
  unfold colRows
  induction rows with
  | zero => simp
  | succ n ih =>
    rw [List.range_succ, List.filter_append, List.length_append, ih, Finset.sum_range_succ]
    congr 1
    unfold ind
    by_cases c : rd dense (n * cols + j) = t
    · simp [c]
    · simp [c]

theorem colsUpTo_length (t : ℚ) (dense : List ℚ) (rows cols j : Nat) :
    (colsUpTo t dense rows cols j).length =
      ∑ jj in Finset.range j, ∑ i in Finset.range rows, ind t dense cols i jj := by
  induction j with
  | zero => simp [colsUpTo]
  | succ n ih =>
    show (colsUpTo t dense rows cols n ++ colRows t dense rows cols n).length = _
    rw [List.length_append, ih, colRows_length, Finset.sum_range_succ]

theorem tcsc_count_row (dense : List ℚ) (cols i : Nat) (cnt : Nat × Nat) :
    forLoop 0 cols (fun j cnt =>
      let value := rd dense (i * cols + j)
      if value = 1 then (cnt.1 + 1, cnt.2)
      else if value = -1 then (cnt.1, cnt.2 + 1)
      else cnt) cnt =
    (cnt.1 + ∑ j in Finset.range cols, ind 1 dense cols i j,
     cnt.2 + ∑ j in Finset.range cols, ind (-1) dense cols i j) := by
  refine forLoop_inv (fun j (s : Nat × Nat) =>
    s = (cnt.1 + ∑ jj in Finset.range j, ind 1 dense cols i jj,
         cnt.2 + ∑ jj in Finset.range j, ind (-1) dense cols i jj)) 0 cols (Nat.zero_le _) _ cnt
    (by simp) ?_
  intro j s _ _ hs
  subst hs
  dsimp only
  rw [Finset.sum_range_succ, Finset.sum_range_succ]
  unfold ind
  by_cases c1 : rd dense (i * cols + j) = 1
  · have c2 : rd dense (i * cols + j) ≠ -1 := by rw [c1]; norm_num
    rw [if_pos c1, if_pos c1, if_neg c2]
    rfl
  · by_cases c2 : rd dense (i * cols + j) = -1
    · rw [if_neg c1, if_pos c2, if_neg c1, if_pos c2]
      rfl
    · rw [if_neg c1, if_neg c2, if_neg c1, if_neg c2]
      rfl

theorem tcsc_count_eq (dense : List ℚ) (rows cols : Nat) :
    tcsc_count dense rows cols =
      ((colsUpTo 1 dense rows cols cols).length, (colsUpTo (-1) dense rows cols cols).length) := by
  rw [colsUpTo_length, colsUpTo_length, Finset.sum_comm,
    Finset.sum_comm (s := Finset.range cols)]
  unfold tcsc_count
  refine forLoop_inv (fun i (s : Nat × Nat) =>
    s = (∑ ii in Finset.range i, ∑ j in Finset.range cols, ind 1 dense cols ii j,
         ∑ ii in Finset.range i, ∑ j in Finset.range cols, ind (-1) dense cols ii j))
    0 rows (Nat.zero_le _) _ (0, 0) (by simp) ?_
  intro i s _ _ hs
  subst hs
  rw [tcsc_count_row, Finset.sum_range_succ, Finset.sum_range_succ]

/-! ## The descriptor built by `tcsc_from_dense` -/

theorem malloc_length {α : Type} (junk : Nat → α) (n : Nat) : (malloc junk n).length = n := by
  simp [malloc]

theorem tcsc_from_dense_fill (junk : Nat → Nat → Nat) (dense : List ℚ) (rows cols : Nat) :
    FillInv dense rows cols (colsUpTo 1 dense rows cols cols).length
      (colsUpTo (-1) dense rows cols cols).length cols cols 0
      (forLoop 0 cols (tcsc_fill_col dense rows cols)
        { sparse :=
            { rows := rows
              cols := cols
              n_elem_pos := (tcsc_count dense rows cols).1
              n_elem_neg := (tcsc_count dense rows cols).2
              col_start_pos := malloc (junk 0) (cols + 1)
              col_start_neg := malloc (junk 1) (cols + 1)
              row_index_pos := malloc (junk 2) (tcsc_count dense rows cols).1
              row_index_neg := malloc (junk 3) (tcsc_count dense rows cols).2 }
          pos_counter := 0
          neg_counter := 0 }) := by
  rw [tcsc_count_eq]
  refine forLoop_inv (fun j s => FillInv dense rows cols
    (colsUpTo 1 dense rows cols cols).length (colsUpTo (-1) dense rows cols cols).length j j 0 s)
    0 cols (Nat.zero_le _) _ _ ?_ ?_
  · refine ⟨⟨malloc_length _ _, malloc_length _ _, ?_, ?_, ?_⟩,
      ⟨malloc_length _ _, malloc_length _ _, ?_, ?_, ?_⟩, rfl, rfl, rfl, rfl⟩
    · simp [scanned, colsUpTo]
    · simp [scanned, colsUpTo]
    · intro jj hjj; omega
    · simp [scanned, colsUpTo]
    · simp [scanned, colsUpTo]
    · intro jj hjj; omega
  · intro j s _ hj Hs
    exact tcsc_fill_col_inv dense rows cols _ _ j s rfl rfl hj Hs

/-- What `tcsc_from_dense` returns: the row-index arrays are the per-column
lists of `+1` (resp. `-1`) rows, column after column, and `col_start[j]` is the
number of such entries in the columns before `j`. -/
theorem tcsc_from_dense_spec (junk : Nat → Nat → Nat) (dense : List ℚ) (rows cols : Nat) :
    (tcsc_from_dense junk dense rows cols).rows = rows ∧
    (tcsc_from_dense junk dense rows cols).cols = cols ∧
    (tcsc_from_dense junk dense rows cols).row_index_pos = colsUpTo 1 dense rows cols cols ∧
    (tcsc_from_dense junk dense rows cols).row_index_neg = colsUpTo (-1) dense rows cols cols ∧
    (∀ j, j ≤ cols → rdN (tcsc_from_dense junk dense rows cols).col_start_pos j =
      (colsUpTo 1 dense rows cols j).length) ∧
    (∀ j, j ≤ cols → rdN (tcsc_from_dense junk dense rows cols).col_start_neg j =
      (colsUpTo (-1) dense rows cols j).length) ∧
    (tcsc_from_dense junk dense rows cols).col_start_pos.length = cols + 1 ∧
    (tcsc_from_dense junk dense rows cols).col_start_neg.length = cols + 1 ∧
    (tcsc_from_dense junk dense rows cols).n_elem_pos = (colsUpTo 1 dense rows cols cols).length ∧
    (tcsc_from_dense junk dense rows cols).n_elem_neg =
      (colsUpTo (-1) dense rows cols cols).length := by
  obtain ⟨hp, hn, h1, h2, h3, h4⟩ := tcsc_from_dense_fill junk dense rows cols
  have hp2 := hp.start (Nat.lt_succ_self cols)
  have hn2 := hn.start (Nat.lt_succ_self cols)
  have full : ∀ (ri : List Nat) (c : Nat) (l : List Nat), ri.length = l.length →
      c = l.length → ri.take c = l → ri = l := by
    intro ri c l e1 e2 e3
    rw [← e3, e2, ← e1, List.take_length]
  unfold tcsc_from_dense
  refine ⟨h1, h2, ?_, ?_, ?_, ?_, hp2.cs_len, hn2.cs_len, h3, h4⟩
  · exact full _ _ _ hp.ri_len
      (hp.ctr_eq.trans (congrArg List.length (scanned_zero 1 dense rows cols cols)))
      (hp.take_eq.trans (scanned_zero 1 dense rows cols cols))
  · exact full _ _ _ hn.ri_len
      (hn.ctr_eq.trans (congrArg List.length (scanned_zero (-1) dense rows cols cols)))
      (hn.take_eq.trans (scanned_zero (-1) dense rows cols cols))
  · intro j hj
    exact hp2.cs_eq j (Nat.lt_succ_of_le hj)
  · intro j hj
    exact hn2.cs_eq j (Nat.lt_succ_of_le hj)

/-! ## Column slices of the built descriptor -/

theorem colsUpTo_split (t : ℚ) (dense : List ℚ) (rows cols n c : Nat) (hn : n < c) :
    ∃ rest, colsUpTo t dense rows cols c =
      colsUpTo t dense rows cols n ++ (colRows t dense rows cols n ++ rest) := by
  induction c, (Nat.succ_le_of_lt hn) using Nat.le_induction with
  | base => exact ⟨[], by simp [colsUpTo]⟩
  | succ c hc ih =>
    obtain ⟨rest, e⟩ := ih
    refine ⟨rest ++ colRows t dense rows cols c, ?_⟩
    show colsUpTo t dense rows cols c ++ colRows t dense rows cols c = _
    rw [e]
    simp [List.append_assoc]

theorem rdN_append_mid (A C R : List Nat) (k : Nat) (hk : k < C.length) :
    rdN (A ++ (C ++ R)) (A.length + k) = C[k] := by
  unfold rdN
  rw [List.getD_eq_getElem?_getD, List.getElem?_append_right (Nat.le_add_right _ _),
    Nat.add_sub_cancel_left, List.getElem?_append_left hk, List.getElem?_eq_getElem hk]
  rfl

theorem range_map_rdN_mid (A C R : List Nat) :
    (List.range' A.length C.length).map (rdN (A ++ (C ++ R))) = C := by
  apply List.ext_getElem (by simp)
  intro k h1 h2
  rw [List.getElem_map, List.getElem_range', Nat.one_mul, rdN_append_mid A C R k h2]

theorem slice_mid (A C R : List Nat) :
    slice (A ++ (C ++ R)) A.length (A.length + C.length) = C := by
  unfold slice
  rw [List.drop_left, Nat.add_sub_cancel_left, List.take_left]

theorem colsUpTo_succ_length (t : ℚ) (dense : List ℚ) (rows cols n : Nat) :
    (colsUpTo t dense rows cols (n + 1)).length =
      (colsUpTo t dense rows cols n).length + (colRows t dense rows cols n).length := by
  show (colsUpTo t dense rows cols n ++ colRows t dense rows cols n).length = _
  rw [List.length_append]

/-- The positive slice of column `n` of the built descriptor lists the `+1`
rows of that column. -/
theorem tcsc_from_dense_slice_pos (junk : Nat → Nat → Nat) (dense : List ℚ)
    (rows cols n : Nat) (hn : n < cols) :
    slice (tcsc_from_dense junk dense rows cols).row_index_pos
      (rdN (tcsc_from_dense junk dense rows cols).col_start_pos n)
      (rdN (tcsc_from_dense junk dense rows cols).col_start_pos (n + 1)) =
    colRows 1 dense rows cols n := by
  obtain ⟨_, _, e1, _, e3, _, _⟩ := tcsc_from_dense_spec junk dense rows cols
  obtain ⟨rest, e⟩ := colsUpTo_split 1 dense rows cols n cols hn
  rw [e1, e3 n (by omega), e3 (n + 1) (by omega), colsUpTo_succ_length, e]
  exact slice_mid _ _ _

theorem tcsc_from_dense_slice_neg (junk : Nat → Nat → Nat) (dense : List ℚ)
    (rows cols n : Nat) (hn : n < cols) :
    slice (tcsc_from_dense junk dense rows cols).row_index_neg
      (rdN (tcsc_from_dense junk dense rows cols).col_start_neg n)
      (rdN (tcsc_from_dense junk dense rows cols).col_start_neg (n + 1)) =
    colRows (-1) dense rows cols n := by
  obtain ⟨_, _, _, e2, _, e4, _⟩ := tcsc_from_dense_spec junk dense rows cols
  obtain ⟨rest, e⟩ := colsUpTo_split (-1) dense rows cols n cols hn
  rw [e2, e4 n (by omega), e4 (n + 1) (by omega), colsUpTo_succ_length, e]
  exact slice_mid _ _ _

theorem tcsc_from_dense_pos_sum (junk : Nat → Nat → Nat) (X dense : List ℚ)
    (rows cols K m n : Nat) (hn : n < cols) :
    tcsc_pos_sum X (tcsc_from_dense junk dense rows cols) K m n =
      ((colRows 1 dense rows cols n).map (fun i => rd X (m * K + i))).sum := by
  obtain ⟨_, _, e1, _, e3, _, _⟩ := tcsc_from_dense_spec junk dense rows cols
  obtain ⟨rest, e⟩ := colsUpTo_split 1 dense rows cols n cols hn
  unfold tcsc_pos_sum
  rw [e1, e3 n (by omega), e3 (n + 1) (by omega), colsUpTo_succ_length, e,
    Nat.add_sub_cancel_left]
  have e5 : (fun k => rd X (m * K +
      rdN (colsUpTo 1 dense rows cols n ++ (colRows 1 dense rows cols n ++ rest)) k)) =
      (fun i => rd X (m * K + i)) ∘
        rdN (colsUpTo 1 dense rows cols n ++ (colRows 1 dense rows cols n ++ rest)) := rfl
  rw [e5, ← List.map_map, range_map_rdN_mid]

theorem tcsc_from_dense_neg_sum (junk : Nat → Nat → Nat) (X dense : List ℚ)
    (rows cols K m n : Nat) (hn : n < cols) :
    tcsc_neg_sum X (tcsc_from_dense junk dense rows cols) K m n =
      ((colRows (-1) dense rows cols n).map (fun i => rd X (m * K + i))).sum := by
  obtain ⟨_, _, _, e2, _, e4, _⟩ := tcsc_from_dense_spec junk dense rows cols
  obtain ⟨rest, e⟩ := colsUpTo_split (-1) dense rows cols n cols hn
  unfold tcsc_neg_sum
  rw [e2, e4 n (by omega), e4 (n + 1) (by omega), colsUpTo_succ_length, e,
    Nat.add_sub_cancel_left]
  have e5 : (fun k => rd X (m * K +
      rdN (colsUpTo (-1) dense rows cols n ++ (colRows (-1) dense rows cols n ++ rest)) k)) =
      (fun i => rd X (m * K + i)) ∘
        rdN (colsUpTo (-1) dense rows cols n ++ (colRows (-1) dense rows cols n ++ rest)) := rfl
  rw [e5, ← List.map_map, range_map_rdN_mid]

/-- The signed sum over the two lists of a column is the dot product with the
ternary reading of that column. -/
theorem colRows_signed_sum (dense : List ℚ) (cols j : Nat) (f : Nat → ℚ) (rows : Nat) :
    ((colRows 1 dense rows cols j).map f).sum - ((colRows (-1) dense rows cols j).map f).sum =
      ∑ k in Finset.range rows, f k * tern (rd dense (k * cols + j)) := by
  unfold colRows
  induction rows with
  | zero => simp
  | succ r ih =>
    rw [Finset.sum_range_succ, ← ih, List.range_succ, List.filter_append, List.filter_append,
      List.map_append, List.map_append, List.sum_append, List.sum_append]
    unfold tern
    by_cases c1 : rd dense (r * cols + j) = 1
    · have c2 : rd dense (r * cols + j) ≠ -1 := by rw [c1]; norm_num
      simp only [List.filter_cons, c1, c2, decide_True, decide_False, if_true, if_false,
        List.filter_nil, List.map_cons, List.map_nil, List.sum_cons, List.sum_nil]
      norm_num
      ring
    · by_cases c2 : rd dense (r * cols + j) = -1
      · simp only [List.filter_cons, c1, c2, decide_True, decide_False, if_true, if_false,
          List.filter_nil, List.map_cons, List.map_nil, List.sum_cons, List.sum_nil]
        norm_num
        ring
      · simp only [List.filter_cons, c1, c2, decide_True, decide_False, if_true, if_false,
          List.filter_nil, List.map_cons, List.map_nil, List.sum_cons, List.sum_nil]
        norm_num

theorem tcsc_from_dense_val (junk : Nat → Nat → Nat) (X dense B : List ℚ)
    (K N m n : Nat) (hn : n < N) :
    tcsc_val X (tcsc_from_dense junk dense K N) B K m n =
      rd B n + ∑ k in Finset.range K, rd X (m * K + k) * tern (rd dense (k * N + n)) := by
  unfold tcsc_val
  rw [tcsc_from_dense_pos_sum junk X dense K N K m n hn,
    tcsc_from_dense_neg_sum junk X dense K N K m n hn, add_sub_assoc,
    colRows_signed_sum dense N n (fun i => rd X (m * K + i)) K]

theorem tern_of_ternary (W : List ℚ) (hT : Ternary W) (p : Nat) (hp : p < W.length) :
    tern (rd W p) = rd W p := by
  have hm : rd W p ∈ W := by
    unfold rd
    rw [List.getD_eq_getElem _ _ hp]
    exact List.getElem_mem hp
  unfold tern
  rcases hT _ hm with h | h | h <;> rw [h] <;> norm_num

theorem tcsc_from_dense_val_ternary (junk : Nat → Nat → Nat) (X W B : List ℚ)
    (K N m n : Nat) (hn : n < N) (hW : W.length = K * N) (hT : Ternary W) :
    tcsc_val X (tcsc_from_dense junk W K N) B K m n = rd B n + dot X W N K m n := by
  rw [tcsc_from_dense_val junk X W B K N m n hn]
  unfold dot
  congr 1
  apply Finset.sum_congr rfl
  intro k hk
  rw [tern_of_ternary W hT _ (by rw [hW]; exact cell_lt K N k n (Finset.mem_range.mp hk) hn)]

theorem mem_colsUpTo_lt (t : ℚ) (dense : List ℚ) (rows cols j k : Nat)
    (h : k ∈ colsUpTo t dense rows cols j) : k < rows := by
  induction j with
  | zero => simp [colsUpTo] at h
  | succ n ih =>
    have h2 : k ∈ colsUpTo t dense rows cols n ++ colRows t dense rows cols n := h
    rcases List.mem_append.mp h2 with h3 | h3
    · exact ih h3
    · unfold colRows at h3
      exact List.mem_range.mp (List.mem_filter.mp h3).1

/-- The descriptor built by `tcsc_from_dense` is valid: the kernels read it
inside its arrays and read `X` inside row `m`. -/
theorem tcsc_from_dense_valid (junk : Nat → Nat → Nat) (dense : List ℚ) (rows cols : Nat) :
    tcsc_valid (tcsc_from_dense junk dense rows cols) rows cols := by
  obtain ⟨_, _, e1, e2, e3, e4, l1, l2, _, _⟩ := tcsc_from_dense_spec junk dense rows cols
  refine ⟨l1, l2, ?_, ?_, ?_, ?_, ?_, ?_⟩
  · intro n hn
    rw [e3 n (by omega), e3 (n + 1) (by omega)]
    exact colsUpTo_length_mono 1 dense rows cols n (n + 1) (Nat.le_succ n)
  · intro n hn
    rw [e4 n (by omega), e4 (n + 1) (by omega)]
    exact colsUpTo_length_mono (-1) dense rows cols n (n + 1) (Nat.le_succ n)
  · rw [e3 cols (le_refl _), e1]
  · rw [e4 cols (le_refl _), e2]
  · intro k hk
    rw [e1] at hk
    exact mem_colsUpTo_lt 1 dense rows cols cols k hk
  · intro k hk
    rw [e2] at hk
    exact mem_colsUpTo_lt (-1) dense rows cols cols k hk

/-! ## The dense references, cell by cell -/

theorem forLoop_sum (K : Nat) (g : Nat → ℚ) :
    forLoop 0 K (fun k y => y + g k) 0 = ∑ k in Finset.range K, g k := by
  induction K with
  | zero => rw [forLoop_empty 0 0 (le_refl _)]; simp
  | succ n ih => rw [forLoop_succ 0 n (Nat.zero_le _), ih, Finset.sum_range_succ]

theorem gemm_basic_pw (L : Nat) (X W B : List ℚ) (M N K : Nat) :
    Pointwise L (fun Y => gemm_basic X W B Y M N K)
      (fun p x => if p < M * N then rd B (p % N) + dot X W N K (p / N) (p % N) else x) := by
  refine (Pointwise.grid M N (fun m n _ =>
    forLoop 0 K (fun k y => y + rd X (m * K + k) * rd W (k * N + n)) 0 + rd B n)).congr ?_
  intro p _ x
  dsimp only
  by_cases c : p < M * N
  · rw [if_pos c, if_pos c, forLoop_sum, add_comm]
    rfl
  · rw [if_neg c, if_neg c]

theorem GEMM_PReLU_pw (L : Nat) (X W b : List ℚ) (a : ℚ) (M N K : Nat) :
    Pointwise L (fun Y => GEMM_PReLU X W b Y M N K a)
      (fun p x => if p < M * N then prelu a (rd b (p % N) + dot X W N K (p / N) (p % N))
        else x) := by
  refine (Pointwise.grid M N (fun m n _ =>
    if forLoop 0 K (fun k y => y + rd X (m * K + k) * rd W (k * N + n)) 0 + rd b n < 0
    then a * (forLoop 0 K (fun k y => y + rd X (m * K + k) * rd W (k * N + n)) 0 + rd b n)
    else forLoop 0 K (fun k y => y + rd X (m * K + k) * rd W (k * N + n)) 0 + rd b n)).congr ?_
  intro p _ x
  dsimp only
  by_cases c : p < M * N
  · rw [if_pos c, if_pos c, act_eq_prelu, forLoop_sum, add_comm]
    rfl
  · rw [if_neg c, if_neg c]

/-! ## The validator on equal buffers -/

theorem compare_self (Y : List ℚ) (rows cols : Nat) : compare Y Y rows cols = true := by
  unfold compare compare_scan
  have h : forLoop 0 rows (fun row ret =>
      forLoop 0 cols (fun col ret =>
        match ret with
        | some r => some r
        | none =>
          let ij := row * cols + col
          let res := rd Y ij
          let tar := rd Y ij
          if |res - tar| > compare_tol then some (row, col, tar, res) else none) ret)
      (none : Option (Nat × Nat × ℚ × ℚ)) = none := by
    refine forLoop_inv (fun _ s => s = none) 0 rows (Nat.zero_le _) _ _ rfl ?_
    intro row s _ _ hs
    subst hs
    refine forLoop_inv (fun _ s => s = none) 0 cols (Nat.zero_le _) _ _ rfl ?_
    intro col s _ _ hs
    subst hs
    dsimp only
    rw [if_neg]
    rw [sub_self, abs_zero]
    unfold compare_tol
    norm_num
  rw [h]
  rfl

/-- Two functions that overwrite every cell with a value independent of the old
content agree, whatever the two initial buffers hold. -/
theorem Pointwise.agree {L : Nat} {f g : List ℚ → List ℚ} {F G : Nat → ℚ → ℚ}
    (hf : Pointwise L f F) (hg : Pointwise L g G)
    (h : ∀ p, p < L → ∀ x y, F p x = G p y) (Y Z : List ℚ) (hY : Y.length = L)
    (hZ : Z.length = L) : f Y = g Z := by
  obtain ⟨l1, e1⟩ := hf Y hY
  obtain ⟨l2, e2⟩ := hg Z hZ
  apply list_ext_rd _ _ (l1.trans l2.symm)
  intro p hp
  rw [l1] at hp
  rw [e1 p hp, e2 p hp, h p hp]

/-! ## Main results: TCSC -/

/-- Claim C1 (TCSC round trip).  For every `rows`, `cols` and every dense
row-major buffer `W` of size `rows * cols` whose entries are all in
`{-1, 0, +1}`, decoding the descriptor built by `tcsc_from_dense` gives back
`W` exactly; the shape need not be square, and the result does not depend on
the initial contents of the allocated arrays. -/
theorem tcsc_roundtrip (junk : Nat → Nat → Nat) (rows cols : Nat) (W : List ℚ)
    (hW : W.length = rows * cols) (hT : Ternary W) :
    tcsc_decode (tcsc_from_dense junk W rows cols) = W := by
  obtain ⟨e1, e2, _⟩ := tcsc_from_dense_spec junk W rows cols
  unfold tcsc_decode
  rw [e1, e2]
  apply List.ext_getElem (by simp [hW])
  intro p h1 h2
  have hp : p < rows * cols := hW ▸ h2
  have hj : p % cols < cols := mod_lt_of_cell rows cols p hp
  have hi : p / cols < rows := div_lt_of_cell rows cols p hp
  rw [List.getElem_map, List.getElem_range]
  dsimp only
  rw [tcsc_from_dense_slice_pos junk W rows cols _ hj,
    tcsc_from_dense_slice_neg junk W rows cols _ hj]
  unfold colRows
  simp only [List.mem_filter, List.mem_range, hi, true_and, decide_eq_true_eq, cell_decomp]
  have hr : rd W p = W[p] := by
    unfold rd
    rw [List.getD_eq_getElem _ _ h2]
  have hm : W[p] ∈ W := List.getElem_mem h2
  rw [hr]
  rcases hT _ hm with h | h | h <;> rw [h] <;> norm_num

/-- Witness of claim C1 on a non-square (2 × 3) buffer. -/
theorem tcsc_roundtrip_witness :
    ([1, 0, -1, 0, -1, 1] : List ℚ).length = 2 * 3 ∧ Ternary [1, 0, -1, 0, -1, 1] ∧
    tcsc_decode (tcsc_from_dense (fun _ _ => 7) [1, 0, -1, 0, -1, 1] 2 3)
      = [1, 0, -1, 0, -1, 1] :=
  ⟨rfl, by simp [Ternary],
    tcsc_roundtrip (fun _ _ => 7) 2 3 [1, 0, -1, 0, -1, 1] rfl (by simp [Ternary])⟩

/-- Claim C2 (TCSC basic kernel against the dense reference).  For every `M`,
`K`, `N`, every `X` (`M * K`), every ternary `W` (`K * N`) and every bias `B`
(`N`), in exact arithmetic, `tcsc_sgemm_basic` on the descriptor built by
`tcsc_from_dense W K N` leaves in the output buffer the same content as
`gemm_basic X W B`, namely `Y[m,n] = B[n] + Σ_k X[m,k] * W[k,n]`, so `compare`
accepts the pair.  The two output buffers may start from different contents. -/
theorem tcsc_sgemm_basic_eq_gemm_basic (junk : Nat → Nat → Nat) (M K N : Nat)
    (X W B Y Z : List ℚ) (_hX : X.length = M * K) (hW : W.length = K * N) (hT : Ternary W)
    (_hB : B.length = N) (hY : Y.length = M * N) (hZ : Z.length = M * N) :
    tcsc_sgemm_basic X (tcsc_from_dense junk W K N) B Y M N K = gemm_basic X W B Z M N K ∧
    (∀ m n, m < M → n < N →
      rd (tcsc_sgemm_basic X (tcsc_from_dense junk W K N) B Y M N K) (m * N + n) =
        rd B n + dot X W N K m n) ∧
    compare (tcsc_sgemm_basic X (tcsc_from_dense junk W K N) B Y M N K)
      (gemm_basic X W B Z M N K) M N = true := by
  have hs := tcsc_sgemm_basic_pw (M * N) X (tcsc_from_dense junk W K N) B M N K
  have hg := gemm_basic_pw (M * N) X W B M N K
  have e : tcsc_sgemm_basic X (tcsc_from_dense junk W K N) B Y M N K =
      gemm_basic X W B Z M N K := by
    refine Pointwise.agree hs hg ?_ Y Z hY hZ
    intro p hp x y
    dsimp only
    rw [if_pos hp, if_pos hp,
      tcsc_from_dense_val_ternary junk X W B K N _ _ (mod_lt_of_cell M N p hp) hW hT]
  refine ⟨e, ?_, ?_⟩
  · intro m n hm hn
    have hp := cell_lt M N m n hm hn
    rw [(hs Y hY).2 _ hp]
    dsimp only
    rw [if_pos hp, cell_div N m n hn, cell_mod N m n hn,
      tcsc_from_dense_val_ternary junk X W B K N m n hn hW hT]
  · rw [e]
    exact compare_self _ M N

/-- Witness of claim C2 with `M = 1`, `K = 4`, `N = 2`. -/
theorem tcsc_sgemm_basic_eq_gemm_basic_witness :
    tcsc_sgemm_basic [1, 2, 3, 4]
        (tcsc_from_dense (fun _ _ => 0) [1, 0, -1, 0, 0, 1, 0, -1] 4 2) [5, 6] [0, 0] 1 2 4 =
      gemm_basic [1, 2, 3, 4] [1, 0, -1, 0, 0, 1, 0, -1] [5, 6] [9, 9] 1 2 4 :=
  (tcsc_sgemm_basic_eq_gemm_basic (fun _ _ => 0) 1 4 2 [1, 2, 3, 4]
    [1, 0, -1, 0, 0, 1, 0, -1] [5, 6] [0, 0] [9, 9] rfl rfl (by simp [Ternary]) rfl rfl rfl).1

/-- Claim C3 (column-outer against row-major TCSC kernel).  For every descriptor
`W` whose `col_start` arrays are nondecreasing and whose row indices lie in
`[0, K)`, and every `X`, `B`, `M`, `N`, in exact arithmetic,
`tcsc_sgemm_optimized` leaves in the output buffer the same content as
`tcsc_sgemm_basic`. -/
theorem tcsc_sgemm_optimized_eq_basic (M K N : Nat) (W : tcsc_t) (X B Y Z : List ℚ)
    (_hW : tcsc_valid W K N) (_hX : X.length = M * K) (_hB : B.length = N)
    (hY : Y.length = M * N) (hZ : Z.length = M * N) :
    tcsc_sgemm_optimized X W B Y M N K = tcsc_sgemm_basic X W B Z M N K := by
  refine Pointwise.agree (tcsc_sgemm_optimized_pw (M * N) X W B M N K)
    (tcsc_sgemm_basic_pw (M * N) X W B M N K) ?_ Y Z hY hZ
  intro p hp x y
  dsimp only
  rw [if_pos hp, if_pos hp]

/-- Witness of claim C3 on the descriptor of concrete case B. -/
theorem tcsc_sgemm_optimized_eq_basic_witness :
    tcsc_valid
      { rows := 4, cols := 2, n_elem_pos := 2, n_elem_neg := 2, col_start_pos := [0, 1, 2],
        col_start_neg := [0, 1, 2], row_index_pos := [0, 2], row_index_neg := [1, 3] } 4 2 ∧
    tcsc_sgemm_optimized [1, 2, 3, 4]
      { rows := 4, cols := 2, n_elem_pos := 2, n_elem_neg := 2, col_start_pos := [0, 1, 2],
        col_start_neg := [0, 1, 2], row_index_pos := [0, 2], row_index_neg := [1, 3] }
      [5, 6] [0, 0] 1 2 4 =
    tcsc_sgemm_basic [1, 2, 3, 4]
      { rows := 4, cols := 2, n_elem_pos := 2, n_elem_neg := 2, col_start_pos := [0, 1, 2],
        col_start_neg := [0, 1, 2], row_index_pos := [0, 2], row_index_neg := [1, 3] }
      [5, 6] [9, 9] 1 2 4 :=
  ⟨by decide,
    tcsc_sgemm_optimized_eq_basic 1 4 2 _ [1, 2, 3, 4] [5, 6] [0, 0] [9, 9] (by decide)
      rfl rfl rfl rfl⟩

/-- Claim C4 (the three activation-fused TCSC kernels).  For every valid
descriptor `W`, every `X`, `B`, `M`, `N`, `K` and every slope `a` of any sign,
in exact arithmetic, `tcsc_sgemm_prelu_basic`,
`tcsc_sgemm_prelu_optimized_separate` and `tcsc_sgemm_prelu_optimized_onthego`
leave identical contents in the output buffer. -/
theorem tcsc_sgemm_prelu_variants_agree (M K N : Nat) (W : tcsc_t) (X B : List ℚ) (a : ℚ)
    (Y1 Y2 Y3 : List ℚ) (_hW : tcsc_valid W K N) (_hX : X.length = M * K)
    (_hB : B.length = N) (h1 : Y1.length = M * N) (h2 : Y2.length = M * N)
    (h3 : Y3.length = M * N) :
    tcsc_sgemm_prelu_basic X W B a Y1 M N K =
      tcsc_sgemm_prelu_optimized_separate X W B a Y2 M N K ∧
    tcsc_sgemm_prelu_optimized_separate X W B a Y2 M N K =
      tcsc_sgemm_prelu_optimized_onthego X W B a Y3 M N K := by
  constructor
  · refine Pointwise.agree (tcsc_sgemm_prelu_basic_pw (M * N) X W B a M N K)
      (tcsc_sgemm_prelu_optimized_separate_pw (M * N) X W B a M N K) ?_ Y1 Y2 h1 h2
    intro p hp x y
    dsimp only
    rw [if_pos hp, if_pos hp]
  · refine Pointwise.agree (tcsc_sgemm_prelu_optimized_separate_pw (M * N) X W B a M N K)
      (tcsc_sgemm_prelu_optimized_onthego_pw (M * N) X W B a M N K) ?_ Y2 Y3 h2 h3
    intro p hp x y
    dsimp only
    rw [if_pos hp, if_pos hp]

/-- Witness of claim C4 on the descriptor of concrete case B with a negative
slope. -/
theorem tcsc_sgemm_prelu_variants_agree_witness :
    tcsc_sgemm_prelu_basic [1, 2, 3, 4]
      { rows := 4, cols := 2, n_elem_pos := 2, n_elem_neg := 2, col_start_pos := [0, 1, 2],
        col_start_neg := [0, 1, 2], row_index_pos := [0, 2], row_index_neg := [1, 3] }
      [5, 0] (-3) [0, 0] 1 2 4 =
    tcsc_sgemm_prelu_optimized_onthego [1, 2, 3, 4]
      { rows := 4, cols := 2, n_elem_pos := 2, n_elem_neg := 2, col_start_pos := [0, 1, 2],
        col_start_neg := [0, 1, 2], row_index_pos := [0, 2], row_index_neg := [1, 3] }
      [5, 0] (-3) [8, 8] 1 2 4 :=
  have h := tcsc_sgemm_prelu_variants_agree 1 4 2
    { rows := 4, cols := 2, n_elem_pos := 2, n_elem_neg := 2, col_start_pos := [0, 1, 2],
      col_start_neg := [0, 1, 2], row_index_pos := [0, 2], row_index_neg := [1, 3] }
    [1, 2, 3, 4] [5, 0] (-3) [0, 0] [1, 1] [8, 8] (by decide) rfl rfl rfl rfl rfl
  h.1.trans h.2

/-- Claim C5 (activation-fused TCSC kernel against the dense reference with
activation).  For every ternary `W` (`K * N`), every `X`, `B` and slope `a`, in
exact arithmetic, `tcsc_sgemm_prelu_basic` on the descriptor built by
`tcsc_from_dense W K N` leaves in the output buffer the same content as
`GEMM_PReLU`, namely `Y[m,n] = p(B[n] + Σ_k X[m,k] * W[k,n])` with `p(y) = y`
if `y ≥ 0` and `a * y` otherwise. -/
theorem tcsc_sgemm_prelu_basic_eq_GEMM_PReLU (junk : Nat → Nat → Nat) (M K N : Nat)
    (X W B : List ℚ) (a : ℚ) (Y Z : List ℚ) (_hX : X.length = M * K)
    (hW : W.length = K * N) (hT : Ternary W) (_hB : B.length = N) (hY : Y.length = M * N)
    (hZ : Z.length = M * N) :
    tcsc_sgemm_prelu_basic X (tcsc_from_dense junk W K N) B a Y M N K =
      GEMM_PReLU X W B Z M N K a ∧
    ∀ m n, m < M → n < N →
      rd (tcsc_sgemm_prelu_basic X (tcsc_from_dense junk W K N) B a Y M N K) (m * N + n) =
        prelu a (rd B n + dot X W N K m n) := by
  have hs := tcsc_sgemm_prelu_basic_pw (M * N) X (tcsc_from_dense junk W K N) B a M N K
  have hg := GEMM_PReLU_pw (M * N) X W B a M N K
  constructor
  · refine Pointwise.agree hs hg ?_ Y Z hY hZ
    intro p hp x y
    dsimp only
    rw [if_pos hp, if_pos hp,
      tcsc_from_dense_val_ternary junk X W B K N _ _ (mod_lt_of_cell M N p hp) hW hT]
  · intro m n hm hn
    have hp := cell_lt M N m n hm hn
    rw [(hs Y hY).2 _ hp]
    dsimp only
    rw [if_pos hp, cell_div N m n hn, cell_mod N m n hn,
      tcsc_from_dense_val_ternary junk X W B K N m n hn hW hT]

/-- Witness of claim C5 with `M = 1`, `K = 4`, `N = 2` and slope `1/4`. -/
theorem tcsc_sgemm_prelu_basic_eq_GEMM_PReLU_witness :
    tcsc_sgemm_prelu_basic [1, 2, 3, 4]
        (tcsc_from_dense (fun _ _ => 0) [1, 0, -1, 0, 0, 1, 0, -1] 4 2) [0, 0] (1 / 4) [0, 0]
        1 2 4 =
      GEMM_PReLU [1, 2, 3, 4] [1, 0, -1, 0, 0, 1, 0, -1] [0, 0] [9, 9] 1 2 4 (1 / 4) :=
  (tcsc_sgemm_prelu_basic_eq_GEMM_PReLU (fun _ _ => 0) 1 4 2 [1, 2, 3, 4]
    [1, 0, -1, 0, 0, 1, 0, -1] [0, 0] (1 / 4) [0, 0] [9, 9] rfl rfl (by simp [Ternary])
    rfl rfl rfl).1

/-- Claim C6 (concrete case B).  With `M = 1`, `K = 4`, `N = 2`,
`X = [1,2,3,4]`, `W = [[1,0],[-1,0],[0,1],[0,-1]]` and `B = [0,0]`:
`tcsc_from_dense W 4 2` has positive lists `{0}` and `{2}` and negative lists
`{1}` and `{3}` for columns 0 and 1, `tcsc_sgemm_basic` and
`tcsc_sgemm_optimized` both give `Y = [-1,-1]`, and each of the three
activation-fused kernels with `a = 1/4` gives `Y = [-1/4,-1/4]`; this holds for
any initial content of the allocated arrays and of the output buffer. -/
theorem tcsc_case_B (junk : Nat → Nat → Nat) (y0 y1 : ℚ) :
    tcsc_from_dense junk [1, 0, -1, 0, 0, 1, 0, -1] 4 2 =
      { rows := 4, cols := 2, n_elem_pos := 2, n_elem_neg := 2, col_start_pos := [0, 1, 2],
        col_start_neg := [0, 1, 2], row_index_pos := [0, 2], row_index_neg := [1, 3] } ∧
    slice (tcsc_from_dense junk [1, 0, -1, 0, 0, 1, 0, -1] 4 2).row_index_pos
      (rdN (tcsc_from_dense junk [1, 0, -1, 0, 0, 1, 0, -1] 4 2).col_start_pos 0)
      (rdN (tcsc_from_dense junk [1, 0, -1, 0, 0, 1, 0, -1] 4 2).col_start_pos 1) = [0] ∧
    slice (tcsc_from_dense junk [1, 0, -1, 0, 0, 1, 0, -1] 4 2).row_index_pos
      (rdN (tcsc_from_dense junk [1, 0, -1, 0, 0, 1, 0, -1] 4 2).col_start_pos 1)
      (rdN (tcsc_from_dense junk [1, 0, -1, 0, 0, 1, 0, -1] 4 2).col_start_pos 2) = [2] ∧
    slice (tcsc_from_dense junk [1, 0, -1, 0, 0, 1, 0, -1] 4 2).row_index_neg
      (rdN (tcsc_from_dense junk [1, 0, -1, 0, 0, 1, 0, -1] 4 2).col_start_neg 0)
      (rdN (tcsc_from_dense junk [1, 0, -1, 0, 0, 1, 0, -1] 4 2).col_start_neg 1) = [1] ∧
    slice (tcsc_from_dense junk [1, 0, -1, 0, 0, 1, 0, -1] 4 2).row_index_neg
      (rdN (tcsc_from_dense junk [1, 0, -1, 0, 0, 1, 0, -1] 4 2).col_start_neg 1)
      (rdN (tcsc_from_dense junk [1, 0, -1, 0, 0, 1, 0, -1] 4 2).col_start_neg 2) = [3] ∧
    tcsc_sgemm_basic [1, 2, 3, 4] (tcsc_from_dense junk [1, 0, -1, 0, 0, 1, 0, -1] 4 2)
      [0, 0] [y0, y1] 1 2 4 = [-1, -1] ∧
    tcsc_sgemm_optimized [1, 2, 3, 4] (tcsc_from_dense junk [1, 0, -1, 0, 0, 1, 0, -1] 4 2)
      [0, 0] [y0, y1] 1 2 4 = [-1, -1] ∧
    tcsc_sgemm_prelu_basic [1, 2, 3, 4] (tcsc_from_dense junk [1, 0, -1, 0, 0, 1, 0, -1] 4 2)
      [0, 0] (1 / 4) [y0, y1] 1 2 4 = [-1 / 4, -1 / 4] ∧
    tcsc_sgemm_prelu_optimized_separate [1, 2, 3, 4]
      (tcsc_from_dense junk [1, 0, -1, 0, 0, 1, 0, -1] 4 2)
      [0, 0] (1 / 4) [y0, y1] 1 2 4 = [-1 / 4, -1 / 4] ∧
    tcsc_sgemm_prelu_optimized_onthego [1, 2, 3, 4]
      (tcsc_from_dense junk [1, 0, -1, 0, 0, 1, 0, -1] 4 2)
      [0, 0] (1 / 4) [y0, y1] 1 2 4 = [-1 / 4, -1 / 4] := by
  have hT : tcsc_from_dense junk [1, 0, -1, 0, 0, 1, 0, -1] 4 2 =
      { rows := 4, cols := 2, n_elem_pos := 2, n_elem_neg := 2, col_start_pos := [0, 1, 2],
        col_start_neg := [0, 1, 2], row_index_pos := [0, 2], row_index_neg := [1, 3] } := by
    norm_num [tcsc_from_dense, tcsc_count, tcsc_fill_col, tcsc_fill_elem, forLoop, rd, malloc,
      List.range', List.range, List.range.loop]
  rw [hT]
  refine ⟨rfl, by decide, by decide, by decide, by decide, ?_, ?_, ?_, ?_, ?_⟩
  · norm_num [tcsc_sgemm_basic, rdN, forLoop, rd, List.range']
  · norm_num [tcsc_sgemm_optimized, rdN, forLoop, rd, List.range']
  · norm_num [tcsc_sgemm_prelu_basic, rdN, forLoop, rd, List.range']
  · norm_num [tcsc_sgemm_prelu_optimized_separate, rdN, forLoop, rd, List.range']
  · norm_num [tcsc_sgemm_prelu_optimized_onthego, rdN, forLoop, rd, List.range']

/-! ## Main results: BCSR -/

/-- The descriptor that `bcsr_from_dense` builds for the 2 × 1 buffer `[0, 1]`
with 1 × 1 blocks, whose block-row 0 holds no nonzero block: `b_row_start` is
`[0, 1, _]`, its last cell being never written. -/
theorem bcsr_from_dense_gap (junk : bcsr_junk) :
    bcsr_from_dense junk [0, 1] 2 1 1 1 =
      { r := 1, c := 1, br := 2, bc := 1, k := 1,
        b_row_start := [0, 1, junk.b_row_start 2], b_col_idx := [0], b_values := [1] } := by
  have h1 : bcsr_pass1 junk [0, 1] 1 1 1 2 1 = ⟨[-1, 0], 1⟩ := by
    norm_num [bcsr_pass1, bcsr_need_new_block, forLoop, rd, malloc, List.range', List.range,
      List.range.loop]
  have e : bcsr_from_dense junk [0, 1] 2 1 1 1 =
      bcsr_pass2 junk [0, 1] 1 1 1 2 1 (bcsr_pass1 junk [0, 1] 1 1 1 2 1).is_valid_block
        (bcsr_pass1 junk [0, 1] 1 1 1 2 1).k := rfl
  rw [e, h1]
  norm_num [bcsr_pass2, bcsr_fill_block, bcsr_copy_block, forLoop, rd, rdI, malloc,
    List.range', List.range, List.range.loop]

/-- Claim C7 (BCSR scalar kernel against the dense reference), evaluated at a
weight matrix with an empty block-row.  For `W = [0, 1]` (`K = 2`, `N = 1`),
blocks `r = c = 1`, `X = [1, 2]`, `B = [0]`, `M = 1`, `bcsr_sgemm_basic` on the
descriptor built by `bcsr_from_dense` gives `Y = [1]` while `gemm_basic` gives
`Y = [2]`, whatever the allocator left in the buffers (for a leftover
`b_row_start[2]` above 1 the C code moreover reads `b_col_idx` and `b_values`
outside their `k` entries, which the model reads as 0). -/
theorem bcsr_sgemm_basic_empty_block_row (junk : bcsr_junk) (y0 : ℚ) :
    bcsr_sgemm_basic [1, 2] (bcsr_from_dense junk [0, 1] 2 1 1 1) [0] [y0] 1 1 2 = [1] ∧
    gemm_basic [1, 2] [0, 1] [0] [y0] 1 1 2 = [2] ∧
    bcsr_sgemm_basic [1, 2] (bcsr_from_dense junk [0, 1] 2 1 1 1) [0] [y0] 1 1 2 ≠
      gemm_basic [1, 2] [0, 1] [0] [y0] 1 1 2 := by
  have hg : gemm_basic [1, 2] [0, 1] [0] [y0] 1 1 2 = [2] := by
    norm_num [gemm_basic, forLoop, rd, List.range']
  have hb : bcsr_sgemm_basic [1, 2] (bcsr_from_dense junk [0, 1] 2 1 1 1) [0] [y0] 1 1 2 =
      [1] := by
    rw [bcsr_from_dense_gap]
    unfold bcsr_sgemm_basic
    simp only [forLoop_zero_one, forLoop_zero_two]
    have a0 : rdN [0, 1, junk.b_row_start 2] 0 = 0 := rfl
    have a1 : rdN [0, 1, junk.b_row_start 2] (0 + 1) = 1 := rfl
    have a3 : rdN [0, 1, junk.b_row_start 2] (1 + 1) = junk.b_row_start 2 := rfl
    rw [a0, a1, a3, forLoop_zero_one, forLoop_fixed]
    · norm_num [rd, rdN]
    · intro i hi _
      simp only [Nat.mul_one, Nat.zero_mul, Nat.add_zero, Nat.zero_add]
      rw [rd_singleton_succ 1 i hi, rdN_singleton_succ 0 i hi]
      norm_num [rd, rdN]
  refine ⟨hb, hg, ?_⟩
  rw [hb, hg]
  norm_num

/-- Claim C8 (prefix-sum law of `b_row_start`), evaluated at a buffer with an
empty block-row.  For the 2 × 1 buffer `[0, 1]` with `r = c = 1`, block-row 0
holds no stored block, yet `b_row_start[1] - b_row_start[0] = 1`; the entry
`b_row_start[br]` is the never-written cell, not forced to be `k = 1`. -/
theorem bcsr_from_dense_prefix_sum_empty_block_row (junk : bcsr_junk) :
    bcsr_blocks_in_row [0, 1] 1 1 1 1 0 = 0 ∧
    rdN (bcsr_from_dense junk [0, 1] 2 1 1 1).b_row_start 1 -
      rdN (bcsr_from_dense junk [0, 1] 2 1 1 1).b_row_start 0 = 1 ∧
    (bcsr_from_dense junk [0, 1] 2 1 1 1).k = 1 ∧
    rdN (bcsr_from_dense junk [0, 1] 2 1 1 1).b_row_start
      (bcsr_from_dense junk [0, 1] 2 1 1 1).br = junk.b_row_start 2 := by
  rw [bcsr_from_dense_gap]
  refine ⟨?_, rfl, rfl, rfl⟩
  norm_num [bcsr_blocks_in_row, bcsr_need_new_block, forLoop, rd, List.range', List.range,
    List.range.loop]

/-- Claim C9 (concrete case A).  For the 4 × 4 buffer
`[[-1,-1,0,-1],[0,-1,0,0],[0,0,-1,-1],[0,0,-1,0]]` and block shape `r = c = 2`,
`bcsr_from_dense` returns `k = 3` stored blocks with `b_row_start = [0,2,3]`
and `b_col_idx = [0,1,1]`, whatever the allocator left in the buffers. -/
theorem bcsr_case_A (junk : bcsr_junk) :
    (bcsr_from_dense junk [-1, -1, 0, -1, 0, -1, 0, 0, 0, 0, -1, -1, 0, 0, -1, 0] 4 4 2 2).k
      = 3 ∧
    (bcsr_from_dense junk
      [-1, -1, 0, -1, 0, -1, 0, 0, 0, 0, -1, -1, 0, 0, -1, 0] 4 4 2 2).b_row_start
      = [0, 2, 3] ∧
    (bcsr_from_dense junk
      [-1, -1, 0, -1, 0, -1, 0, 0, 0, 0, -1, -1, 0, 0, -1, 0] 4 4 2 2).b_col_idx
      = [0, 1, 1] := by
  have h1 : bcsr_pass1 junk [-1, -1, 0, -1, 0, -1, 0, 0, 0, 0, -1, -1, 0, 0, -1, 0] 4 2 2 2 2 =
      ⟨[0, 1, -1, 2], 3⟩ := by
    norm_num [bcsr_pass1, bcsr_need_new_block, forLoop, rd, malloc, List.range', List.range,
      List.range.loop]
  have e : bcsr_from_dense junk [-1, -1, 0, -1, 0, -1, 0, 0, 0, 0, -1, -1, 0, 0, -1, 0] 4 4 2 2 =
      bcsr_pass2 junk [-1, -1, 0, -1, 0, -1, 0, 0, 0, 0, -1, -1, 0, 0, -1, 0] 4 2 2 2 2
        (bcsr_pass1 junk
          [-1, -1, 0, -1, 0, -1, 0, 0, 0, 0, -1, -1, 0, 0, -1, 0] 4 2 2 2 2).is_valid_block
        (bcsr_pass1 junk
          [-1, -1, 0, -1, 0, -1, 0, 0, 0, 0, -1, -1, 0, 0, -1, 0] 4 2 2 2 2).k := rfl
  rw [e, h1]
  norm_num [bcsr_pass2, bcsr_fill_block, bcsr_copy_block, forLoop, rd, rdI, malloc,
    List.range', List.range, List.range.loop, show Int.toNat 2 = 2 from rfl]

/-- Claim C10 (BCSR round trip), evaluated at a buffer with an empty block-row.
For the ternary 2 × 1 buffer `W = [0, 1]` with `r = c = 1`, rebuilding a dense
buffer from `bcsr_from_dense W` gives `[1, 0]`, not `W`: the only stored block
is placed in block-row 0. -/
theorem bcsr_roundtrip_empty_block_row (junk : bcsr_junk) :
    Ternary [0, 1] ∧
    bcsr_decode (bcsr_from_dense junk [0, 1] 2 1 1 1) 2 1 = [1, 0] ∧
    bcsr_decode (bcsr_from_dense junk [0, 1] 2 1 1 1) 2 1 ≠ [0, 1] := by
  have hd : bcsr_decode (bcsr_from_dense junk [0, 1] 2 1 1 1) 2 1 = [1, 0] := by
    rw [bcsr_from_dense_gap]
    unfold bcsr_decode
    simp only [forLoop_zero_one, forLoop_zero_two]
    have a0 : rdN [0, 1, junk.b_row_start 2] 0 = 0 := rfl
    have a1 : rdN [0, 1, junk.b_row_start 2] (0 + 1) = 1 := rfl
    have a3 : rdN [0, 1, junk.b_row_start 2] (1 + 1) = junk.b_row_start 2 := rfl
    rw [a0, a1, a3, forLoop_zero_one, forLoop_fixed]
    · norm_num [rd, rdN, List.replicate]
    · intro i hi _
      simp only [Nat.mul_one, Nat.zero_mul, Nat.add_zero, Nat.zero_add]
      rw [rd_singleton_succ 1 i hi, rdN_singleton_succ 0 i hi]
      norm_num [rd, rdN, List.replicate]
  refine ⟨by simp [Ternary], hd, ?_⟩
  rw [hd]
  norm_num

/-! ## Main results: non-ternary entries, column lists, counters -/

theorem tern_zero : tern 0 = 0 := by
  unfold tern
  norm_num

theorem rd_map_tern (W : List ℚ) (p : Nat) : rd (W.map tern) p = tern (rd W p) := by
  unfold rd
  rw [List.getD_eq_getElem?_getD, List.getD_eq_getElem?_getD, List.getElem?_map]
  cases W[p]? with
  | none => exact tern_zero.symm
  | some v => rfl

theorem dot_map_tern (X W : List ℚ) (N K m n : Nat) :
    dot X (W.map tern) N K m n =
      ∑ k in Finset.range K, rd X (m * K + k) * tern (rd W (k * N + n)) := by
  unfold dot
  apply Finset.sum_congr rfl
  intro k _
  rw [rd_map_tern]

/-- Claim C14 (entries other than `+1` and `-1` count as zero in TCSC).  For
every dense buffer `W` (`K * N`) with arbitrary entries, in exact arithmetic,
`tcsc_sgemm_basic` on the descriptor built by `tcsc_from_dense W K N` leaves in
the output buffer the same content as `gemm_basic` on `T(W)`, the buffer in
which every entry other than `+1` and `-1` is replaced by `0`. -/
theorem tcsc_sgemm_basic_eq_gemm_basic_tern (junk : Nat → Nat → Nat) (M K N : Nat)
    (X W B Y Z : List ℚ) (_hX : X.length = M * K) (_hW : W.length = K * N)
    (_hB : B.length = N) (hY : Y.length = M * N) (hZ : Z.length = M * N) :
    tcsc_sgemm_basic X (tcsc_from_dense junk W K N) B Y M N K =
      gemm_basic X (W.map tern) B Z M N K := by
  refine Pointwise.agree (tcsc_sgemm_basic_pw (M * N) X (tcsc_from_dense junk W K N) B M N K)
    (gemm_basic_pw (M * N) X (W.map tern) B M N K) ?_ Y Z hY hZ
  intro p hp x y
  dsimp only
  rw [if_pos hp, if_pos hp,
    tcsc_from_dense_val junk X W B K N _ _ (mod_lt_of_cell M N p hp), dot_map_tern]

/-- Witness of claim C14 on a buffer holding `2`, `1/2` and `999/1000`. -/
theorem tcsc_sgemm_basic_eq_gemm_basic_tern_witness :
    ([1, 2, -1, 1 / 2, 999 / 1000, 1, 0, -1] : List ℚ).map tern = [1, 0, -1, 0, 0, 1, 0, -1] ∧
    tcsc_sgemm_basic [1, 2, 3, 4]
        (tcsc_from_dense (fun _ _ => 0) [1, 2, -1, 1 / 2, 999 / 1000, 1, 0, -1] 4 2)
        [5, 6] [0, 0] 1 2 4 =
      gemm_basic [1, 2, 3, 4] (([1, 2, -1, 1 / 2, 999 / 1000, 1, 0, -1] : List ℚ).map tern)
        [5, 6] [9, 9] 1 2 4 :=
  ⟨by norm_num [tern],
    tcsc_sgemm_basic_eq_gemm_basic_tern (fun _ _ => 0) 1 4 2 [1, 2, 3, 4]
      [1, 2, -1, 1 / 2, 999 / 1000, 1, 0, -1] [5, 6] [0, 0] [9, 9] rfl rfl rfl rfl rfl⟩

theorem colRows_pairwise (t : ℚ) (dense : List ℚ) (rows cols j : Nat) :
    (colRows t dense rows cols j).Pairwise (· < ·) := by
  unfold colRows
  exact List.Pairwise.filter _ (List.pairwise_lt_range rows)

theorem mem_colRows (t : ℚ) (dense : List ℚ) (rows cols j i : Nat) :
    i ∈ colRows t dense rows cols j ↔ i < rows ∧ rd dense (i * cols + j) = t := by
  unfold colRows
  simp [List.mem_filter]

/-- Claim C17 (column lists of the TCSC descriptor).  For every dense buffer and
every column `j < cols`, in the descriptor returned by `tcsc_from_dense` the
slice `row_index_pos[col_start_pos[j] .. col_start_pos[j+1])` is exactly the
strictly increasing list of the rows `i < rows` with `dense[i*cols+j] = +1`, its
length `col_start_pos[j+1] - col_start_pos[j]` being the number of `+1` entries
of column `j`; likewise for `row_index_neg` / `col_start_neg` with `-1`. -/
theorem tcsc_from_dense_column_lists (junk : Nat → Nat → Nat) (dense : List ℚ)
    (rows cols j : Nat) (hj : j < cols) :
    (slice (tcsc_from_dense junk dense rows cols).row_index_pos
        (rdN (tcsc_from_dense junk dense rows cols).col_start_pos j)
        (rdN (tcsc_from_dense junk dense rows cols).col_start_pos (j + 1)) =
      (List.range rows).filter (fun i => rd dense (i * cols + j) = 1) ∧
     (slice (tcsc_from_dense junk dense rows cols).row_index_pos
        (rdN (tcsc_from_dense junk dense rows cols).col_start_pos j)
        (rdN (tcsc_from_dense junk dense rows cols).col_start_pos (j + 1))).Pairwise (· < ·) ∧
     rdN (tcsc_from_dense junk dense rows cols).col_start_pos (j + 1) -
        rdN (tcsc_from_dense junk dense rows cols).col_start_pos j =
      (List.range rows).countP (fun i => rd dense (i * cols + j) = 1) ∧
     rdN (tcsc_from_dense junk dense rows cols).col_start_pos (j + 1) ≤
      (tcsc_from_dense junk dense rows cols).row_index_pos.length) ∧
    (slice (tcsc_from_dense junk dense rows cols).row_index_neg
        (rdN (tcsc_from_dense junk dense rows cols).col_start_neg j)
        (rdN (tcsc_from_dense junk dense rows cols).col_start_neg (j + 1)) =
      (List.range rows).filter (fun i => rd dense (i * cols + j) = -1) ∧
     (slice (tcsc_from_dense junk dense rows cols).row_index_neg
        (rdN (tcsc_from_dense junk dense rows cols).col_start_neg j)
        (rdN (tcsc_from_dense junk dense rows cols).col_start_neg (j + 1))).Pairwise (· < ·) ∧
     rdN (tcsc_from_dense junk dense rows cols).col_start_neg (j + 1) -
        rdN (tcsc_from_dense junk dense rows cols).col_start_neg j =
      (List.range rows).countP (fun i => rd dense (i * cols + j) = -1) ∧
     rdN (tcsc_from_dense junk dense rows cols).col_start_neg (j + 1) ≤
      (tcsc_from_dense junk dense rows cols).row_index_neg.length) := by
  obtain ⟨_, _, e1, e2, e3, e4, _⟩ := tcsc_from_dense_spec junk dense rows cols
  constructor
  · refine ⟨tcsc_from_dense_slice_pos junk dense rows cols j hj, ?_, ?_, ?_⟩
    · rw [tcsc_from_dense_slice_pos junk dense rows cols j hj]
      exact colRows_pairwise 1 dense rows cols j
    · rw [e3 j (by omega), e3 (j + 1) (by omega), colsUpTo_succ_length,
        Nat.add_sub_cancel_left, List.countP_eq_length_filter]
      rfl
    · rw [e3 (j + 1) (by omega), e1]
      exact colsUpTo_length_mono 1 dense rows cols (j + 1) cols hj
  · refine ⟨tcsc_from_dense_slice_neg junk dense rows cols j hj, ?_, ?_, ?_⟩
    · rw [tcsc_from_dense_slice_neg junk dense rows cols j hj]
      exact colRows_pairwise (-1) dense rows cols j
    · rw [e4 j (by omega), e4 (j + 1) (by omega), colsUpTo_succ_length,
        Nat.add_sub_cancel_left, List.countP_eq_length_filter]
      rfl
    · rw [e4 (j + 1) (by omega), e2]
      exact colsUpTo_length_mono (-1) dense rows cols (j + 1) cols hj

/-- Witness of claim C17 on column 1 of a 3 × 2 buffer. -/
theorem tcsc_from_dense_column_lists_witness :
    slice (tcsc_from_dense (fun _ _ => 0) [0, 1, 1, -1, 0, 1] 3 2).row_index_pos
        (rdN (tcsc_from_dense (fun _ _ => 0) [0, 1, 1, -1, 0, 1] 3 2).col_start_pos 1)
        (rdN (tcsc_from_dense (fun _ _ => 0) [0, 1, 1, -1, 0, 1] 3 2).col_start_pos (1 + 1)) =
      (List.range 3).filter (fun i => rd [0, 1, 1, -1, 0, 1] (i * 2 + 1) = 1) :=
  (tcsc_from_dense_column_lists (fun _ _ => 0) [0, 1, 1, -1, 0, 1] 3 2 1 (by decide)).1.1

theorem Half.ctr_lt {t : ℚ} {dense : List ℚ} {rows cols P jb j i : Nat} {cs ri : List Nat}
    {ctr : Nat} (H : Half t dense rows cols P jb j i cs ri ctr)
    (hP : P = (colsUpTo t dense rows cols cols).length) (hj : j < cols) (hi : i < rows)
    (h : rd dense (i * cols + j) = t) : ctr < P := by
  have hlen := scanned_length_le t dense rows cols j (i + 1) hj hi
  rw [scanned_hit t dense rows cols j i h, List.length_append, ← H.ctr_eq, ← hP] at hlen
  simpa using hlen

/-- The invariant of pass 2 holds in every state the scan goes through. -/
theorem tcsc_fill_at_inv (junk : Nat → Nat → Nat) (dense : List ℚ) (rows cols j i : Nat)
    (hj : j ≤ cols) (hi : i ≤ rows) (hji : j < cols ∨ i = 0) :
    FillInv dense rows cols (colsUpTo 1 dense rows cols cols).length
      (colsUpTo (-1) dense rows cols cols).length (j + 1) j i
      (tcsc_fill_at junk dense rows cols j i) := by
  unfold tcsc_fill_at
  rw [tcsc_count_eq]
  have hcols : FillInv dense rows cols (colsUpTo 1 dense rows cols cols).length
      (colsUpTo (-1) dense rows cols cols).length j j 0
      (forLoop 0 j (tcsc_fill_col dense rows cols)
        { sparse :=
            { rows := rows
              cols := cols
              n_elem_pos := (colsUpTo 1 dense rows cols cols).length
              n_elem_neg := (colsUpTo (-1) dense rows cols cols).length
              col_start_pos := malloc (junk 0) (cols + 1)
              col_start_neg := malloc (junk 1) (cols + 1)
              row_index_pos := malloc (junk 2) (colsUpTo 1 dense rows cols cols).length
              row_index_neg := malloc (junk 3) (colsUpTo (-1) dense rows cols cols).length }
          pos_counter := 0
          neg_counter := 0 }) := by
    refine forLoop_inv (fun j s => FillInv dense rows cols
      (colsUpTo 1 dense rows cols cols).length (colsUpTo (-1) dense rows cols cols).length j j 0 s)
      0 j (Nat.zero_le _) _ _ ?_ ?_
    · refine ⟨⟨malloc_length _ _, malloc_length _ _, ?_, ?_, ?_⟩,
        ⟨malloc_length _ _, malloc_length _ _, ?_, ?_, ?_⟩, rfl, rfl, rfl, rfl⟩
      · simp [scanned, colsUpTo]
      · simp [scanned, colsUpTo]
      · intro jj hjj; omega
      · simp [scanned, colsUpTo]
      · simp [scanned, colsUpTo]
      · intro jj hjj; omega
    · intro jj s _ hjj Hs
      exact tcsc_fill_col_inv dense rows cols _ _ jj s rfl rfl (by omega) Hs
  obtain ⟨hp, hn, h1, h2, h3, h4⟩ := hcols
  dsimp only
  rcases hji with hlt | h0
  · exact forLoop_inv (fun i s => FillInv dense rows cols
      (colsUpTo 1 dense rows cols cols).length (colsUpTo (-1) dense rows cols cols).length
      (j + 1) j i s) 0 i (Nat.zero_le _) (tcsc_fill_elem dense cols j) _
      ⟨hp.start (by omega), hn.start (by omega), h1, h2, h3, h4⟩
      (fun ii s _ hii Hs => tcsc_fill_elem_inv dense rows cols _ _ (j + 1) j ii s rfl rfl hlt
        (by omega) Hs)
  · subst h0
    rw [forLoop_empty 0 0 (le_refl _)]
    exact ⟨hp.start (by omega), hn.start (by omega), h1, h2, h3, h4⟩

theorem tcsc_fill_at_succ (junk : Nat → Nat → Nat) (dense : List ℚ) (rows cols j i : Nat) :
    tcsc_fill_at junk dense rows cols j (i + 1) =
      tcsc_fill_elem dense cols j i (tcsc_fill_at junk dense rows cols j i) := by
  unfold tcsc_fill_at
  dsimp only
  rw [forLoop_succ 0 i (Nat.zero_le _)]

theorem tcsc_fill_at_final (junk : Nat → Nat → Nat) (dense : List ℚ) (rows cols : Nat) :
    tcsc_from_dense junk dense rows cols = (tcsc_fill_at junk dense rows cols cols 0).sparse := by
  unfold tcsc_fill_at tcsc_from_dense
  dsimp only
  rw [forLoop_empty 0 0 (le_refl _)]

/-- Claim C18 (column starts and write counters of `tcsc_from_dense`).  For
every dense buffer the returned descriptor has `col_start_pos[0] = 0`,
`col_start_pos` nondecreasing over its `cols + 1` entries and
`col_start_pos[cols] = n_elem_pos`, the size of `row_index_pos` (same for neg):
the column-major write counter of pass 2 ends exactly at the row-major count of
pass 1, and at every write `row_index_pos[pos_counter++] = i` (resp.
`row_index_neg[neg_counter++] = i`) the counter is below the size of the array
allocated from pass 1. -/
theorem tcsc_from_dense_counters (junk : Nat → Nat → Nat) (dense : List ℚ) (rows cols : Nat) :
    ((tcsc_from_dense junk dense rows cols).col_start_pos.length = cols + 1 ∧
     rdN (tcsc_from_dense junk dense rows cols).col_start_pos 0 = 0 ∧
     (∀ j, j < cols → rdN (tcsc_from_dense junk dense rows cols).col_start_pos j ≤
        rdN (tcsc_from_dense junk dense rows cols).col_start_pos (j + 1)) ∧
     rdN (tcsc_from_dense junk dense rows cols).col_start_pos cols =
        (tcsc_from_dense junk dense rows cols).n_elem_pos ∧
     (tcsc_from_dense junk dense rows cols).row_index_pos.length =
        (tcsc_from_dense junk dense rows cols).n_elem_pos ∧
     (tcsc_from_dense junk dense rows cols).n_elem_pos = (tcsc_count dense rows cols).1 ∧
     (tcsc_fill_at junk dense rows cols cols 0).pos_counter = (tcsc_count dense rows cols).1 ∧
     ∀ j i, j < cols → i < rows → rd dense (i * cols + j) = 1 →
        (tcsc_fill_at junk dense rows cols j i).pos_counter <
          (tcsc_fill_at junk dense rows cols j i).sparse.row_index_pos.length ∧
        (tcsc_fill_at junk dense rows cols j i).sparse.row_index_pos.length =
          (tcsc_count dense rows cols).1) ∧
    ((tcsc_from_dense junk dense rows cols).col_start_neg.length = cols + 1 ∧
     rdN (tcsc_from_dense junk dense rows cols).col_start_neg 0 = 0 ∧
     (∀ j, j < cols → rdN (tcsc_from_dense junk dense rows cols).col_start_neg j ≤
        rdN (tcsc_from_dense junk dense rows cols).col_start_neg (j + 1)) ∧
     rdN (tcsc_from_dense junk dense rows cols).col_start_neg cols =
        (tcsc_from_dense junk dense rows cols).n_elem_neg ∧
     (tcsc_from_dense junk dense rows cols).row_index_neg.length =
        (tcsc_from_dense junk dense rows cols).n_elem_neg ∧
     (tcsc_from_dense junk dense rows cols).n_elem_neg = (tcsc_count dense rows cols).2 ∧
     (tcsc_fill_at junk dense rows cols cols 0).neg_counter = (tcsc_count dense rows cols).2 ∧
     ∀ j i, j < cols → i < rows → rd dense (i * cols + j) = -1 →
        (tcsc_fill_at junk dense rows cols j i).neg_counter <
          (tcsc_fill_at junk dense rows cols j i).sparse.row_index_neg.length ∧
        (tcsc_fill_at junk dense rows cols j i).sparse.row_index_neg.length =
          (tcsc_count dense rows cols).2) := by
  obtain ⟨_, _, e1, e2, e3, e4, l1, l2, n1, n2⟩ := tcsc_from_dense_spec junk dense rows cols
  obtain ⟨fp, fn, _⟩ := tcsc_fill_at_inv junk dense rows cols cols 0 (le_refl _)
    (Nat.zero_le _) (Or.inr rfl)
  have hc := tcsc_count_eq dense rows cols
  constructor
  · refine ⟨l1, ?_, ?_, ?_, ?_, ?_, ?_, ?_⟩
    · rw [e3 0 (Nat.zero_le _)]; rfl
    · intro j hj
      rw [e3 j (by omega), e3 (j + 1) (by omega)]
      exact colsUpTo_length_mono 1 dense rows cols j (j + 1) (Nat.le_succ j)
    · rw [e3 cols (le_refl _), n1]
    · rw [e1, n1]
    · rw [n1, hc]
    · rw [fp.ctr_eq, scanned_zero, hc]
    · intro j i hj hi hv
      obtain ⟨gp, _, _⟩ := tcsc_fill_at_inv junk dense rows cols j i (Nat.le_of_lt hj)
        (Nat.le_of_lt hi) (Or.inl hj)
      rw [gp.ri_len, hc]
      exact ⟨gp.ctr_lt rfl hj hi hv, rfl⟩
  · refine ⟨l2, ?_, ?_, ?_, ?_, ?_, ?_, ?_⟩
    · rw [e4 0 (Nat.zero_le _)]; rfl
    · intro j hj
      rw [e4 j (by omega), e4 (j + 1) (by omega)]
      exact colsUpTo_length_mono (-1) dense rows cols j (j + 1) (Nat.le_succ j)
    · rw [e4 cols (le_refl _), n2]
    · rw [e2, n2]
    · rw [n2, hc]
    · rw [fn.ctr_eq, scanned_zero, hc]
    · intro j i hj hi hv
      obtain ⟨_, gn, _⟩ := tcsc_fill_at_inv junk dense rows cols j i (Nat.le_of_lt hj)
        (Nat.le_of_lt hi) (Or.inl hj)
      rw [gn.ri_len, hc]
      exact ⟨gn.ctr_lt rfl hj hi hv, rfl⟩

/-! ## Main results: the validator -/

theorem compare_step_none (result target : List ℚ) (ij row col : Nat)
    (ret : Option (Nat × Nat × ℚ × ℚ)) :
    (match ret with
      | some r => some r
      | none =>
        if |rd result ij - rd target ij| > compare_tol then
          some (row, col, rd target ij, rd result ij)
        else none) = none ↔
    ret = none ∧ |rd result ij - rd target ij| ≤ compare_tol := by
  cases ret with
  | some r => simp
  | none =>
    by_cases h : |rd result ij - rd target ij| > compare_tol
    · simp [h]
    · simp [h, not_lt.mp h]

theorem compare_scan_none (result target : List ℚ) (rows cols : Nat) :
    compare_scan result target rows cols = none ↔
      ∀ i, i < rows * cols → |rd result i - rd target i| ≤ compare_tol := by
  unfold compare_scan
  refine forLoop_inv (fun row (ret : Option (Nat × Nat × ℚ × ℚ)) =>
    ret = none ↔ ∀ i, i < row * cols → |rd result i - rd target i| ≤ compare_tol)
    0 rows (Nat.zero_le _) _ none ?_ ?_
  · simp
  · intro row ret _ _ hret
    have key := forLoop_inv (fun col (s : Option (Nat × Nat × ℚ × ℚ)) =>
      s = none ↔ ∀ i, i < row * cols + col → |rd result i - rd target i| ≤ compare_tol)
      0 cols (Nat.zero_le _)
      (fun col ret =>
        match ret with
        | some r => some r
        | none =>
          let ij := row * cols + col
          let res := rd result ij
          let tar := rd target ij
          if |res - tar| > compare_tol then some (row, col, tar, res) else none) ret
      (by dsimp only; rw [Nat.add_zero]; exact hret) ?_
    · rw [Nat.succ_mul]
      exact key
    · intro col s _ _ hs
      dsimp only
      rw [compare_step_none, hs]
      constructor
      · rintro ⟨h1, h2⟩ i hi
        rcases Nat.lt_succ_iff_lt_or_eq.mp (by omega : i < (row * cols + col) + 1) with h | h
        · exact h1 i h
        · rw [h]; exact h2
      · intro h
        exact ⟨fun i hi => h i (by omega), h _ (by omega)⟩

/-- Claim C19 (the validator).  For all buffers `result` and `target` of size
`rows * cols`, with values taken as exact rationals, `compare` returns true if
and only if `|result[i] - target[i]| ≤ 1e-4` for every index `i` in
`[0, rows * cols)`; in particular a difference of exactly `1e-4` is accepted,
and `compare` with `rows = 0` or `cols = 0` is true. -/
theorem compare_iff (result target : List ℚ) (rows cols : Nat)
    (_hR : result.length = rows * cols) (_hT : target.length = rows * cols) :
    (compare result target rows cols = true ↔
      ∀ i, i < rows * cols → |rd result i - rd target i| ≤ 1 / 10000) ∧
    ((∀ i, i < rows * cols → |rd result i - rd target i| = 1 / 10000) →
      compare result target rows cols = true) ∧
    (rows = 0 ∨ cols = 0 → compare result target rows cols = true) := by
  have h : compare result target rows cols = true ↔
      ∀ i, i < rows * cols → |rd result i - rd target i| ≤ 1 / 10000 := by
    unfold compare
    rw [Option.isNone_iff_eq_none, compare_scan_none]
    rfl
  refine ⟨h, fun he => h.mpr (fun i hi => le_of_eq (he i hi)), ?_⟩
  intro h0
  apply h.mpr
  intro i hi
  rcases h0 with h0 | h0 <;> subst h0 <;> simp at hi

/-- Witness of claim C19: a 1 × 2 pair whose differences are `1e-4` and `0`. -/
theorem compare_iff_witness :
    compare [1 / 10000, 5] [0, 5] 1 2 = true ↔
      ∀ i, i < 1 * 2 → |rd [1 / 10000, 5] i - rd [0, 5] i| ≤ 1 / 10000 :=
  (compare_iff [1 / 10000, 5] [0, 5] 1 2 rfl rfl).1

/-! ## The constructor of `SparseFormat` -/

theorem catUpTo_length_mono (f : Nat → List Nat) (a b : Nat) (h : a ≤ b) :
    (catUpTo f a).length ≤ (catUpTo f b).length := by
  induction b, h using Nat.le_induction with
  | base => exact le_refl _
  | succ n _ ih =>
    show _ ≤ (catUpTo f n ++ f n).length
    rw [List.length_append]
    omega

theorem catUpTo_split (f : Nat → List Nat) (n c : Nat) (hn : n < c) :
    ∃ rest, catUpTo f c = catUpTo f n ++ (f n ++ rest) := by
  induction c, (Nat.succ_le_of_lt hn) using Nat.le_induction with
  | base => exact ⟨[], by simp [catUpTo]⟩
  | succ c hc ih =>
    obtain ⟨rest, e⟩ := ih
    refine ⟨rest ++ f c, ?_⟩
    show catUpTo f c ++ f c = _
    rw [e]
    simp [List.append_assoc]

theorem SfHalf.sf_hit {q : Int → Bool} {matrix : List Int} {K N nb n k : Nat} {cs ri : List Nat}
    {ctr : Nat} (H : SfHalf q matrix K N nb n k cs ri ctr)
    (h : q (rdI matrix (k * N + n)) = true) :
    SfHalf q matrix K N nb n (k + 1) cs (ri ++ [k]) (ctr + 1) := by
  refine ⟨?_, ?_, H.cs_eq⟩
  · rw [H.ri_eq, List.range_succ, List.filter_append, List.append_assoc]
    simp [List.filter_cons, h]
  · rw [H.ctr_eq, List.length_append]
    rfl

theorem SfHalf.sf_miss {q : Int → Bool} {matrix : List Int} {K N nb n k : Nat} {cs ri : List Nat}
    {ctr : Nat} (H : SfHalf q matrix K N nb n k cs ri ctr)
    (h : q (rdI matrix (k * N + n)) = false) :
    SfHalf q matrix K N nb n (k + 1) cs ri ctr := by
  refine ⟨?_, H.ctr_eq, H.cs_eq⟩
  rw [H.ri_eq, List.range_succ, List.filter_append]
  simp [List.filter_cons, h]

theorem SfHalf.sf_start {q : Int → Bool} {matrix : List Int} {K N n : Nat} {cs ri : List Nat}
    {ctr : Nat} (H : SfHalf q matrix K N n n 0 cs ri ctr) :
    SfHalf q matrix K N (n + 1) n 0 (cs ++ [ctr]) ri ctr := by
  refine ⟨H.ri_eq, H.ctr_eq, ?_⟩
  rw [H.cs_eq, List.range_succ, List.map_append, H.ctr_eq, H.ri_eq]
  simp

theorem SfHalf.sf_next {q : Int → Bool} {matrix : List Int} {K N n : Nat} {cs ri : List Nat}
    {ctr : Nat} (H : SfHalf q matrix K N (n + 1) n K cs ri ctr) :
    SfHalf q matrix K N (n + 1) (n + 1) 0 cs ri ctr := by
  refine ⟨?_, H.ctr_eq, H.cs_eq⟩
  rw [H.ri_eq]
  simp [catUpTo, rowsWhere]

theorem SparseFormat_elem_inv (matrix : List Int) (K N nb n k : Nat)
    (st : SparseFormat_state)
    (Hp : SfHalf (fun v => decide (v ≥ 1)) matrix K N nb n k st.this.col_start_pos
      st.this.row_index_pos st.column_start_pos)
    (Hn : SfHalf (fun v => decide (v ≤ -1)) matrix K N nb n k st.this.col_start_neg
      st.this.row_index_neg st.column_start_neg) :
    SfHalf (fun v => decide (v ≥ 1)) matrix K N nb n (k + 1)
      (SparseFormat_elem matrix N n k st).this.col_start_pos
      (SparseFormat_elem matrix N n k st).this.row_index_pos
      (SparseFormat_elem matrix N n k st).column_start_pos ∧
    SfHalf (fun v => decide (v ≤ -1)) matrix K N nb n (k + 1)
      (SparseFormat_elem matrix N n k st).this.col_start_neg
      (SparseFormat_elem matrix N n k st).this.row_index_neg
      (SparseFormat_elem matrix N n k st).column_start_neg := by
  unfold SparseFormat_elem
  by_cases c1 : rdI matrix (k * N + n) ≥ 1
  · rw [if_pos c1]
    have c2 : ¬ rdI matrix (k * N + n) ≤ -1 := by omega
    exact ⟨Hp.sf_hit (by simpa using c1), Hn.sf_miss (by simpa using c2)⟩
  · rw [if_neg c1]
    by_cases c2 : rdI matrix (k * N + n) ≤ -1
    · rw [if_pos c2]
      exact ⟨Hp.sf_miss (by simpa using c1), Hn.sf_hit (by simpa using c2)⟩
    · rw [if_neg c2]
      exact ⟨Hp.sf_miss (by simpa using c1), Hn.sf_miss (by simpa using c2)⟩

theorem SparseFormat_col_inv (matrix : List Int) (K N n : Nat) (st : SparseFormat_state)
    (Hp : SfHalf (fun v => decide (v ≥ 1)) matrix K N n n 0 st.this.col_start_pos
      st.this.row_index_pos st.column_start_pos)
    (Hn : SfHalf (fun v => decide (v ≤ -1)) matrix K N n n 0 st.this.col_start_neg
      st.this.row_index_neg st.column_start_neg) :
    SfHalf (fun v => decide (v ≥ 1)) matrix K N (n + 1) (n + 1) 0
      (SparseFormat_col matrix K N n st).this.col_start_pos
      (SparseFormat_col matrix K N n st).this.row_index_pos
      (SparseFormat_col matrix K N n st).column_start_pos ∧
    SfHalf (fun v => decide (v ≤ -1)) matrix K N (n + 1) (n + 1) 0
      (SparseFormat_col matrix K N n st).this.col_start_neg
      (SparseFormat_col matrix K N n st).this.row_index_neg
      (SparseFormat_col matrix K N n st).column_start_neg := by
  unfold SparseFormat_col
  have key := forLoop_inv (fun k (s : SparseFormat_state) =>
    SfHalf (fun v => decide (v ≥ 1)) matrix K N (n + 1) n k s.this.col_start_pos
      s.this.row_index_pos s.column_start_pos ∧
    SfHalf (fun v => decide (v ≤ -1)) matrix K N (n + 1) n k s.this.col_start_neg
      s.this.row_index_neg s.column_start_neg) 0 K (Nat.zero_le _)
    (SparseFormat_elem matrix N n)
    { st with
      this := { st.this with
        col_start_pos := st.this.col_start_pos ++ [st.column_start_pos]
        col_start_neg := st.this.col_start_neg ++ [st.column_start_neg] } }
    ⟨Hp.sf_start, Hn.sf_start⟩
    (fun k s _ _ Hs => SparseFormat_elem_inv matrix K N (n + 1) n k s Hs.1 Hs.2)
  exact ⟨key.1.sf_next, key.2.sf_next⟩

/-- What the constructor of `SparseFormat` builds. -/
theorem SparseFormat_new_spec (matrix : List Int) (K N : Nat) :
    (SparseFormat_new matrix K N).row_index_pos =
      catUpTo (rowsWhere (fun v => decide (v ≥ 1)) matrix K N) N ∧
    (SparseFormat_new matrix K N).row_index_neg =
      catUpTo (rowsWhere (fun v => decide (v ≤ -1)) matrix K N) N ∧
    (SparseFormat_new matrix K N).col_start_pos = (List.range (N + 1)).map
      (fun j => (catUpTo (rowsWhere (fun v => decide (v ≥ 1)) matrix K N) j).length) ∧
    (SparseFormat_new matrix K N).col_start_neg = (List.range (N + 1)).map
      (fun j => (catUpTo (rowsWhere (fun v => decide (v ≤ -1)) matrix K N) j).length) := by
  have key := forLoop_inv (fun n (s : SparseFormat_state) =>
    SfHalf (fun v => decide (v ≥ 1)) matrix K N n n 0 s.this.col_start_pos
      s.this.row_index_pos s.column_start_pos ∧
    SfHalf (fun v => decide (v ≤ -1)) matrix K N n n 0 s.this.col_start_neg
      s.this.row_index_neg s.column_start_neg) 0 N (Nat.zero_le _)
    (SparseFormat_col matrix K N)
    { this := { col_start_pos := [], col_start_neg := [], row_index_pos := [],
                row_index_neg := [] }
      column_start_pos := 0
      column_start_neg := 0 }
    ⟨⟨by simp [catUpTo], rfl, by simp⟩, ⟨by simp [catUpTo], rfl, by simp⟩⟩
    (fun n s _ _ Hs => SparseFormat_col_inv matrix K N n s Hs.1 Hs.2)
  obtain ⟨hp, hn⟩ := key
  have hp2 := hp.sf_start
  have hn2 := hn.sf_start
  unfold SparseFormat_new
  refine ⟨?_, ?_, hp2.cs_eq, hn2.cs_eq⟩
  · rw [hp.ri_eq]; simp
  · rw [hn.ri_eq]; simp

theorem rdN_map_range (g : Nat → Nat) (n j : Nat) (hj : j < n) :
    rdN ((List.range n).map g) j = g j := by
  unfold rdN
  rw [List.getD_eq_getElem?_getD, List.getElem?_map, List.getElem?_range hj]
  rfl

theorem SparseFormat_new_slice (q : Int → Bool) (matrix : List Int) (K N n : Nat)
    (hn : n < N) :
    slice (catUpTo (rowsWhere q matrix K N) N)
      (rdN ((List.range (N + 1)).map
        (fun j => (catUpTo (rowsWhere q matrix K N) j).length)) n)
      (rdN ((List.range (N + 1)).map
        (fun j => (catUpTo (rowsWhere q matrix K N) j).length)) (n + 1)) =
    rowsWhere q matrix K N n := by
  rw [rdN_map_range _ _ _ (by omega), rdN_map_range _ _ _ (by omega)]
  obtain ⟨rest, e⟩ := catUpTo_split (rowsWhere q matrix K N) n N hn
  rw [e]
  show slice _ _ (catUpTo (rowsWhere q matrix K N) n ++ rowsWhere q matrix K N n).length = _
  rw [List.length_append]
  exact slice_mid _ _ _

/-! ## Main results: the lists of `SparseFormat` -/

theorem mem_rowsWhere (q : Int → Bool) (matrix : List Int) (K N n k : Nat) :
    k ∈ rowsWhere q matrix K N n ↔ k < K ∧ q (rdI matrix (k * N + n)) = true := by
  unfold rowsWhere
  simp [List.mem_filter]

/-- Claim C16 as stated fails: for the 1 × 2 matrix `[2, -3]` the constructor
lists row 0 in the positive list of column 0 although the entry is `2`, not
`1`, and in the negative list of column 1 although the entry is `-3`, not
`-1`. -/
theorem SparseFormat_new_not_exact :
    ¬ (0 ∈ slice (SparseFormat_new [2, -3] 1 2).row_index_pos
          (rdN (SparseFormat_new [2, -3] 1 2).col_start_pos 0)
          (rdN (SparseFormat_new [2, -3] 1 2).col_start_pos (0 + 1)) ↔
        rdI [2, -3] (0 * 2 + 0) = 1) ∧
    ¬ (0 ∈ slice (SparseFormat_new [2, -3] 1 2).row_index_neg
          (rdN (SparseFormat_new [2, -3] 1 2).col_start_neg 1)
          (rdN (SparseFormat_new [2, -3] 1 2).col_start_neg (1 + 1)) ↔
        rdI [2, -3] (0 * 2 + 1) = -1) := by
  decide

/-- Claim C16, amended (the lists of `SparseFormat`).  For every integer matrix
(`K * N`, row-major) with arbitrary entries and every column `n < N`, the
constructor lists row `k` in column `n`'s positive list iff
`matrix[k*N+n] ≥ 1` and in column `n`'s negative list iff `matrix[k*N+n] ≤ -1`;
an entry `0` is put in neither list, and where the entry is `-1`, `0` or `+1`
the row is in the positive list iff the entry is exactly `1` and in the negative
list iff it is exactly `-1`. -/
theorem SparseFormat_new_lists (matrix : List Int) (K N n : Nat) (hn : n < N) :
    (∀ k, k ∈ slice (SparseFormat_new matrix K N).row_index_pos
          (rdN (SparseFormat_new matrix K N).col_start_pos n)
          (rdN (SparseFormat_new matrix K N).col_start_pos (n + 1)) ↔
        k < K ∧ rdI matrix (k * N + n) ≥ 1) ∧
    (∀ k, k ∈ slice (SparseFormat_new matrix K N).row_index_neg
          (rdN (SparseFormat_new matrix K N).col_start_neg n)
          (rdN (SparseFormat_new matrix K N).col_start_neg (n + 1)) ↔
        k < K ∧ rdI matrix (k * N + n) ≤ -1) ∧
    (∀ k, rdI matrix (k * N + n) = -1 ∨ rdI matrix (k * N + n) = 0 ∨
          rdI matrix (k * N + n) = 1 →
        (k ∈ slice (SparseFormat_new matrix K N).row_index_pos
            (rdN (SparseFormat_new matrix K N).col_start_pos n)
            (rdN (SparseFormat_new matrix K N).col_start_pos (n + 1)) ↔
          k < K ∧ rdI matrix (k * N + n) = 1) ∧
        (k ∈ slice (SparseFormat_new matrix K N).row_index_neg
            (rdN (SparseFormat_new matrix K N).col_start_neg n)
            (rdN (SparseFormat_new matrix K N).col_start_neg (n + 1)) ↔
          k < K ∧ rdI matrix (k * N + n) = -1)) := by
  obtain ⟨e1, e2, e3, e4⟩ := SparseFormat_new_spec matrix K N
  have hp : ∀ k, k ∈ slice (SparseFormat_new matrix K N).row_index_pos
      (rdN (SparseFormat_new matrix K N).col_start_pos n)
      (rdN (SparseFormat_new matrix K N).col_start_pos (n + 1)) ↔
      k < K ∧ rdI matrix (k * N + n) ≥ 1 := by
    intro k
    rw [e1, e3, SparseFormat_new_slice _ matrix K N n hn, mem_rowsWhere]
    simp
  have hq : ∀ k, k ∈ slice (SparseFormat_new matrix K N).row_index_neg
      (rdN (SparseFormat_new matrix K N).col_start_neg n)
      (rdN (SparseFormat_new matrix K N).col_start_neg (n + 1)) ↔
      k < K ∧ rdI matrix (k * N + n) ≤ -1 := by
    intro k
    rw [e2, e4, SparseFormat_new_slice _ matrix K N n hn, mem_rowsWhere]
    simp
  refine ⟨hp, hq, ?_⟩
  intro k hv
  rw [hp k, hq k]
  constructor
  · constructor
    · rintro ⟨h1, h2⟩; exact ⟨h1, by omega⟩
    · rintro ⟨h1, h2⟩; exact ⟨h1, by omega⟩
  · constructor
    · rintro ⟨h1, h2⟩; exact ⟨h1, by omega⟩
    · rintro ⟨h1, h2⟩; exact ⟨h1, by omega⟩

/-- Witness of amended claim C16 on column 1 of the 2 × 2 matrix
`[[1, 2], [0, -3]]`. -/
theorem SparseFormat_new_lists_witness :
    0 ∈ slice (SparseFormat_new [1, 2, 0, -3] 2 2).row_index_pos
          (rdN (SparseFormat_new [1, 2, 0, -3] 2 2).col_start_pos 1)
          (rdN (SparseFormat_new [1, 2, 0, -3] 2 2).col_start_pos (1 + 1)) ↔
        0 < 2 ∧ rdI [1, 2, 0, -3] (0 * 2 + 1) ≥ 1 :=
  (SparseFormat_new_lists [1, 2, 0, -3] 2 2 1 (by decide)).1 0

/-! ## Main results: the fused scalar BCSR kernel -/

/-- The descriptor that `bcsr_from_dense` builds for the 2 × 1 buffer `[1, 1]`
with one 2 × 1 block. -/
theorem bcsr_from_dense_one_block (junk : bcsr_junk) :
    bcsr_from_dense junk [1, 1] 2 1 2 1 =
      { r := 2, c := 1, br := 1, bc := 1, k := 1,
        b_row_start := [0, 1], b_col_idx := [0], b_values := [1, 1] } := by
  have h1 : bcsr_pass1 junk [1, 1] 1 2 1 1 1 = ⟨[0], 1⟩ := by
    norm_num [bcsr_pass1, bcsr_need_new_block, forLoop, rd, malloc, List.range', List.range,
      List.range.loop]
  have e : bcsr_from_dense junk [1, 1] 2 1 2 1 =
      bcsr_pass2 junk [1, 1] 1 2 1 1 1 (bcsr_pass1 junk [1, 1] 1 2 1 1 1).is_valid_block
        (bcsr_pass1 junk [1, 1] 1 2 1 1 1).k := rfl
  rw [e, h1]
  norm_num [bcsr_pass2, bcsr_fill_block, bcsr_copy_block, forLoop, rd, rdI, malloc,
    List.range', List.range, List.range.loop]

/-- Claim C12 (the scalar fused BCSR kernel applies the activation once),
evaluated at `W = [1, 1]` (`K = 2`, `N = 1`, one 2 × 1 block), `X = [-1, 2]`,
`B = [0]`, `a = 1/2`, `M = 1`: `bcsr_sgemm_basic` gives `Y = [1]`, so the
activation of the finished sum is `1`, while `bcsr_sgemm_prelu_basic` gives
`Y = [3/2]`: it applies the activation to the partial sum `-1` (stored as
`-1/2`) before the second product is added. -/
theorem bcsr_sgemm_prelu_basic_stepwise (junk : bcsr_junk) (y0 : ℚ) :
    Ternary [1, 1] ∧
    bcsr_sgemm_prelu_basic [-1, 2] (bcsr_from_dense junk [1, 1] 2 1 2 1) [0] (1 / 2) [y0]
      1 1 2 = [3 / 2] ∧
    bcsr_sgemm_basic [-1, 2] (bcsr_from_dense junk [1, 1] 2 1 2 1) [0] [y0] 1 1 2 = [1] ∧
    rd (bcsr_sgemm_prelu_basic [-1, 2] (bcsr_from_dense junk [1, 1] 2 1 2 1) [0] (1 / 2) [y0]
      1 1 2) (0 * 1 + 0) ≠
    prelu (1 / 2)
      (rd (bcsr_sgemm_basic [-1, 2] (bcsr_from_dense junk [1, 1] 2 1 2 1) [0] [y0] 1 1 2)
        (0 * 1 + 0)) := by
  have h1 : bcsr_sgemm_prelu_basic [-1, 2] (bcsr_from_dense junk [1, 1] 2 1 2 1) [0] (1 / 2)
      [y0] 1 1 2 = [3 / 2] := by
    rw [bcsr_from_dense_one_block]
    norm_num [bcsr_sgemm_prelu_basic, rdN, forLoop, rd, List.range']
  have h2 : bcsr_sgemm_basic [-1, 2] (bcsr_from_dense junk [1, 1] 2 1 2 1) [0] [y0] 1 1 2 =
      [1] := by
    rw [bcsr_from_dense_one_block]
    norm_num [bcsr_sgemm_basic, rdN, forLoop, rd, List.range']
  refine ⟨by simp [Ternary], h1, h2, ?_⟩
  rw [h1, h2]
  norm_num [rd, prelu]

/-! ## More loop lemmas: congruence, splitting, flattening -/

theorem forLoop_congr {σ : Type} (lo hi : Nat) (body1 body2 : Nat → σ → σ)
    (h : ∀ i, lo ≤ i → i < hi → ∀ s, body1 i s = body2 i s) (s : σ) :
    forLoop lo hi body1 s = forLoop lo hi body2 s := by
  unfold forLoop
  apply List.foldl_ext
  intro a b hb
  obtain ⟨i, hi1, rfl⟩ := List.mem_range'.mp hb
  exact h _ (by omega) (by omega) a

theorem forLoop_split {σ : Type} (lo mid hi : Nat) (h1 : lo ≤ mid) (h2 : mid ≤ hi)
    (body : Nat → σ → σ) (s : σ) :
    forLoop lo hi body s = forLoop mid hi body (forLoop lo mid body s) := by
  unfold forLoop
  have e : List.range' lo (hi - lo) = List.range' lo (mid - lo) ++ List.range' mid (hi - mid) := by
    have := List.range'_append lo (mid - lo) (hi - mid) 1
    rw [Nat.one_mul, Nat.add_sub_cancel' h1] at this
    rw [this]
    congr 1
    omega
  rw [e, List.foldl_append]

theorem forLoop_shift {σ : Type} (a n : Nat) (body : Nat → σ → σ) (s : σ) :
    forLoop a (a + n) body s = forLoop 0 n (fun i => body (a + i)) s := by
  unfold forLoop
  rw [Nat.add_sub_cancel_left, Nat.sub_zero, List.range'_eq_map_range a n,
    ← List.range_eq_range', List.foldl_map]

/-- A doubly nested loop is one loop over the row-major index. -/
theorem forLoop_flatten {σ : Type} (A B : Nat) (f : Nat → Nat → σ → σ) (s : σ) :
    forLoop 0 A (fun a s => forLoop 0 B (fun b s => f a b s) s) s =
      forLoop 0 (A * B) (fun q s => f (q / B) (q % B) s) s := by
  induction A with
  | zero => rw [Nat.zero_mul, forLoop_empty 0 0 (le_refl _), forLoop_empty 0 0 (le_refl _)]
  | succ n ih =>
    rw [forLoop_succ 0 n (Nat.zero_le _), ih,
      forLoop_split 0 (n * B) ((n + 1) * B) (Nat.zero_le _)
        (Nat.mul_le_mul_right B (Nat.le_succ n)),
      Nat.succ_mul, forLoop_shift]
    apply forLoop_congr
    intro b _ hb t
    dsimp only
    rw [cell_div B n b hb, cell_mod B n b hb]

theorem rd_set_ne (Y : List ℚ) (i p : Nat) (v : ℚ) (h : p ≠ i) : rd (Y.set i v) p = rd Y p := by
  unfold rd
  rw [List.getD_eq_getElem?_getD, List.getD_eq_getElem?_getD, List.getElem?_set_ne (Ne.symm h)]

/-- In a loop that writes the distinct cells `base + j`, each iteration may read
its cell from the buffer as it was before the loop. -/
theorem forLoop_set_indep (n base : Nat) (g : Nat → ℚ → ℚ) (Y : List ℚ) :
    forLoop 0 n (fun j Z => Z.set (base + j) (g j (rd Z (base + j)))) Y =
      forLoop 0 n (fun j Z => Z.set (base + j) (g j (rd Y (base + j)))) Y := by
  have key := forLoop_inv (fun j (Z : List ℚ) =>
    Z = forLoop 0 j (fun j Z => Z.set (base + j) (g j (rd Y (base + j)))) Y ∧
    ∀ p, base + j ≤ p → rd Z p = rd Y p) 0 n (Nat.zero_le _)
    (fun j Z => Z.set (base + j) (g j (rd Z (base + j)))) Y
    ⟨by rw [forLoop_empty 0 0 (le_refl _)], fun _ _ => rfl⟩ ?_
  · exact key.1
  · intro j Z _ _ hZ
    obtain ⟨h1, h2⟩ := hZ
    constructor
    · rw [forLoop_succ 0 j (Nat.zero_le _), ← h1]
      dsimp only
      rw [h2 (base + j) (le_refl _)]
    · intro p hp
      rw [rd_set_ne Z _ p _ (by omega)]
      exact h2 p (by omega)

theorem rd_map_range (f : Nat → ℚ) (n l : Nat) (h : l < n) :
    rd ((List.range n).map f) l = f l := by
  unfold rd
  rw [List.getD_eq_getElem?_getD, List.getElem?_map, List.getElem?_range h]
  rfl

theorem rd_replicate (n l : Nat) (x : ℚ) (h : l < n) : rd (List.replicate n x) l = x := by
  unfold rd
  rw [List.getD_eq_getElem?_getD, List.getElem?_replicate, if_pos h]
  rfl

/-! ## The vector kernel against the scalar kernel -/

/-- One vector step of `bcsr_sgemm_avx` (broadcast, two loads, fused
multiply-add, store) does what the scalar loop over the eight columns does. -/
theorem avx_step_eq (x : ℚ) (V Y : List ℚ) (off base : Nat) :
    mm256_store_ps Y base
      (mm256_fmadd_ps (mm256_set1_ps x) (mm256_load_ps V off) (mm256_load_ps Y base)) =
    forLoop 0 8 (fun j Y => Y.set (base + j) (rd Y (base + j) + x * rd V (off + j))) Y := by
  rw [forLoop_set_indep 8 base (fun j y => y + x * rd V (off + j)) Y]
  unfold mm256_store_ps
  apply forLoop_congr
  intro l _ hl Z
  unfold mm256_fmadd_ps mm256_set1_ps mm256_load_ps
  rw [rd_map_range _ 8 l hl, rd_map_range _ 8 l hl, rd_map_range _ 8 l hl, rd_replicate 8 l x hl]
  ring_nf

/-- A loop with stride 8 up to a multiple of 8. -/
theorem forLoopStep_eight {σ : Type} (q : Nat) (body : Nat → σ → σ) (s : σ) :
    forLoopStep 0 (q * 8) 8 body s = forLoop 0 q (fun t => body (t * 8)) s := by
  unfold forLoopStep forLoop
  have e : (q * 8 - 0 + 8 - 1) / 8 = q := by omega
  rw [e, Nat.sub_zero, List.range'_eq_map_range 0 q]
  have e2 : List.range' 0 q 8 = (List.range q).map (fun t => t * 8) := by
    apply List.ext_getElem (by simp)
    intro i h1 h2
    simp [Nat.mul_comm]
  rw [e2, List.foldl_map, List.foldl_map]
  simp

/-- The vector bias sweep of one row equals the scalar one when `N` is a
multiple of 8. -/
theorem avx_bias_row_eq (B Y : List ℚ) (q base : Nat) :
    forLoopStep 0 (q * 8) 8 (fun n Y => mm256_store_ps Y (base + n) (mm256_load_ps B n)) Y =
    forLoop 0 (q * 8) (fun n Y => Y.set (base + n) (rd B n)) Y := by
  rw [forLoopStep_eight]
  refine Eq.trans ?_ (Eq.trans (forLoop_flatten q 8 (fun t l Y => Y.set (base + (t * 8 + l))
    (rd B (t * 8 + l))) Y) (forLoop_congr 0 (q * 8) _ _ ?_ Y))
  · apply forLoop_congr
    intro t _ _ Z
    unfold mm256_store_ps
    apply forLoop_congr
    intro l _ hl Z2
    unfold mm256_load_ps
    rw [rd_map_range _ 8 l hl, Nat.add_assoc]
  · intro n _ _ Z
    dsimp only
    rw [cell_decomp 8 n]

/-- With `c = 8` and `N` a multiple of 8 the vector kernel and the scalar kernel
compute the same function of the output buffer. -/
theorem bcsr_sgemm_avx_eq_basic_same (X : List ℚ) (W : bcsr_t) (B Y : List ℚ) (M N K : Nat)
    (hc : W.c = 8) (hN : N % 8 = 0) :
    bcsr_sgemm_avx X W B Y M N K = bcsr_sgemm_basic X W B Y M N K := by
  obtain ⟨q, rfl⟩ : ∃ q, N = q * 8 := ⟨N / 8, by omega⟩
  unfold bcsr_sgemm_avx bcsr_sgemm_basic
  dsimp only
  rw [hc]
  have hb : forLoop 0 M (fun m Y =>
      forLoopStep 0 (q * 8) 8 (fun n Y =>
        mm256_store_ps Y (m * (q * 8) + n) (mm256_load_ps B n)) Y) Y =
      forLoop 0 M (fun m Y =>
        forLoop 0 (q * 8) (fun n Y => Y.set (m * (q * 8) + n) (rd B n)) Y) Y := by
    apply forLoop_congr
    intro m _ _ Z
    exact avx_bias_row_eq B Z q (m * (q * 8))
  rw [hb]
  apply forLoop_congr
  intro m _ _ Z
  apply forLoop_congr
  intro br _ _ Z
  apply forLoop_congr
  intro bi _ _ Z
  apply forLoop_congr
  intro i _ _ Z
  rw [avx_step_eq]

/-- The multiply phase of a scalar BCSR kernel acts cell by cell. -/
theorem bcsr_phase_pw (L : Nat) (upd : ℚ → ℚ → ℚ) (X : List ℚ) (W : bcsr_t) (M N K : Nat) :
    Pointwise L
      (forLoop 0 M (fun m Y =>
        forLoop 0 W.br (fun br Y =>
          forLoop (rdN W.b_row_start br) (rdN W.b_row_start (br + 1)) (fun bi Y =>
            forLoop 0 W.r (fun i Y =>
              forLoop 0 W.c (fun j Y =>
                Y.set (m * N + rdN W.b_col_idx bi * W.c + j)
                  (upd (rd Y (m * N + rdN W.b_col_idx bi * W.c + j))
                    (rd X (m * K + br * W.r + i) *
                      rd W.b_values (bi * W.r * W.c + i * W.c + j)))) Y) Y) Y) Y))
      (fun p x => forLoop 0 M (fun m x => bcsr_cell upd X W N K p m x) x) :=
  Pointwise.loop 0 M _ _ (fun m _ _ =>
    Pointwise.loop 0 W.br _ _ (fun br _ _ =>
      Pointwise.loop _ _ _ _ (fun bi _ _ =>
        Pointwise.loop 0 W.r _ _ (fun i _ _ =>
          Pointwise.loop 0 W.c _ _ (fun j _ _ =>
            Pointwise.set L (m * N + rdN W.b_col_idx bi * W.c + j)
              (fun x => upd x (rd X (m * K + br * W.r + i) *
                rd W.b_values (bi * W.r * W.c + i * W.c + j))))))))

theorem bcsr_sgemm_basic_pw (L : Nat) (X : List ℚ) (W : bcsr_t) (B : List ℚ) (M N K : Nat) :
    Pointwise L (fun Y => bcsr_sgemm_basic X W B Y M N K)
      (fun p x => forLoop 0 M (fun m x => bcsr_cell (fun x t => x + t) X W N K p m x)
        (if p < M * N then rd B (p % N) else x)) :=
  Pointwise.comp (Pointwise.grid M N (fun _ n _ => rd B n))
    (bcsr_phase_pw L (fun x t => x + t) X W M N K)

theorem bcsr_sgemm_prelu_basic_pw (L : Nat) (X : List ℚ) (W : bcsr_t) (B : List ℚ) (a : ℚ)
    (M N K : Nat) :
    Pointwise L (fun Y => bcsr_sgemm_prelu_basic X W B a Y M N K)
      (fun p x => forLoop 0 M (fun m x =>
        bcsr_cell (fun x t => if x + t > 0 then x + t else a * (x + t)) X W N K p m x)
        (if p < M * N then rd B (p % N) else x)) :=
  Pointwise.comp (Pointwise.grid M N (fun _ n _ => rd B n))
    (bcsr_phase_pw L (fun x t => if x + t > 0 then x + t else a * (x + t)) X W M N K)

/-- The scalar BCSR kernel overwrites the whole `M × N` buffer. -/
theorem bcsr_sgemm_basic_init_indep (X : List ℚ) (W : bcsr_t) (B Y Z : List ℚ) (M N K : Nat)
    (hY : Y.length = M * N) (hZ : Z.length = M * N) :
    bcsr_sgemm_basic X W B Y M N K = bcsr_sgemm_basic X W B Z M N K := by
  refine Pointwise.agree (bcsr_sgemm_basic_pw (M * N) X W B M N K)
    (bcsr_sgemm_basic_pw (M * N) X W B M N K) ?_ Y Z hY hZ
  intro p hp x y
  dsimp only
  rw [if_pos hp, if_pos hp]

/-- Claim C13 (vector against scalar BCSR kernel).  For every BCSR descriptor
with `c = 8` (any `r ≥ 1`) whose `b_row_start` is nondecreasing and whose
block-columns lie in `[0, N/8)`, every `N` that is a multiple of 8 and every
`X`, `B`, with each 8-lane load, broadcast, fused multiply-add and store
modelled lane-wise in exact arithmetic, `bcsr_sgemm_avx` leaves in the output
buffer the same content as `bcsr_sgemm_basic`. -/
theorem bcsr_sgemm_avx_eq_basic (X : List ℚ) (W : bcsr_t) (B Y Z : List ℚ) (M N K : Nat)
    (hc : W.c = 8) (_hr : 1 ≤ W.r) (hN : N % 8 = 0)
    (_hmono : ∀ i, i < W.br → rdN W.b_row_start i ≤ rdN W.b_row_start (i + 1))
    (_hcol : ∀ bc ∈ W.b_col_idx, bc < N / 8)
    (hY : Y.length = M * N) (hZ : Z.length = M * N) :
    bcsr_sgemm_avx X W B Y M N K = bcsr_sgemm_basic X W B Z M N K := by
  rw [bcsr_sgemm_avx_eq_basic_same X W B Y M N K hc hN]
  exact bcsr_sgemm_basic_init_indep X W B Y Z M N K hY hZ

/-- Witness of claim C13: one 2 × 8 block, `M = 1`, `K = 2`, `N = 8`. -/
theorem bcsr_sgemm_avx_eq_basic_witness :
    bcsr_sgemm_avx [3, -2]
      { r := 2, c := 8, br := 1, bc := 1, k := 1, b_row_start := [0, 1], b_col_idx := [0],
        b_values := [1, 0, -1, 0, 0, 1, 0, 0, 0, 0, 1, 1, -1, 0, 0, 0] }
      [1, 2, 3, 4, 5, 6, 7, 8] [0, 0, 0, 0, 0, 0, 0, 0] 1 8 2 =
    bcsr_sgemm_basic [3, -2]
      { r := 2, c := 8, br := 1, bc := 1, k := 1, b_row_start := [0, 1], b_col_idx := [0],
        b_values := [1, 0, -1, 0, 0, 1, 0, 0, 0, 0, 1, 1, -1, 0, 0, 0] }
      [1, 2, 3, 4, 5, 6, 7, 8] [9, 9, 9, 9, 9, 9, 9, 9] 1 8 2 :=
  bcsr_sgemm_avx_eq_basic [3, -2] _ [1, 2, 3, 4, 5, 6, 7, 8] [0, 0, 0, 0, 0, 0, 0, 0]
    [9, 9, 9, 9, 9, 9, 9, 9] 1 8 2 rfl (by decide) (by decide) (by decide) (by decide) rfl rfl

/-! ## Row locality of the kernels -/

theorem mono_chain (f : Nat → Nat) (n : Nat) (h : ∀ i, i < n → f i ≤ f (i + 1)) :
    ∀ i, i ≤ n → f i ≤ f n := by
  induction n with
  | zero => intro i hi; rw [Nat.le_zero.mp hi]
  | succ n ih =>
    intro i hi
    rcases Nat.lt_or_ge i (n + 1) with hlt | hge
    · exact le_trans (ih (fun j hj => h j (by omega)) i (by omega)) (h n (by omega))
    · rw [Nat.le_antisymm hi hge]

theorem rdN_mem (l : List Nat) (k : Nat) (h : k < l.length) : rdN l k ∈ l := by
  unfold rdN
  rw [List.getD_eq_getElem _ _ h]
  exact List.getElem_mem h

theorem tcsc_val_row_local (X Z : List ℚ) (W : tcsc_t) (B : List ℚ) (K N m n : Nat)
    (hW : tcsc_valid W K N) (hn : n < N)
    (hX : ∀ k, k < K → rd X (m * K + k) = rd Z (m * K + k)) :
    tcsc_val X W B K m n = tcsc_val Z W B K m n := by
  obtain ⟨_, _, m1, m2, b1, b2, r1, r2⟩ := hW
  unfold tcsc_val tcsc_pos_sum tcsc_neg_sum
  have hp : (List.range' (rdN W.col_start_pos n)
      (rdN W.col_start_pos (n + 1) - rdN W.col_start_pos n)).map
        (fun k => rd X (m * K + rdN W.row_index_pos k)) =
      (List.range' (rdN W.col_start_pos n)
      (rdN W.col_start_pos (n + 1) - rdN W.col_start_pos n)).map
        (fun k => rd Z (m * K + rdN W.row_index_pos k)) := by
    apply List.map_congr_left
    intro k hk
    obtain ⟨i, hi, rfl⟩ := List.mem_range'.mp hk
    have h1 := mono_chain (rdN W.col_start_pos) N m1 (n + 1) hn
    exact hX _ (r1 _ (rdN_mem _ _ (by omega)))
  have hq : (List.range' (rdN W.col_start_neg n)
      (rdN W.col_start_neg (n + 1) - rdN W.col_start_neg n)).map
        (fun k => rd X (m * K + rdN W.row_index_neg k)) =
      (List.range' (rdN W.col_start_neg n)
      (rdN W.col_start_neg (n + 1) - rdN W.col_start_neg n)).map
        (fun k => rd Z (m * K + rdN W.row_index_neg k)) := by
    apply List.map_congr_left
    intro k hk
    obtain ⟨i, hi, rfl⟩ := List.mem_range'.mp hk
    have h1 := mono_chain (rdN W.col_start_neg) N m2 (n + 1) hn
    exact hX _ (r2 _ (rdN_mem _ _ (by omega)))
  rw [hp, hq]

theorem bcsr_valid_col (W : bcsr_t) (K N br bi : Nat) (hW : bcsr_valid W K N)
    (hbr : br < W.br) (hbi : bi < rdN W.b_row_start (br + 1)) :
    (rdN W.b_col_idx bi + 1) * W.c ≤ N := by
  obtain ⟨_, m1, b1, _, _, c1⟩ := hW
  have h1 := mono_chain (rdN W.b_row_start) W.br m1 (br + 1) hbr
  exact c1 _ (rdN_mem _ _ (by omega))

theorem bcsr_valid_row (W : bcsr_t) (K N br i : Nat) (hW : bcsr_valid W K N)
    (hbr : br < W.br) (hi : i < W.r) : br * W.r + i < K := by
  obtain ⟨_, _, _, _, k1, _⟩ := hW
  have : (br + 1) * W.r ≤ W.br * W.r := Nat.mul_le_mul_right _ hbr
  rw [Nat.succ_mul] at this
  omega

/-- Iteration `m` of the row loop leaves the cells of the other rows alone. -/
theorem bcsr_cell_other_row (upd : ℚ → ℚ → ℚ) (X : List ℚ) (W : bcsr_t) (K N p m : Nat)
    (hW : bcsr_valid W K N) (hm : p / N ≠ m) (x : ℚ) :
    bcsr_cell upd X W N K p m x = x := by
  unfold bcsr_cell
  apply forLoop_fixed
  intro br _ hbr
  apply forLoop_fixed
  intro bi _ hbi
  apply forLoop_fixed
  intro i _ _
  apply forLoop_fixed
  intro j _ hj
  rw [if_neg]
  intro e
  apply hm
  have hc := bcsr_valid_col W K N br bi hW hbr hbi
  rw [Nat.succ_mul] at hc
  rw [e, Nat.add_assoc, cell_div N m _ (by omega)]

/-- Iteration `m` of the row loop reads `X` in row `m` only. -/
theorem bcsr_cell_row_local (upd : ℚ → ℚ → ℚ) (X Z : List ℚ) (W : bcsr_t) (K N p m : Nat)
    (hW : bcsr_valid W K N) (hX : ∀ k, k < K → rd X (m * K + k) = rd Z (m * K + k)) (x : ℚ) :
    bcsr_cell upd X W N K p m x = bcsr_cell upd Z W N K p m x := by
  unfold bcsr_cell
  apply forLoop_congr
  intro br _ hbr y
  apply forLoop_congr
  intro bi _ _ y
  apply forLoop_congr
  intro i _ hi y
  apply forLoop_congr
  intro j _ _ y
  rw [Nat.add_assoc (m * K), hX _ (bcsr_valid_row W K N br i hW hbr hi)]

theorem bcsr_cells_row_local (upd : ℚ → ℚ → ℚ) (X Z : List ℚ) (W : bcsr_t)
    (M K N m n : Nat) (hW : bcsr_valid W K N) (hn : n < N)
    (hX : ∀ k, k < K → rd X (m * K + k) = rd Z (m * K + k)) (x : ℚ) :
    forLoop 0 M (fun mm x => bcsr_cell upd X W N K (m * N + n) mm x) x =
      forLoop 0 M (fun mm x => bcsr_cell upd Z W N K (m * N + n) mm x) x := by
  rw [forLoop_owner 0 M m _ x (fun i _ _ hne y =>
      bcsr_cell_other_row upd X W K N _ i hW (by rw [cell_div N m n hn]; exact Ne.symm hne) y),
    forLoop_owner 0 M m _ x (fun i _ _ hne y =>
      bcsr_cell_other_row upd Z W K N _ i hW (by rw [cell_div N m n hn]; exact Ne.symm hne) y),
    bcsr_cell_row_local upd X Z W K N _ m hW hX x]
theorem Pointwise.cell_eq {L : Nat} {f g : List ℚ → List ℚ} {F G : Nat → ℚ → ℚ}
    (hf : Pointwise L f F) (hg : Pointwise L g G) (Y Z : List ℚ) (hY : Y.length = L)
    (hZ : Z.length = L) (p : Nat) (hp : p < L) (h : F p (rd Y p) = G p (rd Z p)) :
    rd (f Y) p = rd (g Z) p := by
  rw [(hf Y hY).2 p hp, (hg Z hZ).2 p hp, h]

/-- Claim C20 as stated fails for a descriptor whose row index is not below
`K`: with `K = 1`, `N = 1`, `M = 2` and the positive list `{1}` for column 0,
`tcsc_sgemm_basic` computes `Y[0] = B[0] + X[1]`, so the inputs `[0, 0]` and
`[0, 1]`, which agree on row 0, give different outputs on row 0. -/
theorem tcsc_sgemm_basic_not_row_local :
    (∀ k, k < 1 → rd [0, 0] (0 * 1 + k) = rd [0, 1] (0 * 1 + k)) ∧
    rd (tcsc_sgemm_basic [0, 0]
        { rows := 1, cols := 1, n_elem_pos := 1, n_elem_neg := 0, col_start_pos := [0, 1],
          col_start_neg := [0, 0], row_index_pos := [1], row_index_neg := [] }
        [0] [0, 0] 2 1 1) (0 * 1 + 0) ≠
    rd (tcsc_sgemm_basic [0, 1]
        { rows := 1, cols := 1, n_elem_pos := 1, n_elem_neg := 0, col_start_pos := [0, 1],
          col_start_neg := [0, 0], row_index_pos := [1], row_index_neg := [] }
        [0] [0, 0] 2 1 1) (0 * 1 + 0) := by
  constructor
  · intro k hk
    obtain rfl : k = 0 := by omega
    rfl
  · norm_num [tcsc_sgemm_basic, rdN, forLoop, rd, List.range']

/-- Claim C20, amended (row locality).  For every TCSC descriptor `Wt` and BCSR
descriptor `Wb` valid for a `K × N` weight matrix (stored row indices below
`K`, block rows within `K` rows, block columns within `N` columns, index ranges
inside their arrays), every bias `B`, slope `a` and output row `m < M`: if two
inputs `X` and `X'` agree on row `m`, then for each of the kernels
`tcsc_sgemm_basic`, `tcsc_sgemm_optimized`, `tcsc_sgemm_prelu_basic`,
`tcsc_sgemm_prelu_optimized_separate`, `tcsc_sgemm_prelu_optimized_onthego`,
`bcsr_sgemm_basic` and `bcsr_sgemm_prelu_basic` the two outputs agree on row
`m`, whatever the other rows of `X` and `X'` and the initial output buffers
contain. -/
theorem kernels_row_local (M K N m : Nat) (Wt : tcsc_t) (Wb : bcsr_t) (X X' B : List ℚ)
    (a : ℚ) (Y Y' : List ℚ) (hWt : tcsc_valid Wt K N) (hWb : bcsr_valid Wb K N)
    (hm : m < M) (hY : Y.length = M * N) (hY' : Y'.length = M * N)
    (hX : ∀ k, k < K → rd X (m * K + k) = rd X' (m * K + k)) :
    ∀ n, n < N →
      rd (tcsc_sgemm_basic X Wt B Y M N K) (m * N + n) =
        rd (tcsc_sgemm_basic X' Wt B Y' M N K) (m * N + n) ∧
      rd (tcsc_sgemm_optimized X Wt B Y M N K) (m * N + n) =
        rd (tcsc_sgemm_optimized X' Wt B Y' M N K) (m * N + n) ∧
      rd (tcsc_sgemm_prelu_basic X Wt B a Y M N K) (m * N + n) =
        rd (tcsc_sgemm_prelu_basic X' Wt B a Y' M N K) (m * N + n) ∧
      rd (tcsc_sgemm_prelu_optimized_separate X Wt B a Y M N K) (m * N + n) =
        rd (tcsc_sgemm_prelu_optimized_separate X' Wt B a Y' M N K) (m * N + n) ∧
      rd (tcsc_sgemm_prelu_optimized_onthego X Wt B a Y M N K) (m * N + n) =
        rd (tcsc_sgemm_prelu_optimized_onthego X' Wt B a Y' M N K) (m * N + n) ∧
      rd (bcsr_sgemm_basic X Wb B Y M N K) (m * N + n) =
        rd (bcsr_sgemm_basic X' Wb B Y' M N K) (m * N + n) ∧
      rd (bcsr_sgemm_prelu_basic X Wb B a Y M N K) (m * N + n) =
        rd (bcsr_sgemm_prelu_basic X' Wb B a Y' M N K) (m * N + n) := by
  intro n hn
  have hp := cell_lt M N m n hm hn
  have hv : tcsc_val X Wt B K ((m * N + n) / N) ((m * N + n) % N) =
      tcsc_val X' Wt B K ((m * N + n) / N) ((m * N + n) % N) := by
    rw [cell_div N m n hn, cell_mod N m n hn]
    exact tcsc_val_row_local X X' Wt B K N m n hWt hn hX
  refine ⟨?_, ?_, ?_, ?_, ?_, ?_, ?_⟩
  · refine Pointwise.cell_eq (tcsc_sgemm_basic_pw (M * N) X Wt B M N K)
      (tcsc_sgemm_basic_pw (M * N) X' Wt B M N K) Y Y' hY hY' _ hp ?_
    dsimp only
    rw [if_pos hp, if_pos hp, hv]
  · refine Pointwise.cell_eq (tcsc_sgemm_optimized_pw (M * N) X Wt B M N K)
      (tcsc_sgemm_optimized_pw (M * N) X' Wt B M N K) Y Y' hY hY' _ hp ?_
    dsimp only
    rw [if_pos hp, if_pos hp, hv]
  · refine Pointwise.cell_eq (tcsc_sgemm_prelu_basic_pw (M * N) X Wt B a M N K)
      (tcsc_sgemm_prelu_basic_pw (M * N) X' Wt B a M N K) Y Y' hY hY' _ hp ?_
    dsimp only
    rw [if_pos hp, if_pos hp, hv]
  · refine Pointwise.cell_eq (tcsc_sgemm_prelu_optimized_separate_pw (M * N) X Wt B a M N K)
      (tcsc_sgemm_prelu_optimized_separate_pw (M * N) X' Wt B a M N K) Y Y' hY hY' _ hp ?_
    dsimp only
    rw [if_pos hp, if_pos hp, hv]
  · refine Pointwise.cell_eq (tcsc_sgemm_prelu_optimized_onthego_pw (M * N) X Wt B a M N K)
      (tcsc_sgemm_prelu_optimized_onthego_pw (M * N) X' Wt B a M N K) Y Y' hY hY' _ hp ?_
    dsimp only
    rw [if_pos hp, if_pos hp, hv]
  · refine Pointwise.cell_eq (bcsr_sgemm_basic_pw (M * N) X Wb B M N K)
      (bcsr_sgemm_basic_pw (M * N) X' Wb B M N K) Y Y' hY hY' _ hp ?_
    dsimp only
    rw [if_pos hp, if_pos hp]
    exact bcsr_cells_row_local _ X X' Wb M K N m n hWb hn hX _
  · refine Pointwise.cell_eq (bcsr_sgemm_prelu_basic_pw (M * N) X Wb B a M N K)
      (bcsr_sgemm_prelu_basic_pw (M * N) X' Wb B a M N K) Y Y' hY hY' _ hp ?_
    dsimp only
    rw [if_pos hp, if_pos hp]
    exact bcsr_cells_row_local _ X X' Wb M K N m n hWb hn hX _

/-- Witness of amended claim C20: `M = 2`, `K = 2`, `N = 1`, inputs that agree
on row 0 and differ on row 1. -/
theorem kernels_row_local_witness :
    rd (bcsr_sgemm_prelu_basic [1, 2, 3, 4]
        { r := 2, c := 1, br := 1, bc := 1, k := 1, b_row_start := [0, 1], b_col_idx := [0],
          b_values := [1, -1] } [5] (1 / 2) [0, 0] 2 1 2) (0 * 1 + 0) =
    rd (bcsr_sgemm_prelu_basic [1, 2, 7, 8]
        { r := 2, c := 1, br := 1, bc := 1, k := 1, b_row_start := [0, 1], b_col_idx := [0],
          b_values := [1, -1] } [5] (1 / 2) [9, 9] 2 1 2) (0 * 1 + 0) :=
  (kernels_row_local 2 2 1 0
    { rows := 2, cols := 1, n_elem_pos := 1, n_elem_neg := 1, col_start_pos := [0, 1],
      col_start_neg := [0, 1], row_index_pos := [0], row_index_neg := [1] }
    { r := 2, c := 1, br := 1, bc := 1, k := 1, b_row_start := [0, 1], b_col_idx := [0],
      b_values := [1, -1] }
    [1, 2, 3, 4] [1, 2, 7, 8] [5] (1 / 2) [0, 0] [9, 9] (by decide) (by decide) (by decide)
    rfl rfl
    (fun k hk => by
      rcases Nat.lt_succ_iff_lt_or_eq.mp hk with h | h
      · obtain rfl : k = 0 := by omega
        rfl
      · subst h
        rfl) 0 (by decide)).2.2.2.2.2.2

/-! ## The block scan of `bcsr_from_dense` -/

theorem bcsr_need_new_block_iff (dense : List ℚ) (cols r c brow bcol : Nat) :
    bcsr_need_new_block dense cols r c brow bcol = true ↔
      bcsr_block_nonzero dense cols r c brow bcol := by
  unfold bcsr_need_new_block bcsr_block_nonzero
  refine forLoop_inv (fun row (need : Bool) => need = true ↔
    ∃ row', row' < row ∧ ∃ col, col < c ∧
      (rd dense ((brow * r + row') * cols + (bcol * c + col)) = -1 ∨
       rd dense ((brow * r + row') * cols + (bcol * c + col)) = 1))
    0 r (Nat.zero_le _) _ false (by simp) ?_
  intro row need _ _ hneed
  have key := forLoop_inv (fun col (s : Bool) => s = true ↔
    (∃ row', row' < row ∧ ∃ col, col < c ∧
      (rd dense ((brow * r + row') * cols + (bcol * c + col)) = -1 ∨
       rd dense ((brow * r + row') * cols + (bcol * c + col)) = 1)) ∨
    ∃ col', col' < col ∧
      (rd dense ((brow * r + row) * cols + (bcol * c + col')) = -1 ∨
       rd dense ((brow * r + row) * cols + (bcol * c + col')) = 1))
    0 c (Nat.zero_le _)
    (fun col need_new_block =>
      let i := brow * r + row
      let j := bcol * c + col
      let ij := i * cols + j
      let val := rd dense ij
      need_new_block || (decide (val = -1) || decide (val = 1))) need
    (by dsimp only; rw [hneed]; simp) ?_
  · dsimp only at key ⊢
    rw [key]
    constructor
    · rintro (⟨row', h1, h2⟩ | ⟨col', h1, h2⟩)
      · exact ⟨row', by omega, h2⟩
      · exact ⟨row, by omega, col', h1, h2⟩
    · rintro ⟨row', h1, col', h2, h3⟩
      rcases Nat.lt_succ_iff_lt_or_eq.mp h1 with h | h
      · exact Or.inl ⟨row', h, col', h2, h3⟩
      · subst h
        exact Or.inr ⟨col', h2, h3⟩
  · intro col s _ _ hs
    dsimp only
    rw [Bool.or_eq_true, hs, Bool.or_eq_true, decide_eq_true_eq, decide_eq_true_eq]
    constructor
    · rintro (h | h)
      · rcases h with h | ⟨col', h1, h2⟩
        · exact Or.inl h
        · exact Or.inr ⟨col', by omega, h2⟩
      · exact Or.inr ⟨col, by omega, h⟩
    · rintro (h | ⟨col', h1, h2⟩)
      · exact Or.inl (Or.inl h)
      · rcases Nat.lt_succ_iff_lt_or_eq.mp h1 with h | h
        · exact Or.inl (Or.inr ⟨col', h, h2⟩)
        · subst h
          exact Or.inr h2

theorem bcsr_rank_succ (dense : List ℚ) (cols r c bc q : Nat) :
    bcsr_rank dense cols r c bc (q + 1) = bcsr_rank dense cols r c bc q +
      if bcsr_block_nonzero dense cols r c (q / bc) (q % bc) then 1 else 0 := by
  unfold bcsr_rank
  rw [List.range_succ, List.filter_append, List.length_append]
  by_cases h : bcsr_block_nonzero dense cols r c (q / bc) (q % bc)
  · simp [List.filter_cons, h]
  · simp [List.filter_cons, h]

theorem bcsr_rank_mono (dense : List ℚ) (cols r c bc a b : Nat) (h : a ≤ b) :
    bcsr_rank dense cols r c bc a ≤ bcsr_rank dense cols r c bc b := by
  unfold bcsr_rank
  exact filter_range_length_mono _ a b h

theorem bcsr_rank_lt (dense : List ℚ) (cols r c bc p q : Nat) (h : p < q)
    (hp : bcsr_block_nonzero dense cols r c (p / bc) (p % bc)) :
    bcsr_rank dense cols r c bc p < bcsr_rank dense cols r c bc q := by
  have h1 := bcsr_rank_succ dense cols r c bc p
  rw [if_pos hp] at h1
  have h2 := bcsr_rank_mono dense cols r c bc (p + 1) q h
  omega

theorem rdI_set (l : List Int) (i p : Nat) (v : Int) (hp : p < l.length) :
    rdI (l.set i v) p = if p = i then v else rdI l p := by
  unfold rdI
  rw [List.getD_eq_getElem?_getD, List.getD_eq_getElem?_getD, List.getElem?_set]
  by_cases e : i = p
  · subst e
    simp [hp]
  · rw [if_neg e, if_neg (Ne.symm e)]

theorem is_valid_block_init (junk : Nat → Int) (n : Nat) :
    (forLoop 0 n (fun i a => a.set i (-1)) (malloc junk n)).length = n ∧
    ∀ p, p < n → rdI (forLoop 0 n (fun i (a : List Int) => a.set i (-1)) (malloc junk n)) p
      = -1 := by
  have key := forLoop_inv (fun i (a : List Int) => a.length = n ∧
    ∀ p, p < i → rdI a p = -1) 0 n (Nat.zero_le _) (fun i a => a.set i (-1)) (malloc junk n)
    ⟨malloc_length _ _, fun p hp => by omega⟩ ?_
  · exact key
  · intro i a _ hi ha
    refine ⟨by rw [List.length_set]; exact ha.1, ?_⟩
    intro p hp
    rw [rdI_set a i p _ (by rw [ha.1]; omega)]
    by_cases e : p = i
    · rw [if_pos e]
    · rw [if_neg e]
      exact ha.2 p (by omega)

theorem bcsr_pass1_inv (junk : bcsr_junk) (dense : List ℚ) (cols r c br bc : Nat) :
    ScanInv dense cols r c br bc (br * bc) (bcsr_pass1 junk dense cols r c br bc) := by
  unfold bcsr_pass1
  dsimp only
  rw [forLoop_flatten br bc (fun brow bcol (st : bcsr_scan) =>
    if bcsr_need_new_block dense cols r c brow bcol then
      { is_valid_block := st.is_valid_block.set (brow * bc + bcol) (st.k : Int)
        k := st.k + 1 }
    else st)]
  obtain ⟨l0, c0⟩ := is_valid_block_init junk.is_valid_block (br * bc)
  refine forLoop_inv (fun q st => ScanInv dense cols r c br bc q st) 0 (br * bc)
    (Nat.zero_le _) _ _ ⟨rfl, l0, ?_⟩ ?_
  · intro p hp
    rw [c0 p hp, if_neg (by omega)]
  · intro q st _ hq H
    dsimp only
    by_cases hn : bcsr_block_nonzero dense cols r c (q / bc) (q % bc)
    · rw [if_pos ((bcsr_need_new_block_iff _ _ _ _ _ _).mpr hn), cell_decomp]
      refine ⟨?_, ?_, ?_⟩
      · rw [bcsr_rank_succ, if_pos hn]
        exact congrArg (· + 1) H.k_eq
      · rw [List.length_set]; exact H.len
      · intro p hp
        rw [rdI_set _ _ _ _ (by rw [H.len]; exact hp)]
        by_cases e : p = q
        · subst e
          rw [if_pos rfl, if_pos ⟨Nat.lt_succ_self _, hn⟩, H.k_eq]
        · rw [if_neg e, H.cell p hp]
          by_cases c1 : p < q ∧ bcsr_block_nonzero dense cols r c (p / bc) (p % bc)
          · rw [if_pos c1, if_pos ⟨by omega, c1.2⟩]
          · rw [if_neg c1, if_neg]
            intro c2
            exact c1 ⟨by omega, c2.2⟩
    · rw [if_neg (fun h => hn ((bcsr_need_new_block_iff _ _ _ _ _ _).mp h))]
      refine ⟨?_, H.len, ?_⟩
      · rw [bcsr_rank_succ, if_neg hn]
        exact H.k_eq
      · intro p hp
        rw [H.cell p hp]
        by_cases c1 : p < q ∧ bcsr_block_nonzero dense cols r c (p / bc) (p % bc)
        · rw [if_pos c1, if_pos ⟨by omega, c1.2⟩]
        · rw [if_neg c1, if_neg]
          intro c2
          by_cases e : p = q
          · subst e; exact hn c2.2
          · exact c1 ⟨by omega, c2.2⟩

/-! ## Pass 2 of `bcsr_from_dense`: column indices and block values -/

/-- A loop that fills the cells `base, ..., base + n - 1`. -/
theorem Pointwise.fill (L base n : Nat) (v : Nat → ℚ) :
    Pointwise L (forLoop 0 n (fun e b => b.set (base + e) (v e)))
      (fun u x => if base ≤ u ∧ u < base + n then v (u - base) else x) := by
  refine (Pointwise.loop 0 n _ _
    (fun e _ _ => Pointwise.set L (base + e) (fun _ => v e))).congr ?_
  intro u _ x
  dsimp only
  rw [forLoop_owner 0 n (u - base)]
  · by_cases c : base ≤ u ∧ u < base + n
    · rw [if_pos c, if_pos ⟨Nat.zero_le _, by omega⟩, if_pos (by omega)]
    · rw [if_neg c]
      by_cases d : 0 ≤ u - base ∧ u - base < n
      · rw [if_pos d, if_neg (by omega)]
      · rw [if_neg d]
  · intro i _ _ hne y
    rw [if_neg (by omega)]

theorem bcsr_copy_block_pw (L : Nat) (dense : List ℚ) (cols r c brow bcol t : Nat) :
    Pointwise L (bcsr_copy_block dense cols r c brow bcol t)
      (fun u x => if t * (r * c) ≤ u ∧ u < t * (r * c) + r * c then
        rd dense ((brow * r + (u - t * (r * c)) / c) * cols +
          (bcol * c + (u - t * (r * c)) % c)) else x) := by
  have e : bcsr_copy_block dense cols r c brow bcol t =
      forLoop 0 (r * c) (fun e b => b.set (t * (r * c) + e)
        (rd dense ((brow * r + e / c) * cols + (bcol * c + e % c)))) := by
    funext b
    unfold bcsr_copy_block
    rw [forLoop_flatten r c (fun row col (b_values : List ℚ) =>
      b_values.set (t * r * c + (row * c + col))
        (rd dense ((brow * r + row) * cols + (bcol * c + col))))]
    apply forLoop_congr
    intro q _ _ s
    dsimp only
    rw [cell_decomp, Nat.mul_assoc]
  rw [e]
  exact Pointwise.fill L (t * (r * c)) (r * c) _

theorem BlockInv.of_matrix_eq {dense : List ℚ} {cols r c br bc k q : Nat} {st st2 : bcsr_fill}
    (H : BlockInv dense cols r c br bc k q st) (h : st2.matrix = st.matrix) :
    BlockInv dense cols r c br bc k q st2 := by
  obtain ⟨h1, h2, h3, h4, h5, h6, h7, h8, h9⟩ := H
  exact ⟨by rw [h]; exact h1, by rw [h]; exact h2, by rw [h]; exact h3, by rw [h]; exact h4,
    by rw [h]; exact h5, by rw [h]; exact h6, by rw [h]; exact h7,
    by rw [h]; exact h8, by rw [h]; exact h9⟩

theorem bcsr_fill_block_inv (dense : List ℚ) (ivb : List Int) (cols r c br bc brow bcol : Nat)
    (st : bcsr_fill) (hbrow : brow < br) (hbcol : bcol < bc)
    (hS : ScanInv dense cols r c br bc (br * bc) ⟨ivb, bcsr_rank dense cols r c bc (br * bc)⟩)
    (H : BlockInv dense cols r c br bc (bcsr_rank dense cols r c bc (br * bc))
      (brow * bc + bcol) st) :
    BlockInv dense cols r c br bc (bcsr_rank dense cols r c bc (br * bc))
      (brow * bc + bcol + 1) (bcsr_fill_block dense ivb cols r c bc brow bcol st) := by
  have hq : brow * bc + bcol < br * bc := cell_lt br bc brow bcol hbrow hbcol
  have hcell := hS.cell _ hq
  dsimp only at hcell
  rw [cell_div bc brow bcol hbcol, cell_mod bc brow bcol hbcol] at hcell
  unfold bcsr_fill_block
  dsimp only
  by_cases hn : bcsr_block_nonzero dense cols r c brow bcol
  · rw [if_pos ⟨hq, hn⟩] at hcell
    rw [hcell, if_neg (by omega), Int.toNat_ofNat]
    have hlt : bcsr_rank dense cols r c bc (brow * bc + bcol) <
        bcsr_rank dense cols r c bc (br * bc) :=
      bcsr_rank_lt dense cols r c bc _ _ hq
        (by rw [cell_div bc brow bcol hbcol, cell_mod bc brow bcol hbcol]; exact hn)
    have hm : (if st.is_new_row = true then
          ({ matrix := { st.matrix with
                b_row_start := st.matrix.b_row_start.set st.b_row_start_index
                  (bcsr_rank dense cols r c bc (brow * bc + bcol)) }
             b_row_start_index := st.b_row_start_index + 1
             is_new_row := false } : bcsr_fill)
        else st).matrix.b_col_idx = st.matrix.b_col_idx ∧
        (if st.is_new_row = true then
          ({ matrix := { st.matrix with
                b_row_start := st.matrix.b_row_start.set st.b_row_start_index
                  (bcsr_rank dense cols r c bc (brow * bc + bcol)) }
             b_row_start_index := st.b_row_start_index + 1
             is_new_row := false } : bcsr_fill)
        else st).matrix.b_values = st.matrix.b_values ∧
        (if st.is_new_row = true then
          ({ matrix := { st.matrix with
                b_row_start := st.matrix.b_row_start.set st.b_row_start_index
                  (bcsr_rank dense cols r c bc (brow * bc + bcol)) }
             b_row_start_index := st.b_row_start_index + 1
             is_new_row := false } : bcsr_fill)
        else st).matrix.k = st.matrix.k ∧
        (if st.is_new_row = true then
          ({ matrix := { st.matrix with
                b_row_start := st.matrix.b_row_start.set st.b_row_start_index
                  (bcsr_rank dense cols r c bc (brow * bc + bcol)) }
             b_row_start_index := st.b_row_start_index + 1
             is_new_row := false } : bcsr_fill)
        else st).matrix.r = st.matrix.r ∧
        (if st.is_new_row = true then
          ({ matrix := { st.matrix with
                b_row_start := st.matrix.b_row_start.set st.b_row_start_index
                  (bcsr_rank dense cols r c bc (brow * bc + bcol)) }
             b_row_start_index := st.b_row_start_index + 1
             is_new_row := false } : bcsr_fill)
        else st).matrix.c = st.matrix.c ∧
        (if st.is_new_row = true then
          ({ matrix := { st.matrix with
                b_row_start := st.matrix.b_row_start.set st.b_row_start_index
                  (bcsr_rank dense cols r c bc (brow * bc + bcol)) }
             b_row_start_index := st.b_row_start_index + 1
             is_new_row := false } : bcsr_fill)
        else st).matrix.br = st.matrix.br ∧
        (if st.is_new_row = true then
          ({ matrix := { st.matrix with
                b_row_start := st.matrix.b_row_start.set st.b_row_start_index
                  (bcsr_rank dense cols r c bc (brow * bc + bcol)) }
             b_row_start_index := st.b_row_start_index + 1
             is_new_row := false } : bcsr_fill)
        else st).matrix.bc = st.matrix.bc := by
      cases st.is_new_row <;> simp
    obtain ⟨m1, m2, m3, m4, m5, m6, m7⟩ := hm
    obtain ⟨cl, cv⟩ := bcsr_copy_block_pw (bcsr_rank dense cols r c bc (br * bc) * (r * c))
      dense cols r c brow bcol (bcsr_rank dense cols r c bc (brow * bc + bcol))
      st.matrix.b_values H.val_len
    refine ⟨?_, ?_, ?_, ?_, ?_, ?_, ?_, ?_, ?_⟩
    · show _ = _
      dsimp only
      rw [m3]; exact H.k_eq
    · dsimp only
      rw [m4]; exact H.r_eq
    · dsimp only
      rw [m5]; exact H.c_eq
    · dsimp only
      rw [m6]; exact H.br_eq
    · dsimp only
      rw [m7]; exact H.bc_eq
    · dsimp only
      rw [List.length_set, m1]; exact H.col_len
    · dsimp only
      rw [m2]; exact cl
    · intro p hp hnp
      dsimp only
      rw [m1, rdN_set _ _ _ _ (by
        rw [H.col_len]
        exact bcsr_rank_lt dense cols r c bc p _ (by omega) hnp)]
      by_cases e : p = brow * bc + bcol
      · rw [e, if_pos rfl, cell_mod bc brow bcol hbcol]
      · have hpq : p < brow * bc + bcol := by omega
        have := bcsr_rank_lt dense cols r c bc p _ hpq hnp
        rw [if_neg (by omega)]
        exact H.col p hpq hnp
    · intro p hp hnp e he
      dsimp only
      rw [m2]
      have hpk := bcsr_rank_lt dense cols r c bc p (br * bc) (by omega) hnp
      have hu : bcsr_rank dense cols r c bc p * (r * c) + e <
          bcsr_rank dense cols r c bc (br * bc) * (r * c) := by
        have := Nat.mul_le_mul_right (r * c) hpk
        rw [Nat.succ_mul] at this
        omega
      rw [cv _ hu]
      dsimp only
      by_cases e1 : p = brow * bc + bcol
      · subst e1
        rw [if_pos ⟨Nat.le_add_right _ _, by omega⟩, Nat.add_sub_cancel_left,
          cell_div bc brow bcol hbcol, cell_mod bc brow bcol hbcol]
      · have hpq : p < brow * bc + bcol := by omega
        have h1 := bcsr_rank_lt dense cols r c bc p _ hpq hnp
        have h2 := Nat.mul_le_mul_right (r * c) h1
        rw [Nat.succ_mul] at h2
        rw [if_neg (by omega)]
        exact H.val p hpq hnp e he
  · rw [if_neg (fun h => hn h.2)] at hcell
    rw [hcell, if_pos rfl]
    obtain ⟨h1, h2, h3, h4, h5, h6, h7, h8, h9⟩ := H
    refine ⟨h1, h2, h3, h4, h5, h6, h7, ?_, ?_⟩
    · intro p hp hnp
      by_cases e : p = brow * bc + bcol
      · rw [e, cell_div bc brow bcol hbcol, cell_mod bc brow bcol hbcol] at hnp
        exact absurd hnp hn
      · exact h8 p (by omega) hnp
    · intro p hp hnp
      by_cases e : p = brow * bc + bcol
      · rw [e, cell_div bc brow bcol hbcol, cell_mod bc brow bcol hbcol] at hnp
        exact absurd hnp hn
      · exact h9 p (by omega) hnp

theorem BlockInv.set_row_start {dense : List ℚ} {cols r c br bc k q : Nat} {st : bcsr_fill}
    (H : BlockInv dense cols r c br bc k q st) (rs : List Nat) (i : Nat) (b : Bool) :
    BlockInv dense cols r c br bc k q ⟨{ st.matrix with b_row_start := rs }, i, b⟩ := by
  obtain ⟨h1, h2, h3, h4, h5, h6, h7, h8, h9⟩ := H
  exact ⟨h1, h2, h3, h4, h5, h6, h7, h8, h9⟩

theorem bcsr_pass2_inv (junk : bcsr_junk) (dense : List ℚ) (ivb : List Int)
    (cols r c br bc : Nat)
    (hS : ScanInv dense cols r c br bc (br * bc) ⟨ivb, bcsr_rank dense cols r c bc (br * bc)⟩) :
    BlockInv dense cols r c br bc (bcsr_rank dense cols r c bc (br * bc)) (br * bc)
      ⟨bcsr_pass2 junk dense cols r c br bc ivb (bcsr_rank dense cols r c bc (br * bc)),
        0, true⟩ := by
  unfold bcsr_pass2
  dsimp only
  refine BlockInv.set_row_start ?_ _ 0 true
  refine forLoop_inv (fun brow st => BlockInv dense cols r c br bc
    (bcsr_rank dense cols r c bc (br * bc)) (brow * bc) st) 0 br (Nat.zero_le _) _ _ ?_ ?_
  · refine ⟨rfl, rfl, rfl, rfl, rfl, ?_, ?_, ?_, ?_⟩
    · dsimp only
      rw [malloc_length, Nat.one_mul]
    · dsimp only
      rw [malloc_length]
    · intro p hp; omega
    · intro p hp; omega
  · intro brow st _ hbrow H
    have key := forLoop_inv (fun bcol s => BlockInv dense cols r c br bc
      (bcsr_rank dense cols r c bc (br * bc)) (brow * bc + bcol) s) 0 bc (Nat.zero_le _)
      (bcsr_fill_block dense ivb cols r c bc brow) { st with is_new_row := true }
      (H.of_matrix_eq rfl)
      (fun bcol s _ hbcol Hs =>
        bcsr_fill_block_inv dense ivb cols r c br bc brow bcol s hbrow hbcol hS Hs)
    dsimp only at key ⊢
    rw [Nat.succ_mul]
    exact key

theorem bcsr_from_dense_inv (junk : bcsr_junk) (dense : List ℚ) (rows cols r c : Nat) :
    BlockInv dense cols r c (rows / r) (cols / c)
      (bcsr_rank dense cols r c (cols / c) (rows / r * (cols / c))) (rows / r * (cols / c))
      ⟨bcsr_from_dense junk dense rows cols r c, 0, true⟩ := by
  have hS := bcsr_pass1_inv junk dense cols r c (rows / r) (cols / c)
  unfold bcsr_from_dense
  dsimp only
  rw [hS.k_eq]
  refine bcsr_pass2_inv junk dense _ cols r c (rows / r) (cols / c) ⟨rfl, hS.len, hS.cell⟩

theorem filter_range_getElem (p : Nat → Bool) (n t : Nat)
    (h : t < ((List.range n).filter p).length) :
    ((List.range n).filter p)[t] < n ∧ p (((List.range n).filter p)[t]) = true ∧
    ((List.range (((List.range n).filter p)[t])).filter p).length = t := by
  induction n with
  | zero => simp at h
  | succ n ih =>
    have e : (List.range (n + 1)).filter p =
        (List.range n).filter p ++ (if p n then [n] else []) := by
      rw [List.range_succ, List.filter_append]
      by_cases c : p n = true <;> simp [List.filter_cons, c]
    have h2 := h
    rw [e] at h2
    by_cases c : t < ((List.range n).filter p).length
    · have e2 : ((List.range (n + 1)).filter p)[t] = ((List.range n).filter p)[t] := by
        simp only [e]
        exact List.getElem_append_left c
      rw [e2]
      obtain ⟨a1, a2, a3⟩ := ih c
      exact ⟨by omega, a2, a3⟩
    · by_cases pn : p n = true
      · rw [if_pos pn, List.length_append] at h2
        have ht : t = ((List.range n).filter p).length := by
          simp at h2
          omega
        have e2 : ((List.range (n + 1)).filter p)[t] = n := by
          simp only [e, if_pos pn]
          rw [List.getElem_append_right (by omega)]
          simp [ht]
        rw [e2]
        exact ⟨Nat.lt_succ_self n, pn, ht.symm⟩
      · rw [if_neg pn, List.append_nil] at h2
        exact absurd h2 c

theorem rdN_eq_getElem (l : List Nat) (t : Nat) (h : t < l.length) : rdN l t = l[t] := by
  unfold rdN
  exact List.getD_eq_getElem _ _ h

/-! ## Main results: the blocks stored by `bcsr_from_dense` -/

theorem bcsr_stored_pairwise (dense : List ℚ) (cols r c br bc : Nat) :
    (bcsr_stored dense cols r c br bc).Pairwise (· < ·) := by
  unfold bcsr_stored
  exact List.Pairwise.filter _ (List.pairwise_lt_range _)

/-- The `t`-th stored block: its position, and where the invariant of pass 2
puts its column index and its values. -/
theorem bcsr_from_dense_block (junk : bcsr_junk) (dense : List ℚ) (rows cols r c t : Nat)
    (ht : t < (bcsr_stored dense cols r c (rows / r) (cols / c)).length) :
    rdN (bcsr_stored dense cols r c (rows / r) (cols / c)) t < rows / r * (cols / c) ∧
    bcsr_block_nonzero dense cols r c
      (rdN (bcsr_stored dense cols r c (rows / r) (cols / c)) t / (cols / c))
      (rdN (bcsr_stored dense cols r c (rows / r) (cols / c)) t % (cols / c)) ∧
    rdN (bcsr_from_dense junk dense rows cols r c).b_col_idx t =
      rdN (bcsr_stored dense cols r c (rows / r) (cols / c)) t % (cols / c) ∧
    ∀ e, e < r * c → rd (bcsr_from_dense junk dense rows cols r c).b_values (t * (r * c) + e) =
      rd dense ((rdN (bcsr_stored dense cols r c (rows / r) (cols / c)) t / (cols / c) * r
          + e / c) * cols +
        (rdN (bcsr_stored dense cols r c (rows / r) (cols / c)) t % (cols / c) * c + e % c)) := by
  have H := bcsr_from_dense_inv junk dense rows cols r c
  rw [rdN_eq_getElem _ t ht]
  obtain ⟨a1, a2, a3⟩ := filter_range_getElem
    (fun q => decide (bcsr_block_nonzero dense cols r c (q / (cols / c)) (q % (cols / c))))
    (rows / r * (cols / c)) t ht
  have a2' := of_decide_eq_true a2
  have hc := H.col _ a1 a2'
  have hv := H.val _ a1 a2'
  unfold bcsr_rank at hc hv
  rw [a3] at hc hv
  exact ⟨a1, a2', hc, hv⟩

/-- Claim C11 (what `bcsr_from_dense` stores).  For every dense buffer and
dividing block shape `(r, c)`, `bcsr_from_dense` stores a block iff it contains
at least one entry equal to `+1` or `-1`: `k` is the number of such blocks, they
are numbered `0 .. k-1` in row-major block-scan order, `b_col_idx[t]` is the
block-column of the `t`-th one (so block-columns lie in `[0, bc)` and are
strictly increasing within a block-row), and `b_values[t*r*c + row*c + col]` is
the dense entry at `(brow*r + row, bcol*c + col)` of that block. -/
theorem bcsr_from_dense_blocks (junk : bcsr_junk) (dense : List ℚ) (rows cols r c : Nat)
    (_hr : 1 ≤ r) (_hc : 1 ≤ c) (_hrows : rows % r = 0) (_hcols : cols % c = 0)
    (_hlen : dense.length = rows * cols) :
    (bcsr_from_dense junk dense rows cols r c).k =
      (bcsr_stored dense cols r c (rows / r) (cols / c)).length ∧
    (bcsr_from_dense junk dense rows cols r c).b_col_idx.length =
      (bcsr_from_dense junk dense rows cols r c).k ∧
    (bcsr_from_dense junk dense rows cols r c).b_values.length =
      (bcsr_from_dense junk dense rows cols r c).k * (r * c) ∧
    (∀ q, q ∈ bcsr_stored dense cols r c (rows / r) (cols / c) ↔
      q < rows / r * (cols / c) ∧
      bcsr_block_nonzero dense cols r c (q / (cols / c)) (q % (cols / c))) ∧
    (bcsr_stored dense cols r c (rows / r) (cols / c)).Pairwise (· < ·) ∧
    (∀ t, t < (bcsr_from_dense junk dense rows cols r c).k →
      rdN (bcsr_from_dense junk dense rows cols r c).b_col_idx t =
        rdN (bcsr_stored dense cols r c (rows / r) (cols / c)) t % (cols / c) ∧
      rdN (bcsr_from_dense junk dense rows cols r c).b_col_idx t < cols / c ∧
      ∀ row col, row < r → col < c →
        rd (bcsr_from_dense junk dense rows cols r c).b_values (t * r * c + row * c + col) =
          rd dense
            ((rdN (bcsr_stored dense cols r c (rows / r) (cols / c)) t / (cols / c) * r + row)
                * cols +
              (rdN (bcsr_from_dense junk dense rows cols r c).b_col_idx t * c + col))) ∧
    (∀ t u, t < u → u < (bcsr_from_dense junk dense rows cols r c).k →
      rdN (bcsr_stored dense cols r c (rows / r) (cols / c)) t / (cols / c) =
        rdN (bcsr_stored dense cols r c (rows / r) (cols / c)) u / (cols / c) →
      rdN (bcsr_from_dense junk dense rows cols r c).b_col_idx t <
        rdN (bcsr_from_dense junk dense rows cols r c).b_col_idx u) := by
  have H := bcsr_from_dense_inv junk dense rows cols r c
  have hk : (bcsr_from_dense junk dense rows cols r c).k =
      (bcsr_stored dense cols r c (rows / r) (cols / c)).length := H.k_eq
  refine ⟨hk, ?_, ?_, ?_, bcsr_stored_pairwise _ _ _ _ _ _, ?_, ?_⟩
  · rw [hk]; exact H.col_len
  · rw [hk]; exact H.val_len
  · intro q
    unfold bcsr_stored
    simp [List.mem_filter]
  · intro t ht
    rw [hk] at ht
    obtain ⟨b1, _, b3, b4⟩ := bcsr_from_dense_block junk dense rows cols r c t ht
    have hbc : 0 < cols / c := by
      rcases Nat.eq_zero_or_pos (cols / c) with h | h
      · rw [h] at b1; simp at b1
      · exact h
    refine ⟨b3, ?_, ?_⟩
    · rw [b3]; exact Nat.mod_lt _ hbc
    · intro row col hrow hcol
      have he : row * c + col < r * c := cell_lt r c row col hrow hcol
      have := b4 (row * c + col) he
      rw [cell_div c row col hcol, cell_mod c row col hcol, ← b3] at this
      rw [← this, Nat.mul_assoc, Nat.add_assoc]
  · intro t u htu hu hrow
    rw [hk] at hu
    have ht : t < (bcsr_stored dense cols r c (rows / r) (cols / c)).length := by omega
    obtain ⟨_, _, b3, _⟩ := bcsr_from_dense_block junk dense rows cols r c t ht
    obtain ⟨_, _, d3, _⟩ := bcsr_from_dense_block junk dense rows cols r c u hu
    have hlt := List.pairwise_iff_getElem.mp
      (bcsr_stored_pairwise dense cols r c (rows / r) (cols / c)) t u ht hu htu
    rw [← rdN_eq_getElem _ t ht, ← rdN_eq_getElem _ u hu] at hlt
    rw [b3, d3]
    have e1 := cell_decomp (cols / c) (rdN (bcsr_stored dense cols r c (rows / r) (cols / c)) t)
    have e2 := cell_decomp (cols / c) (rdN (bcsr_stored dense cols r c (rows / r) (cols / c)) u)
    rw [hrow] at e1
    omega

/-- Witness of claim C11 on the 4 × 4 buffer of concrete case A with 2 × 2
blocks. -/
theorem bcsr_from_dense_blocks_witness :
    (bcsr_from_dense ⟨fun _ => 0, fun _ => 0, fun _ => 0, fun _ => 0⟩
        [-1, -1, 0, -1, 0, -1, 0, 0, 0, 0, -1, -1, 0, 0, -1, 0] 4 4 2 2).k =
      (bcsr_stored [-1, -1, 0, -1, 0, -1, 0, 0, 0, 0, -1, -1, 0, 0, -1, 0] 4 2 2
        (4 / 2) (4 / 2)).length :=
  (bcsr_from_dense_blocks ⟨fun _ => 0, fun _ => 0, fun _ => 0, fun _ => 0⟩
    [-1, -1, 0, -1, 0, -1, 0, 0, 0, 0, -1, -1, 0, 0, -1, 0] 4 4 2 2 (by decide) (by decide)
    (by decide) (by decide) rfl).1

/-- Claim C15 as stated fails: for the 1 × 2 buffer `[2, 1]` with one 1 × 2
block, the block is stored (it holds a `1`) and `bcsr_from_dense` writes
`b_values = [2, 1]`: the entry `2` is stored as `2`, not as `0`. -/
theorem bcsr_from_dense_keeps_other_values :
    (bcsr_from_dense ⟨fun _ => 0, fun _ => 0, fun _ => 0, fun _ => 0⟩ [2, 1] 1 2 1 2).b_values
      = [2, 1] ∧
    ¬ (∀ v ∈ (bcsr_from_dense ⟨fun _ => 0, fun _ => 0, fun _ => 0, fun _ => 0⟩
        [2, 1] 1 2 1 2).b_values, v = -1 ∨ v = 0 ∨ v = 1) := by
  have h1 : bcsr_pass1 ⟨fun _ => 0, fun _ => 0, fun _ => 0, fun _ => 0⟩ [2, 1] 2 1 2 1 1 =
      ⟨[0], 1⟩ := by
    norm_num [bcsr_pass1, bcsr_need_new_block, forLoop, rd, malloc, List.range', List.range,
      List.range.loop]
  have e : bcsr_from_dense ⟨fun _ => 0, fun _ => 0, fun _ => 0, fun _ => 0⟩ [2, 1] 1 2 1 2 =
      bcsr_pass2 ⟨fun _ => 0, fun _ => 0, fun _ => 0, fun _ => 0⟩ [2, 1] 2 1 2 1 1
        (bcsr_pass1 ⟨fun _ => 0, fun _ => 0, fun _ => 0, fun _ => 0⟩
          [2, 1] 2 1 2 1 1).is_valid_block
        (bcsr_pass1 ⟨fun _ => 0, fun _ => 0, fun _ => 0, fun _ => 0⟩ [2, 1] 2 1 2 1 1).k := rfl
  have hv : (bcsr_from_dense ⟨fun _ => 0, fun _ => 0, fun _ => 0, fun _ => 0⟩
      [2, 1] 1 2 1 2).b_values = [2, 1] := by
    rw [e, h1]
    norm_num [bcsr_pass2, bcsr_fill_block, bcsr_copy_block, forLoop, rd, rdI, malloc,
      List.range', List.range, List.range.loop]
  refine ⟨hv, ?_⟩
  rw [hv]
  intro h
  have := h 2 (by simp)
  norm_num at this

theorem rd_ternary (W : List ℚ) (hT : Ternary W) (i : Nat) :
    rd W i = -1 ∨ rd W i = 0 ∨ rd W i = 1 := by
  rcases Nat.lt_or_ge i W.length with h | h
  · apply hT
    unfold rd
    rw [List.getD_eq_getElem _ _ h]
    exact List.getElem_mem h
  · right; left
    unfold rd
    exact List.getD_eq_default _ _ h

/-- Claim C15, amended (the values of the stored blocks).  For every dense
buffer and dividing block shape, every cell of `b_values` holds a copy of an
entry of the dense buffer, unchanged; so for a ternary buffer every value that
`bcsr_from_dense` writes to `b_values` is `-1`, `0` or `+1`. -/
theorem bcsr_from_dense_values (junk : bcsr_junk) (dense : List ℚ) (rows cols r c : Nat)
    (_hr : 1 ≤ r) (hc : 1 ≤ c) (_hrows : rows % r = 0) (_hcols : cols % c = 0)
    (hlen : dense.length = rows * cols) :
    (∀ u, u < (bcsr_from_dense junk dense rows cols r c).b_values.length →
      ∃ i, i < dense.length ∧
        rd (bcsr_from_dense junk dense rows cols r c).b_values u = rd dense i) ∧
    (Ternary dense →
      ∀ v ∈ (bcsr_from_dense junk dense rows cols r c).b_values, v = -1 ∨ v = 0 ∨ v = 1) := by
  have H := bcsr_from_dense_inv junk dense rows cols r c
  have hcopy : ∀ u, u < (bcsr_from_dense junk dense rows cols r c).b_values.length →
      ∃ i, i < dense.length ∧
        rd (bcsr_from_dense junk dense rows cols r c).b_values u = rd dense i := by
    intro u hu
    rw [H.val_len] at hu
    have hrc : 0 < r * c := by
      rcases Nat.eq_zero_or_pos (r * c) with h | h
      · rw [h] at hu; simp at hu
      · exact h
    have ht : u / (r * c) < (bcsr_stored dense cols r c (rows / r) (cols / c)).length :=
      div_lt_of_cell _ _ u hu
    have he : u % (r * c) < r * c := Nat.mod_lt _ hrc
    obtain ⟨b1, _, _, b4⟩ := bcsr_from_dense_block junk dense rows cols r c _ ht
    have hv := b4 _ he
    rw [cell_decomp] at hv
    refine ⟨_, ?_, hv⟩
    have hcpos : 0 < c := hc
    have hbc : 0 < cols / c := by
      rcases Nat.eq_zero_or_pos (cols / c) with h | h
      · rw [h] at b1; simp at b1
      · exact h
    have hrow : u % (r * c) / c < r := by
      have he2 : u % (r * c) < c * r := by rw [Nat.mul_comm c r]; exact he
      exact Nat.div_lt_of_lt_mul he2
    have hcol : u % (r * c) % c < c := Nat.mod_lt _ hcpos
    have hbrow := div_lt_of_cell _ _ _ b1
    have hbcol : rdN (bcsr_stored dense cols r c (rows / r) (cols / c)) (u / (r * c)) %
        (cols / c) < cols / c := Nat.mod_lt _ hbc
    have h1 := cell_lt _ r _ _ hbrow hrow
    have h2 := cell_lt _ c _ _ hbcol hcol
    have h3 : rows / r * r ≤ rows := Nat.div_mul_le_self rows r
    have h4 : cols / c * c ≤ cols := Nat.div_mul_le_self cols c
    rw [hlen]
    exact cell_lt rows cols _ _ (by omega) (by omega)
  refine ⟨hcopy, ?_⟩
  intro hT v hv
  obtain ⟨u, hu, rfl⟩ := List.getElem_of_mem hv
  obtain ⟨i, _, hi⟩ := hcopy u hu
  have e : (bcsr_from_dense junk dense rows cols r c).b_values[u] =
      rd (bcsr_from_dense junk dense rows cols r c).b_values u := by
    unfold rd
    rw [List.getD_eq_getElem _ _ hu]
  rw [e, hi]
  exact rd_ternary dense hT i

/-- Witness of amended claim C15 on the ternary 4 × 4 buffer of concrete case A
with 2 × 2 blocks. -/
theorem bcsr_from_dense_values_witness :
    Ternary [-1, -1, 0, -1, 0, -1, 0, 0, 0, 0, -1, -1, 0, 0, -1, 0] ∧
    (2 : ℚ) ∉ (bcsr_from_dense ⟨fun _ => 0, fun _ => 0, fun _ => 0, fun _ => 0⟩
        [-1, -1, 0, -1, 0, -1, 0, 0, 0, 0, -1, -1, 0, 0, -1, 0] 4 4 2 2).b_values :=
  ⟨by simp [Ternary], fun hmem => by
    have h := (bcsr_from_dense_values ⟨fun _ => 0, fun _ => 0, fun _ => 0, fun _ => 0⟩
      [-1, -1, 0, -1, 0, -1, 0, 0, 0, 0, -1, -1, 0, 0, -1, 0] 4 4 2 2 (by decide) (by decide)
      (by decide) (by decide) rfl).2 (by simp [Ternary]) 2 hmem
    norm_num at h⟩

/-! ## Main results: the kernels do not depend on the initial output buffer -/

/-- A cell-by-cell function whose new cell content ignores the old one gives the
same buffer from any two initial buffers, and is idempotent. -/
theorem Pointwise.init_indep {L : Nat} {f : List ℚ → List ℚ} {F : Nat → ℚ → ℚ}
    (hf : Pointwise L f F) (h : ∀ p, p < L → ∀ x y, F p x = F p y) (Y Z : List ℚ)
    (hY : Y.length = L) (hZ : Z.length = L) : f Y = f Z ∧ f (f Y) = f Y :=
  ⟨Pointwise.agree hf hf h Y Z hY hZ, Pointwise.agree hf hf h (f Y) Y (hf Y hY).1 hY⟩

/-- Claim C21 (the kernels are functions of their inputs only).  For each of
`tcsc_sgemm_basic`, `tcsc_sgemm_optimized`, `tcsc_sgemm_prelu_basic`,
`tcsc_sgemm_prelu_optimized_separate`, `tcsc_sgemm_prelu_optimized_onthego`,
`bcsr_sgemm_basic` and `bcsr_sgemm_prelu_basic`, every descriptor, every `X`,
`B`, `a`, `M`, `N`, `K` and any two initial contents `Y`, `Z` of the `M * N`
output buffer, the final content is the same, and running the kernel a second
time on its own output leaves that output unchanged. -/
theorem kernels_init_indep (M K N : Nat) (Wt : tcsc_t) (Wb : bcsr_t) (X B : List ℚ) (a : ℚ)
    (Y Z : List ℚ) (hY : Y.length = M * N) (hZ : Z.length = M * N) :
    (tcsc_sgemm_basic X Wt B Y M N K = tcsc_sgemm_basic X Wt B Z M N K ∧
      tcsc_sgemm_basic X Wt B (tcsc_sgemm_basic X Wt B Y M N K) M N K =
        tcsc_sgemm_basic X Wt B Y M N K) ∧
    (tcsc_sgemm_optimized X Wt B Y M N K = tcsc_sgemm_optimized X Wt B Z M N K ∧
      tcsc_sgemm_optimized X Wt B (tcsc_sgemm_optimized X Wt B Y M N K) M N K =
        tcsc_sgemm_optimized X Wt B Y M N K) ∧
    (tcsc_sgemm_prelu_basic X Wt B a Y M N K = tcsc_sgemm_prelu_basic X Wt B a Z M N K ∧
      tcsc_sgemm_prelu_basic X Wt B a (tcsc_sgemm_prelu_basic X Wt B a Y M N K) M N K =
        tcsc_sgemm_prelu_basic X Wt B a Y M N K) ∧
    (tcsc_sgemm_prelu_optimized_separate X Wt B a Y M N K =
        tcsc_sgemm_prelu_optimized_separate X Wt B a Z M N K ∧
      tcsc_sgemm_prelu_optimized_separate X Wt B a
          (tcsc_sgemm_prelu_optimized_separate X Wt B a Y M N K) M N K =
        tcsc_sgemm_prelu_optimized_separate X Wt B a Y M N K) ∧
    (tcsc_sgemm_prelu_optimized_onthego X Wt B a Y M N K =
        tcsc_sgemm_prelu_optimized_onthego X Wt B a Z M N K ∧
      tcsc_sgemm_prelu_optimized_onthego X Wt B a
          (tcsc_sgemm_prelu_optimized_onthego X Wt B a Y M N K) M N K =
        tcsc_sgemm_prelu_optimized_onthego X Wt B a Y M N K) ∧
    (bcsr_sgemm_basic X Wb B Y M N K = bcsr_sgemm_basic X Wb B Z M N K ∧
      bcsr_sgemm_basic X Wb B (bcsr_sgemm_basic X Wb B Y M N K) M N K =
        bcsr_sgemm_basic X Wb B Y M N K) ∧
    (bcsr_sgemm_prelu_basic X Wb B a Y M N K = bcsr_sgemm_prelu_basic X Wb B a Z M N K ∧
      bcsr_sgemm_prelu_basic X Wb B a (bcsr_sgemm_prelu_basic X Wb B a Y M N K) M N K =
        bcsr_sgemm_prelu_basic X Wb B a Y M N K) := by
  refine ⟨?_, ?_, ?_, ?_, ?_, ?_, ?_⟩
  · refine Pointwise.init_indep (tcsc_sgemm_basic_pw (M * N) X Wt B M N K) ?_ Y Z hY hZ
    intro p hp x y
    dsimp only
    rw [if_pos hp, if_pos hp]
  · refine Pointwise.init_indep (tcsc_sgemm_optimized_pw (M * N) X Wt B M N K) ?_ Y Z hY hZ
    intro p hp x y
    dsimp only
    rw [if_pos hp, if_pos hp]
  · refine Pointwise.init_indep (tcsc_sgemm_prelu_basic_pw (M * N) X Wt B a M N K) ?_ Y Z hY hZ
    intro p hp x y
    dsimp only
    rw [if_pos hp, if_pos hp]
  · refine Pointwise.init_indep
      (tcsc_sgemm_prelu_optimized_separate_pw (M * N) X Wt B a M N K) ?_ Y Z hY hZ
    intro p hp x y
    dsimp only
    rw [if_pos hp, if_pos hp]
  · refine Pointwise.init_indep
      (tcsc_sgemm_prelu_optimized_onthego_pw (M * N) X Wt B a M N K) ?_ Y Z hY hZ
    intro p hp x y
    dsimp only
    rw [if_pos hp, if_pos hp]
  · refine Pointwise.init_indep (bcsr_sgemm_basic_pw (M * N) X Wb B M N K) ?_ Y Z hY hZ
    intro p hp x y
    dsimp only
    rw [if_pos hp, if_pos hp]
  · refine Pointwise.init_indep (bcsr_sgemm_prelu_basic_pw (M * N) X Wb B a M N K) ?_ Y Z hY hZ
    intro p hp x y
    dsimp only
    rw [if_pos hp, if_pos hp]

/-- Witness of claim C21: the descriptors of concrete cases B and A, a zeroed
and a dirty output buffer. -/
theorem kernels_init_indep_witness :
    tcsc_sgemm_optimized [1, 2, 3, 4]
      { rows := 4, cols := 2, n_elem_pos := 2, n_elem_neg := 2, col_start_pos := [0, 1, 2],
        col_start_neg := [0, 1, 2], row_index_pos := [0, 2], row_index_neg := [1, 3] }
      [5, 6] [0, 0] 1 2 4 =
    tcsc_sgemm_optimized [1, 2, 3, 4]
      { rows := 4, cols := 2, n_elem_pos := 2, n_elem_neg := 2, col_start_pos := [0, 1, 2],
        col_start_neg := [0, 1, 2], row_index_pos := [0, 2], row_index_neg := [1, 3] }
      [5, 6] [9, -7] 1 2 4 :=
  (kernels_init_indep 1 4 2
    { rows := 4, cols := 2, n_elem_pos := 2, n_elem_neg := 2, col_start_pos := [0, 1, 2],
      col_start_neg := [0, 1, 2], row_index_pos := [0, 2], row_index_neg := [1, 3] }
    { r := 2, c := 2, br := 2, bc := 1, k := 1, b_row_start := [0, 1, 1], b_col_idx := [0],
      b_values := [1, 0, 0, -1] }
    [1, 2, 3, 4] [5, 6] (1 / 2) [0, 0] [9, -7] rfl rfl).2.1.1

/-! ## Main results: `sparseGEMM` on a `SparseFormat` against `GEMM` -/

theorem rdI_ternary (W : List Int) (hT : ∀ w ∈ W, w = -1 ∨ w = 0 ∨ w = 1) (p : Nat) :
    rdI W p = -1 ∨ rdI W p = 0 ∨ rdI W p = 1 := by
  unfold rdI
  rcases Nat.lt_or_ge p W.length with h | h
  · rw [List.getD_eq_getElem _ _ h]
    exact hT _ (List.getElem_mem h)
  · rw [List.getD_eq_getElem?_getD, List.getElem?_eq_none h]
    exact Or.inr (Or.inl rfl)

theorem rd_map_cast (W : List Int) (p : Nat) :
    rd (W_FP32 W) p = ((rdI W p : Int) : ℚ) := by
  unfold rd rdI W_FP32
  rcases Nat.lt_or_ge p W.length with h | h
  · rw [List.getD_eq_getElem _ _ (by rw [List.length_map]; exact h),
      List.getD_eq_getElem _ _ h, List.getElem_map]
  · rw [List.getD_eq_getElem?_getD, List.getD_eq_getElem?_getD,
      List.getElem?_eq_none (by rw [List.length_map]; exact h), List.getElem?_eq_none h]
    simp

/-- The signed sum over the two lists of a column of a `SparseFormat` is the dot
product with that column, when the column holds only `-1`, `0`, `+1`. -/
theorem rowsWhere_signed_sum (matrix : List Int) (N n : Nat) (f : Nat → ℚ) (K : Nat)
    (hT : ∀ p, rdI matrix p = -1 ∨ rdI matrix p = 0 ∨ rdI matrix p = 1) :
    ((rowsWhere (fun v => decide (v ≥ 1)) matrix K N n).map f).sum -
      ((rowsWhere (fun v => decide (v ≤ -1)) matrix K N n).map f).sum =
      ∑ k in Finset.range K, f k * ((rdI matrix (k * N + n) : Int) : ℚ) := by
  unfold rowsWhere
  induction K with
  | zero => simp
  | succ r ih =>
    rw [Finset.sum_range_succ, ← ih, List.range_succ, List.filter_append, List.filter_append,
      List.map_append, List.map_append, List.sum_append, List.sum_append]
    simp only [List.filter_cons, List.filter_nil]
    rcases hT (r * N + n) with c | c | c <;> simp only [c] <;> norm_num <;> ring

theorem sparseGEMM_pw (L : Nat) (X : List ℚ) (sf : SparseFormat) (b : List ℚ) (M N K : Nat) :
    Pointwise L (fun Y => sparseGEMM X sf.col_start_pos sf.col_start_neg sf.row_index_pos
        sf.row_index_neg b Y M N K)
      (fun p x => if p < M * N then
        ((List.range' (rdN sf.col_start_pos (p % N))
            (rdN sf.col_start_pos (p % N + 1) - rdN sf.col_start_pos (p % N))).map
          (fun k => rd X (p / N * K + rdN sf.row_index_pos k))).sum -
        ((List.range' (rdN sf.col_start_neg (p % N))
            (rdN sf.col_start_neg (p % N + 1) - rdN sf.col_start_neg (p % N))).map
          (fun k => rd X (p / N * K + rdN sf.row_index_neg k))).sum + rd b (p % N)
        else x) := by
  refine (Pointwise.grid M N (fun m n _ =>
    forLoop (rdN sf.col_start_neg n) (rdN sf.col_start_neg (n + 1))
        (fun k y => y - rd X (m * K + rdN sf.row_index_neg k))
        (forLoop (rdN sf.col_start_pos n) (rdN sf.col_start_pos (n + 1))
          (fun k y => y + rd X (m * K + rdN sf.row_index_pos k)) 0) + rd b n)).congr ?_
  intro p _ x
  dsimp only
  by_cases c : p < M * N
  · rw [if_pos c, if_pos c, forLoop_add, forLoop_sub, zero_add]
  · rw [if_neg c, if_neg c]

theorem GEMM_pw (L : Nat) (X W b : List ℚ) (M N K : Nat) :
    Pointwise L (fun Y => GEMM X W b Y M N K)
      (fun p x => if p < M * N then dot X W N K (p / N) (p % N) + rd b (p % N) else x) := by
  refine (Pointwise.grid M N (fun m n _ =>
    forLoop 0 K (fun k y => y + rd X (m * K + k) * rd W (k * N + n)) 0 + rd b n)).congr ?_
  intro p _ x
  dsimp only
  by_cases c : p < M * N
  · rw [if_pos c, if_pos c, forLoop_sum]
    rfl
  · rw [if_neg c, if_neg c]

/-- The sum over one list of a column of the constructed `SparseFormat`. -/
theorem SparseFormat_new_sum (q : Int → Bool) (matrix : List Int) (K N n : Nat) (hn : n < N)
    (g : Nat → ℚ) :
    ((List.range'
        (rdN ((List.range (N + 1)).map
          (fun j => (catUpTo (rowsWhere q matrix K N) j).length)) n)
        (rdN ((List.range (N + 1)).map
          (fun j => (catUpTo (rowsWhere q matrix K N) j).length)) (n + 1) -
         rdN ((List.range (N + 1)).map
          (fun j => (catUpTo (rowsWhere q matrix K N) j).length)) n)).map
      (fun k => g (rdN (catUpTo (rowsWhere q matrix K N) N) k))).sum =
    ((rowsWhere q matrix K N n).map g).sum := by
  rw [rdN_map_range _ _ _ (by omega), rdN_map_range _ _ _ (by omega)]
  obtain ⟨rest, e⟩ := catUpTo_split (rowsWhere q matrix K N) n N hn
  have e2 : (catUpTo (rowsWhere q matrix K N) (n + 1)).length =
      (catUpTo (rowsWhere q matrix K N) n).length + (rowsWhere q matrix K N n).length := by
    show (catUpTo (rowsWhere q matrix K N) n ++ rowsWhere q matrix K N n).length = _
    rw [List.length_append]
  rw [e2, Nat.add_sub_cancel_left, e]
  have e5 : (fun k => g (rdN (catUpTo (rowsWhere q matrix K N) n ++
      (rowsWhere q matrix K N n ++ rest)) k)) =
      g ∘ rdN (catUpTo (rowsWhere q matrix K N) n ++ (rowsWhere q matrix K N n ++ rest)) := rfl
  rw [e5, ← List.map_map, range_map_rdN_mid]

theorem compare_results_self (Y : List ℚ) (H W : Nat) : compare_results Y Y H W = true := by
  unfold compare_results compare_results_scan
  have h : forLoop 0 H (fun h ret =>
      forLoop 0 W (fun w ret =>
        match ret with
        | some r => some r
        | none =>
          let i := h * W + w
          if |rd Y i - rd Y i| > 10 / 1000000 then some (h, w, rd Y i, rd Y i) else none) ret)
      (none : Option (Nat × Nat × ℚ × ℚ)) = none := by
    refine forLoop_inv (fun _ s => s = none) 0 H (Nat.zero_le _) _ _ rfl ?_
    intro row s _ _ hs
    subst hs
    refine forLoop_inv (fun _ s => s = none) 0 W (Nat.zero_le _) _ _ rfl ?_
    intro col s _ _ hs
    subst hs
    dsimp only
    rw [if_neg]
    rw [sub_self, abs_zero]
    norm_num
  rw [h]
  rfl

/-- Claim C22 (`sparseGEMM` on a `SparseFormat` against `GEMM`).  For every
integer matrix `W` (`K * N`, row-major) with entries in `{-1, 0, +1}`, every `X`
(`M * K`) and `b` (`N`) over the rationals (hence every integer `X` and `b`),
`sparseGEMM` run on the four vectors of `SparseFormat(W, K, N)` leaves in the
output buffer exactly the content that `GEMM(X, W, b)` leaves, and
`compare_results` on the two outputs returns `true`; `GEMM` receives the
entries of `W` converted to the element type, as in the validity test. -/
theorem sparseGEMM_eq_GEMM (M K N : Nat) (W : List Int) (X b Y Z : List ℚ)
    (hT : ∀ w ∈ W, w = -1 ∨ w = 0 ∨ w = 1) (_hW : W.length = K * N)
    (_hX : X.length = M * K) (_hb : b.length = N)
    (hY : Y.length = M * N) (hZ : Z.length = M * N) :
    sparseGEMM X (SparseFormat_new W K N).col_start_pos (SparseFormat_new W K N).col_start_neg
        (SparseFormat_new W K N).row_index_pos (SparseFormat_new W K N).row_index_neg
        b Y M N K =
      GEMM X (W_FP32 W) b Z M N K ∧
    compare_results
      (sparseGEMM X (SparseFormat_new W K N).col_start_pos
        (SparseFormat_new W K N).col_start_neg (SparseFormat_new W K N).row_index_pos
        (SparseFormat_new W K N).row_index_neg b Y M N K)
      (GEMM X (W_FP32 W) b Z M N K) M N = true := by
  have key : sparseGEMM X (SparseFormat_new W K N).col_start_pos
      (SparseFormat_new W K N).col_start_neg (SparseFormat_new W K N).row_index_pos
      (SparseFormat_new W K N).row_index_neg b Y M N K =
      GEMM X (W_FP32 W) b Z M N K := by
    refine Pointwise.agree (sparseGEMM_pw (M * N) X (SparseFormat_new W K N) b M N K)
      (GEMM_pw (M * N) X (W_FP32 W) b M N K) ?_ Y Z hY hZ
    intro p hp x y
    dsimp only
    rw [if_pos hp, if_pos hp]
    obtain ⟨e1, e2, e3, e4⟩ := SparseFormat_new_spec W K N
    have hn : p % N < N := mod_lt_of_cell M N p hp
    rw [e1, e2, e3, e4,
      SparseFormat_new_sum _ W K N (p % N) hn (fun i => rd X (p / N * K + i)),
      SparseFormat_new_sum _ W K N (p % N) hn (fun i => rd X (p / N * K + i)),
      rowsWhere_signed_sum W N (p % N) (fun i => rd X (p / N * K + i)) K (rdI_ternary W hT)]
    unfold dot
    congr 1
    apply Finset.sum_congr rfl
    intro k _
    rw [rd_map_cast]
  exact ⟨key, by rw [key]; exact compare_results_self _ M N⟩

/-- Witness of claim C22: a 4 × 2 ternary matrix, `M = 1`. -/
theorem sparseGEMM_eq_GEMM_witness :
    sparseGEMM [1, 2, 3, 4] (SparseFormat_new [1, 0, -1, 0, 0, 1, 0, -1] 4 2).col_start_pos
        (SparseFormat_new [1, 0, -1, 0, 0, 1, 0, -1] 4 2).col_start_neg
        (SparseFormat_new [1, 0, -1, 0, 0, 1, 0, -1] 4 2).row_index_pos
        (SparseFormat_new [1, 0, -1, 0, 0, 1, 0, -1] 4 2).row_index_neg
        [2, 2] [0, 0] 1 2 4 =
      GEMM [1, 2, 3, 4] (W_FP32 [1, 0, -1, 0, 0, 1, 0, -1])
        [2, 2] [0, 0] 1 2 4 :=
  (sparseGEMM_eq_GEMM 1 4 2 [1, 0, -1, 0, 0, 1, 0, -1] [1, 2, 3, 4] [2, 2] [0, 0] [0, 0]
    (by decide) rfl rfl rfl rfl rfl).1

/-! ## Main results: the random ternary generator -/

theorem rands_sparse_pw (L : Nat) (v : Nat → ℚ) (n : Nat) :
    Pointwise L (forLoop 0 n (fun i m => m.set i (v i)))
      (fun p x => if p < n then v p else x) := by
  have e : forLoop 0 n (fun i (m : List ℚ) => m.set i (v i)) =
      forLoop 0 n (fun e b => b.set (0 + e) (v e)) := by
    funext m
    apply forLoop_congr
    intro i _ _ s
    rw [Nat.zero_add]
  rw [e]
  refine (Pointwise.fill L 0 n v).congr ?_
  intro p _ x
  dsimp only
  by_cases c : p < n
  · rw [if_pos c, if_pos ⟨Nat.zero_le _, by omega⟩, Nat.sub_zero]
  · rw [if_neg c, if_neg (by omega)]

theorem fin3_ternary (d : Fin 3) :
    ((d.val : ℚ) - 1 = -1 ∨ (d.val : ℚ) - 1 = 0 ∨ (d.val : ℚ) - 1 = 1) := by
  fin_cases d <;> norm_num

theorem ternary_of_rd (W : List ℚ) (h : ∀ i, i < W.length → rd W i = -1 ∨ rd W i = 0 ∨ rd W i = 1) :
    Ternary W := by
  intro w hw
  obtain ⟨i, hi, rfl⟩ := List.getElem_of_mem hw
  have := h i hi
  unfold rd at this
  rw [List.getD_eq_getElem _ _ hi] at this
  exact this

/-- Claim C23 (the generator emits only `-1`, `0`, `+1`).  For every `rows`,
`cols`, every `non_zero ≥ 1` and every sequence of outcomes of the discrete
distribution (each outcome is 0, 1 or 2), every element that `rands_sparse`
writes, which is every element of its `rows * cols` buffer, is `-1`, `0` or
`+1`; hence the buffer returned by `init_rand_sparse` is ternary whatever the
allocator left in it. -/
theorem rands_sparse_ternary (discrete_distribution : List ℚ → Nat → Fin 3) (junk : Nat → ℚ)
    (m : List ℚ) (rows cols non_zero : Nat) (_hn : 1 ≤ non_zero)
    (hm : m.length = rows * cols) :
    (rands_sparse discrete_distribution m rows cols non_zero).length = rows * cols ∧
    (∀ i, i < rows * cols →
      rd (rands_sparse discrete_distribution m rows cols non_zero) i =
        ((discrete_distribution (rands_sparse_weights non_zero) i).val : ℚ) - 1 ∧
      (rd (rands_sparse discrete_distribution m rows cols non_zero) i = -1 ∨
       rd (rands_sparse discrete_distribution m rows cols non_zero) i = 0 ∨
       rd (rands_sparse discrete_distribution m rows cols non_zero) i = 1)) ∧
    Ternary (rands_sparse discrete_distribution m rows cols non_zero) ∧
    Ternary (init_rand_sparse discrete_distribution junk rows cols non_zero) := by
  have key : ∀ m : List ℚ, m.length = rows * cols →
      (rands_sparse discrete_distribution m rows cols non_zero).length = rows * cols ∧
      ∀ i, i < rows * cols →
        rd (rands_sparse discrete_distribution m rows cols non_zero) i =
          ((discrete_distribution (rands_sparse_weights non_zero) i).val : ℚ) - 1 := by
    intro m hm
    obtain ⟨h1, h2⟩ := rands_sparse_pw (rows * cols)
      (fun i => ((discrete_distribution (rands_sparse_weights non_zero) i).val : ℚ) - 1)
      (rows * cols) m hm
    refine ⟨h1, ?_⟩
    intro i hi
    have := h2 i hi
    dsimp only at this
    rw [if_pos hi] at this
    exact this
  have tern : ∀ m : List ℚ, m.length = rows * cols →
      Ternary (rands_sparse discrete_distribution m rows cols non_zero) := by
    intro m hm
    obtain ⟨h1, h2⟩ := key m hm
    apply ternary_of_rd
    intro i hi
    rw [h1] at hi
    rw [h2 i hi]
    exact fin3_ternary _
  obtain ⟨h1, h2⟩ := key m hm
  refine ⟨h1, ?_, tern m hm, tern _ (malloc_length junk (rows * cols))⟩
  intro i hi
  refine ⟨h2 i hi, ?_⟩
  rw [h2 i hi]
  exact fin3_ternary _

/-- Witness of claim C23: a 2 × 2 buffer, `non_zero = 2`, the outcomes
2, 0, 1, 1. -/
theorem rands_sparse_ternary_witness :
    Ternary (init_rand_sparse (fun _ i => if i = 0 then 2 else if i = 1 then 0 else 1)
      (fun _ => 5) 2 2 2) :=
  (rands_sparse_ternary (fun _ i => if i = 0 then 2 else if i = 1 then 0 else 1) (fun _ => 5)
    [7, 7, 7, 7] 2 2 2 (by decide) rfl).2.2.2

/-- Claim C24 (the weights of the generator).  For every `non_zero = n ≥ 1` the
three weights that `rands_sparse` passes to the discrete distribution for the
values `-1`, `0`, `+1` are, as exact rationals, `1/(2n)`, `(n-1)/n` and
`1/(2n)`: they sum to 1, so each weight is the probability of its value; the
two nonzero values are equally likely, the probability of a nonzero entry is
exactly `1/n`, and for `n = 1` the value `0` has probability zero. -/
theorem rands_sparse_weights_exact (n : Nat) (hn : 1 ≤ n) :
    rands_sparse_weights n = [1 / (2 * (n : ℚ)), ((n : ℚ) - 1) / (n : ℚ), 1 / (2 * (n : ℚ))] ∧
    (rands_sparse_weights n).sum = 1 ∧
    (∀ i, discrete_probability (rands_sparse_weights n) i = rd (rands_sparse_weights n) i) ∧
    discrete_probability (rands_sparse_weights n) 0 =
      discrete_probability (rands_sparse_weights n) 2 ∧
    discrete_probability (rands_sparse_weights n) 0 +
      discrete_probability (rands_sparse_weights n) 2 = 1 / (n : ℚ) ∧
    discrete_probability (rands_sparse_weights n) 1 = 1 - 1 / (n : ℚ) ∧
    (n = 1 → discrete_probability (rands_sparse_weights n) 1 = 0) := by
  have hq : (n : ℚ) ≠ 0 := by
    have : (0 : ℚ) < (n : ℚ) := by exact_mod_cast hn
    exact ne_of_gt this
  have e : rands_sparse_weights n =
      [1 / (2 * (n : ℚ)), ((n : ℚ) - 1) / (n : ℚ), 1 / (2 * (n : ℚ))] := by
    unfold rands_sparse_weights rands_sparse_p_one rands_sparse_p_zero
    push_cast
    rfl
  have s : (rands_sparse_weights n).sum = 1 := by
    rw [e]
    simp only [List.sum_cons, List.sum_nil]
    field_simp
    ring
  have p : ∀ i, discrete_probability (rands_sparse_weights n) i = rd (rands_sparse_weights n) i := by
    intro i
    unfold discrete_probability
    rw [s, div_one]
  refine ⟨e, s, p, ?_, ?_, ?_, ?_⟩
  · rw [p, p, e]
    rfl
  · rw [p, p, e]
    show 1 / (2 * (n : ℚ)) + 1 / (2 * (n : ℚ)) = 1 / (n : ℚ)
    rw [← two_mul, one_div, one_div, mul_inv, ← mul_assoc, mul_inv_cancel₀ (two_ne_zero), one_mul]
  · rw [p, e]
    show ((n : ℚ) - 1) / (n : ℚ) = 1 - 1 / (n : ℚ)
    field_simp
  · intro h1
    rw [p, e, h1]
    show (((1 : Nat) : ℚ) - 1) / ((1 : Nat) : ℚ) = 0
    norm_num

/-- Witness of claim C24 at `non_zero = 4`: the weights are `1/8`, `3/4`, `1/8`. -/
theorem rands_sparse_weights_exact_witness :
    rands_sparse_weights 4 = [1 / (2 * ((4 : Nat) : ℚ)), (((4 : Nat) : ℚ) - 1) / ((4 : Nat) : ℚ),
      1 / (2 * ((4 : Nat) : ℚ))] :=
  (rands_sparse_weights_exact 4 (by decide)).1

/-! ## The fused vector kernel against the fused scalar kernel -/

theorem rd_fmadd (a b c : List ℚ) (l : Nat) (hl : l < 8) :
    rd (mm256_fmadd_ps a b c) l = rd a l * rd b l + rd c l := by
  unfold mm256_fmadd_ps
  rw [rd_map_range _ 8 l hl]

theorem rd_load (p : List ℚ) (i l : Nat) (hl : l < 8) : rd (mm256_load_ps p i) l = rd p (i + l) := by
  unfold mm256_load_ps
  rw [rd_map_range _ 8 l hl]

theorem rd_set1 (x : ℚ) (l : Nat) (hl : l < 8) : rd (mm256_set1_ps x) l = x := by
  unfold mm256_set1_ps
  rw [rd_replicate 8 l x hl]

/-- A store of a vector whose lane `l` is a function of the old content of cell
`base + l` is the scalar loop over the eight cells. -/
theorem store_lanes (Y : List ℚ) (base : Nat) (G : Nat → ℚ → ℚ) (v : List ℚ)
    (hv : ∀ l, l < 8 → rd v l = G l (rd Y (base + l))) :
    mm256_store_ps Y base v =
      forLoop 0 8 (fun l Z => Z.set (base + l) (G l (rd Z (base + l)))) Y := by
  rw [forLoop_set_indep 8 base G Y]
  unfold mm256_store_ps
  apply forLoop_congr
  intro l _ hl Z
  rw [hv l hl]

/-- One vector step of `bcsr_sgemm_prelu_avx` (broadcast, two loads, fused
multiply-add, compare, multiply, blend, store) does what the scalar loop of
`bcsr_sgemm_prelu_basic` over the eight columns does. -/
theorem prelu_avx_step_eq (a x : ℚ) (V Y : List ℚ) (off base : Nat) :
    mm256_store_ps Y base
      (mm256_blendv_ps
        (mm256_mul_ps
          (mm256_fmadd_ps (mm256_set1_ps x) (mm256_load_ps V off) (mm256_load_ps Y base))
          (mm256_set1_ps a))
        (mm256_fmadd_ps (mm256_set1_ps x) (mm256_load_ps V off) (mm256_load_ps Y base))
        (mm256_cmp_ps_GT_OS
          (mm256_fmadd_ps (mm256_set1_ps x) (mm256_load_ps V off) (mm256_load_ps Y base))
          mm256_setzero_ps)) =
    forLoop 0 8 (fun j Y => Y.set (base + j)
      (if rd Y (base + j) + x * rd V (off + j) > 0 then rd Y (base + j) + x * rd V (off + j)
       else a * (rd Y (base + j) + x * rd V (off + j)))) Y := by
  refine store_lanes Y base (fun j y =>
    if y + x * rd V (off + j) > 0 then y + x * rd V (off + j)
    else a * (y + x * rd V (off + j))) _ ?_
  intro l hl
  unfold mm256_blendv_ps mm256_cmp_ps_GT_OS mm256_mul_ps mm256_setzero_ps
  have e : ((List.range 8).map (fun l => decide (rd (mm256_fmadd_ps (mm256_set1_ps x)
      (mm256_load_ps V off) (mm256_load_ps Y base)) l > rd (List.replicate 8 (0 : ℚ)) l))).getD
        l false = decide (x * rd V (off + l) + rd Y (base + l) > 0) := by
    rw [List.getD_eq_getElem?_getD, List.getElem?_map, List.getElem?_range hl]
    show decide (_ > _) = _
    rw [rd_fmadd _ _ _ l hl, rd_set1 _ l hl, rd_load _ _ l hl, rd_load _ _ l hl,
      rd_replicate 8 l 0 hl]
  rw [rd_map_range _ 8 l hl, e, rd_map_range _ 8 l hl, rd_fmadd _ _ _ l hl, rd_set1 _ l hl,
    rd_set1 _ l hl, rd_load _ _ l hl, rd_load _ _ l hl]
  dsimp only
  rw [add_comm (x * rd V (off + l)) (rd Y (base + l)),
    mul_comm (rd Y (base + l) + x * rd V (off + l)) a]
  by_cases c : rd Y (base + l) + x * rd V (off + l) > 0
  · rw [if_pos c, if_pos (by simpa using c)]
  · rw [if_neg c, if_neg (by simpa using c)]

/-- With `c = 8` and `N` a multiple of 8 the fused vector kernel and the fused
scalar kernel compute the same function of the output buffer. -/
theorem bcsr_sgemm_prelu_avx_eq_basic_same (X : List ℚ) (W : bcsr_t) (B : List ℚ) (a : ℚ)
    (Y : List ℚ) (M N K : Nat) (hc : W.c = 8) (hN : N % 8 = 0) :
    bcsr_sgemm_prelu_avx X W B a Y M N K = bcsr_sgemm_prelu_basic X W B a Y M N K := by
  obtain ⟨q, rfl⟩ : ∃ q, N = q * 8 := ⟨N / 8, by omega⟩
  unfold bcsr_sgemm_prelu_avx bcsr_sgemm_prelu_basic
  dsimp only
  rw [hc]
  have hb : forLoop 0 M (fun m Y =>
      forLoopStep 0 (q * 8) 8 (fun n Y =>
        mm256_store_ps Y (m * (q * 8) + n) (mm256_load_ps B n)) Y) Y =
      forLoop 0 M (fun m Y =>
        forLoop 0 (q * 8) (fun n Y => Y.set (m * (q * 8) + n) (rd B n)) Y) Y := by
    apply forLoop_congr
    intro m _ _ Z
    exact avx_bias_row_eq B Z q (m * (q * 8))
  rw [hb]
  apply forLoop_congr
  intro m _ _ Z
  apply forLoop_congr
  intro br _ _ Z
  apply forLoop_congr
  intro bi _ _ Z
  apply forLoop_congr
  intro i _ _ Z
  rw [prelu_avx_step_eq]

/-- Claim C26 (fused vector against fused scalar BCSR kernel).  For every BCSR
descriptor with `c = 8`, every `N` that is a multiple of 8, every `X`, `B` and
slope `a`, with the compare-greater-than-zero mask, the multiply and the blend
modelled lane-wise in exact arithmetic, `bcsr_sgemm_prelu_avx` leaves in the
`M * N` output buffer the same content as `bcsr_sgemm_prelu_basic`. -/
theorem bcsr_sgemm_prelu_avx_eq_basic (X : List ℚ) (W : bcsr_t) (B : List ℚ) (a : ℚ)
    (Y Z : List ℚ) (M N K : Nat) (hc : W.c = 8) (hN : N % 8 = 0)
    (hY : Y.length = M * N) (hZ : Z.length = M * N) :
    bcsr_sgemm_prelu_avx X W B a Y M N K = bcsr_sgemm_prelu_basic X W B a Z M N K := by
  rw [bcsr_sgemm_prelu_avx_eq_basic_same X W B a Y M N K hc hN]
  refine (Pointwise.init_indep (bcsr_sgemm_prelu_basic_pw (M * N) X W B a M N K) ?_ Y Z hY hZ).1
  intro p hp x y
  dsimp only
  rw [if_pos hp, if_pos hp]

/-- Witness of claim C26: one 2 × 8 block, `M = 1`, `K = 2`, `N = 8`, slope 1/2. -/
theorem bcsr_sgemm_prelu_avx_eq_basic_witness :
    bcsr_sgemm_prelu_avx [3, -2]
      { r := 2, c := 8, br := 1, bc := 1, k := 1, b_row_start := [0, 1], b_col_idx := [0],
        b_values := [1, 0, -1, 0, 0, 1, 0, 0, 0, 0, 1, 1, -1, 0, 0, 0] }
      [1, 2, 3, 4, 5, 6, 7, 8] (1 / 2) [0, 0, 0, 0, 0, 0, 0, 0] 1 8 2 =
    bcsr_sgemm_prelu_basic [3, -2]
      { r := 2, c := 8, br := 1, bc := 1, k := 1, b_row_start := [0, 1], b_col_idx := [0],
        b_values := [1, 0, -1, 0, 0, 1, 0, 0, 0, 0, 1, 1, -1, 0, 0, 0] }
      [1, 2, 3, 4, 5, 6, 7, 8] (1 / 2) [9, 9, 9, 9, 9, 9, 9, 9] 1 8 2 :=
  bcsr_sgemm_prelu_avx_eq_basic [3, -2] _ [1, 2, 3, 4, 5, 6, 7, 8] (1 / 2)
    [0, 0, 0, 0, 0, 0, 0, 0] [9, 9, 9, 9, 9, 9, 9, 9] 1 8 2 rfl (by decide) rfl rfl
/-! ## The unrolled vector kernel -/

/-- A loop that updates each of the cells `base + l` from its own old content
acts cell by cell. -/
theorem Pointwise.lanes (L base n : Nat) (G : Nat → ℚ → ℚ) :
    Pointwise L (forLoop 0 n (fun l Z => Z.set (base + l) (G l (rd Z (base + l)))))
      (fun p x => if base ≤ p ∧ p < base + n then G (p - base) x else x) := by
  refine (Pointwise.loop 0 n _ _
    (fun l _ _ => Pointwise.set L (base + l) (G l))).congr ?_
  intro u _ x
  dsimp only
  rw [forLoop_owner 0 n (u - base)]
  · by_cases c : base ≤ u ∧ u < base + n
    · rw [if_pos c, if_pos ⟨Nat.zero_le _, by omega⟩, if_pos (by omega)]
    · rw [if_neg c]
      by_cases d : 0 ≤ u - base ∧ u - base < n
      · rw [if_pos d, if_neg (by omega)]
      · rw [if_neg d]
  · intro i _ _ hne y
    rw [if_neg (by omega)]

/-- One pass over eight cells with the composed update is eight passes with the
single updates. -/
theorem lanes_vs_steps (G : Nat → ℚ → ℚ) (H : Nat → Nat → ℚ → ℚ) (Z : List ℚ) (base : Nat)
    (h : ∀ l y, G l y = H 7 l (H 6 l (H 5 l (H 4 l (H 3 l (H 2 l (H 1 l (H 0 l y)))))))) :
    forLoop 0 8 (fun l Z => Z.set (base + l) (G l (rd Z (base + l)))) Z =
      forLoop 0 8 (fun i Z =>
        forLoop 0 8 (fun j Z => Z.set (base + j) (H i j (rd Z (base + j)))) Z) Z := by
  refine Pointwise.ext (Pointwise.lanes Z.length base 8 G)
    (Pointwise.loop 0 8 _ _ (fun i _ _ => Pointwise.lanes Z.length base 8 (H i))) ?_ Z rfl
  intro p _ y
  have e : ∀ (f : Nat → ℚ → ℚ) (y : ℚ),
      forLoop 0 8 f y = f 7 (f 6 (f 5 (f 4 (f 3 (f 2 (f 1 (f 0 y))))))) := fun _ _ => rfl
  rw [e]
  by_cases c : base ≤ p ∧ p < base + 8
  · simp only [if_pos c]
    exact h _ _
  · simp only [if_neg c]

/-- Eight chained fused multiply-adds on one register followed by a single store
do what eight load / multiply-add / store steps do. -/
theorem avx2_chain_eq (x : Nat → ℚ) (o : Nat → Nat) (V Z : List ℚ) (base : Nat) :
    mm256_store_ps Z base
      (mm256_fmadd_ps (mm256_set1_ps (x 7)) (mm256_load_ps V (o 7))
      (mm256_fmadd_ps (mm256_set1_ps (x 6)) (mm256_load_ps V (o 6))
      (mm256_fmadd_ps (mm256_set1_ps (x 5)) (mm256_load_ps V (o 5))
      (mm256_fmadd_ps (mm256_set1_ps (x 4)) (mm256_load_ps V (o 4))
      (mm256_fmadd_ps (mm256_set1_ps (x 3)) (mm256_load_ps V (o 3))
      (mm256_fmadd_ps (mm256_set1_ps (x 2)) (mm256_load_ps V (o 2))
      (mm256_fmadd_ps (mm256_set1_ps (x 1)) (mm256_load_ps V (o 1))
      (mm256_fmadd_ps (mm256_set1_ps (x 0)) (mm256_load_ps V (o 0))
        (mm256_load_ps Z base))))))))) =
    forLoop 0 8 (fun i Z => mm256_store_ps Z base
      (mm256_fmadd_ps (mm256_set1_ps (x i)) (mm256_load_ps V (o i)) (mm256_load_ps Z base))) Z := by
  have h1 := store_lanes Z base (fun l y =>
      x 7 * rd V (o 7 + l) + (x 6 * rd V (o 6 + l) + (x 5 * rd V (o 5 + l) +
      (x 4 * rd V (o 4 + l) + (x 3 * rd V (o 3 + l) + (x 2 * rd V (o 2 + l) +
      (x 1 * rd V (o 1 + l) + (x 0 * rd V (o 0 + l) + y))))))))
    (mm256_fmadd_ps (mm256_set1_ps (x 7)) (mm256_load_ps V (o 7))
      (mm256_fmadd_ps (mm256_set1_ps (x 6)) (mm256_load_ps V (o 6))
      (mm256_fmadd_ps (mm256_set1_ps (x 5)) (mm256_load_ps V (o 5))
      (mm256_fmadd_ps (mm256_set1_ps (x 4)) (mm256_load_ps V (o 4))
      (mm256_fmadd_ps (mm256_set1_ps (x 3)) (mm256_load_ps V (o 3))
      (mm256_fmadd_ps (mm256_set1_ps (x 2)) (mm256_load_ps V (o 2))
      (mm256_fmadd_ps (mm256_set1_ps (x 1)) (mm256_load_ps V (o 1))
      (mm256_fmadd_ps (mm256_set1_ps (x 0)) (mm256_load_ps V (o 0))
        (mm256_load_ps Z base)))))))))
    (by
      intro l hl
      simp only [rd_fmadd _ _ _ l hl, rd_set1 _ l hl, rd_load _ _ l hl])
  rw [h1]
  have h2 : forLoop 0 8 (fun i Z => mm256_store_ps Z base
      (mm256_fmadd_ps (mm256_set1_ps (x i)) (mm256_load_ps V (o i)) (mm256_load_ps Z base))) Z =
      forLoop 0 8 (fun i Z => forLoop 0 8 (fun j Z =>
        Z.set (base + j) ((fun j y => y + x i * rd V (o i + j)) j (rd Z (base + j)))) Z) Z := by
    apply forLoop_congr
    intro i _ _ Z2
    exact avx_step_eq (x i) V Z2 (o i) base
  rw [h2]
  refine lanes_vs_steps (fun l y =>
      x 7 * rd V (o 7 + l) + (x 6 * rd V (o 6 + l) + (x 5 * rd V (o 5 + l) +
      (x 4 * rd V (o 4 + l) + (x 3 * rd V (o 3 + l) + (x 2 * rd V (o 2 + l) +
      (x 1 * rd V (o 1 + l) + (x 0 * rd V (o 0 + l) + y))))))))
    (fun i j y => y + x i * rd V (o i + j)) Z base ?_
  intro l y
  ring

/-- The block step of `bcsr_sgemm_avx2` against the row loop of
`bcsr_sgemm_avx`. -/
theorem avx2_block_eq (X V Z : List ℚ) (ix off c base : Nat) :
    mm256_store_ps Z base
      (mm256_fmadd_ps (mm256_set1_ps (rd X (ix + 7))) (mm256_load_ps V (off + 7 * c))
      (mm256_fmadd_ps (mm256_set1_ps (rd X (ix + 6))) (mm256_load_ps V (off + 6 * c))
      (mm256_fmadd_ps (mm256_set1_ps (rd X (ix + 5))) (mm256_load_ps V (off + 5 * c))
      (mm256_fmadd_ps (mm256_set1_ps (rd X (ix + 4))) (mm256_load_ps V (off + 4 * c))
      (mm256_fmadd_ps (mm256_set1_ps (rd X (ix + 3))) (mm256_load_ps V (off + 3 * c))
      (mm256_fmadd_ps (mm256_set1_ps (rd X (ix + 2))) (mm256_load_ps V (off + 2 * c))
      (mm256_fmadd_ps (mm256_set1_ps (rd X (ix + 1))) (mm256_load_ps V (off + 1 * c))
      (mm256_fmadd_ps (mm256_set1_ps (rd X ix)) (mm256_load_ps V (off + 0))
        (mm256_load_ps Z base))))))))) =
    forLoop 0 8 (fun i Z => mm256_store_ps Z base
      (mm256_fmadd_ps (mm256_set1_ps (rd X (ix + i))) (mm256_load_ps V (off + i * c))
        (mm256_load_ps Z base))) Z := by
  have h := avx2_chain_eq (fun i => rd X (ix + i)) (fun i => off + i * c) V Z base
  simp only [Nat.zero_mul, Nat.add_zero] at h
  rw [Nat.add_zero]
  exact h

/-- With `r = 8` the unrolled kernel and the vector kernel compute the same
function of the output buffer. -/
theorem bcsr_sgemm_avx2_eq_avx_same (X : List ℚ) (W : bcsr_t) (B Y : List ℚ) (M N K : Nat)
    (hr : W.r = 8) :
    bcsr_sgemm_avx2 X W B Y M N K = bcsr_sgemm_avx X W B Y M N K := by
  unfold bcsr_sgemm_avx2 bcsr_sgemm_avx
  dsimp only
  rw [hr]
  apply forLoop_congr
  intro m _ _ Z
  apply forLoop_congr
  intro br _ _ Z
  apply forLoop_congr
  intro bi _ _ Z
  exact avx2_block_eq X W.b_values Z (m * K + br * 8) (bi * 8 * W.c) W.c
    (m * N + rdN W.b_col_idx bi * W.c)

/-- Claim C25 (unrolled against vector and scalar BCSR kernel).  For every BCSR
descriptor with `r = 8` and `c = 8`, every `N` that is a multiple of 8 and every
`X`, `B`, with the vector operations modelled lane-wise in exact arithmetic, the
fully unrolled kernel `bcsr_sgemm_avx2` leaves in the `M * N` output buffer the
same content as `bcsr_sgemm_avx` and as the scalar `bcsr_sgemm_basic`. -/
theorem bcsr_sgemm_avx2_eq (X : List ℚ) (W : bcsr_t) (B Y1 Y2 Y3 : List ℚ) (M N K : Nat)
    (hr : W.r = 8) (hc : W.c = 8) (hN : N % 8 = 0)
    (h1 : Y1.length = M * N) (h2 : Y2.length = M * N) (h3 : Y3.length = M * N) :
    bcsr_sgemm_avx2 X W B Y1 M N K = bcsr_sgemm_avx X W B Y2 M N K ∧
    bcsr_sgemm_avx2 X W B Y1 M N K = bcsr_sgemm_basic X W B Y3 M N K := by
  have e1 : bcsr_sgemm_avx2 X W B Y1 M N K = bcsr_sgemm_basic X W B Y1 M N K := by
    rw [bcsr_sgemm_avx2_eq_avx_same X W B Y1 M N K hr,
      bcsr_sgemm_avx_eq_basic_same X W B Y1 M N K hc hN]
  constructor
  · rw [e1, bcsr_sgemm_avx_eq_basic_same X W B Y2 M N K hc hN]
    exact bcsr_sgemm_basic_init_indep X W B Y1 Y2 M N K h1 h2
  · rw [e1]
    exact bcsr_sgemm_basic_init_indep X W B Y1 Y3 M N K h1 h3

/-- Witness of claim C25: one 8 × 8 block holding the identity pattern, `M = 1`,
`K = 8`, `N = 8`. -/
theorem bcsr_sgemm_avx2_eq_witness :
    bcsr_sgemm_avx2 [1, 2, 3, 4, 5, 6, 7, 8]
      { r := 8, c := 8, br := 1, bc := 1, k := 1, b_row_start := [0, 1], b_col_idx := [0],
        b_values := (List.range 64).map (fun e => if e / 8 = e % 8 then 1 else 0) }
      [1, 1, 1, 1, 1, 1, 1, 1] [0, 0, 0, 0, 0, 0, 0, 0] 1 8 8 =
    bcsr_sgemm_basic [1, 2, 3, 4, 5, 6, 7, 8]
      { r := 8, c := 8, br := 1, bc := 1, k := 1, b_row_start := [0, 1], b_col_idx := [0],
        b_values := (List.range 64).map (fun e => if e / 8 = e % 8 then 1 else 0) }
      [1, 1, 1, 1, 1, 1, 1, 1] [9, 9, 9, 9, 9, 9, 9, 9] 1 8 8 :=
  (bcsr_sgemm_avx2_eq [1, 2, 3, 4, 5, 6, 7, 8] _ [1, 1, 1, 1, 1, 1, 1, 1]
    [0, 0, 0, 0, 0, 0, 0, 0] [0, 0, 0, 0, 0, 0, 0, 0] [9, 9, 9, 9, 9, 9, 9, 9] 1 8 8
    rfl rfl (by decide) rfl rfl rfl).2
/-! ## Main results: the vector kernel on blocks wider than eight columns -/

/-- For every block width and `N` a multiple of 8, the vector kernel computes
the same function of the output buffer as the scalar kernel cut after the first
eight columns of every block. -/
theorem bcsr_sgemm_avx_eq_cols_same (X : List ℚ) (W : bcsr_t) (B Y : List ℚ) (M N K : Nat)
    (hN : N % 8 = 0) :
    bcsr_sgemm_avx X W B Y M N K = bcsr_sgemm_basic_cols 8 X W B Y M N K := by
  obtain ⟨q, rfl⟩ : ∃ q, N = q * 8 := ⟨N / 8, by omega⟩
  unfold bcsr_sgemm_avx bcsr_sgemm_basic_cols
  dsimp only
  have hb : forLoop 0 M (fun m Y =>
      forLoopStep 0 (q * 8) 8 (fun n Y =>
        mm256_store_ps Y (m * (q * 8) + n) (mm256_load_ps B n)) Y) Y =
      forLoop 0 M (fun m Y =>
        forLoop 0 (q * 8) (fun n Y => Y.set (m * (q * 8) + n) (rd B n)) Y) Y := by
    apply forLoop_congr
    intro m _ _ Z
    exact avx_bias_row_eq B Z q (m * (q * 8))
  rw [hb]
  apply forLoop_congr
  intro m _ _ Z
  apply forLoop_congr
  intro br _ _ Z
  apply forLoop_congr
  intro bi _ _ Z
  apply forLoop_congr
  intro i _ _ Z
  rw [avx_step_eq]

theorem bcsr_sgemm_basic_cols_pw (L w : Nat) (X : List ℚ) (W : bcsr_t) (B : List ℚ)
    (M N K : Nat) :
    Pointwise L (fun Y => bcsr_sgemm_basic_cols w X W B Y M N K)
      (fun p x => forLoop 0 M (fun m x =>
        forLoop 0 W.br (fun br x =>
          forLoop (rdN W.b_row_start br) (rdN W.b_row_start (br + 1)) (fun bi x =>
            forLoop 0 W.r (fun i x =>
              forLoop 0 w (fun j x =>
                if p = m * N + rdN W.b_col_idx bi * W.c + j then
                  x + rd X (m * K + br * W.r + i) *
                    rd W.b_values (bi * W.r * W.c + i * W.c + j)
                else x) x) x) x) x)
        (if p < M * N then rd B (p % N) else x)) :=
  Pointwise.comp (Pointwise.grid M N (fun _ n _ => rd B n))
    (Pointwise.loop 0 M _ _ (fun m _ _ =>
      Pointwise.loop 0 W.br _ _ (fun br _ _ =>
        Pointwise.loop _ _ _ _ (fun bi _ _ =>
          Pointwise.loop 0 W.r _ _ (fun i _ _ =>
            Pointwise.loop 0 w _ _ (fun j _ _ =>
              Pointwise.set L (m * N + rdN W.b_col_idx bi * W.c + j)
                (fun x => x + rd X (m * K + br * W.r + i) *
                  rd W.b_values (bi * W.r * W.c + i * W.c + j))))))))

/-- Claim C27 as stated fails: for one 1 × 16 block (`c = 16`, `N = 16`) whose
only nonzero weight sits in column 8, `bcsr_sgemm_basic` adds `X[0]` to output
column 8 while `bcsr_sgemm_avx` leaves the bias there. -/
theorem bcsr_sgemm_avx_sixteen_columns :
    rd (bcsr_sgemm_basic [1]
      { r := 1, c := 16, br := 1, bc := 1, k := 1, b_row_start := [0, 1], b_col_idx := [0],
        b_values := [0, 0, 0, 0, 0, 0, 0, 0, 1, 0, 0, 0, 0, 0, 0, 0] }
      [0, 0, 0, 0, 0, 0, 0, 0, 0, 0, 0, 0, 0, 0, 0, 0]
      [0, 0, 0, 0, 0, 0, 0, 0, 0, 0, 0, 0, 0, 0, 0, 0] 1 16 1) (0 * 16 + 8) = 1 ∧
    rd (bcsr_sgemm_avx [1]
      { r := 1, c := 16, br := 1, bc := 1, k := 1, b_row_start := [0, 1], b_col_idx := [0],
        b_values := [0, 0, 0, 0, 0, 0, 0, 0, 1, 0, 0, 0, 0, 0, 0, 0] }
      [0, 0, 0, 0, 0, 0, 0, 0, 0, 0, 0, 0, 0, 0, 0, 0]
      [0, 0, 0, 0, 0, 0, 0, 0, 0, 0, 0, 0, 0, 0, 0, 0] 1 16 1) (0 * 16 + 8) = 0 ∧
    bcsr_sgemm_avx [1]
      { r := 1, c := 16, br := 1, bc := 1, k := 1, b_row_start := [0, 1], b_col_idx := [0],
        b_values := [0, 0, 0, 0, 0, 0, 0, 0, 1, 0, 0, 0, 0, 0, 0, 0] }
      [0, 0, 0, 0, 0, 0, 0, 0, 0, 0, 0, 0, 0, 0, 0, 0]
      [0, 0, 0, 0, 0, 0, 0, 0, 0, 0, 0, 0, 0, 0, 0, 0] 1 16 1 ≠
    bcsr_sgemm_basic [1]
      { r := 1, c := 16, br := 1, bc := 1, k := 1, b_row_start := [0, 1], b_col_idx := [0],
        b_values := [0, 0, 0, 0, 0, 0, 0, 0, 1, 0, 0, 0, 0, 0, 0, 0] }
      [0, 0, 0, 0, 0, 0, 0, 0, 0, 0, 0, 0, 0, 0, 0, 0]
      [0, 0, 0, 0, 0, 0, 0, 0, 0, 0, 0, 0, 0, 0, 0, 0] 1 16 1 := by
  have h1 : rd (bcsr_sgemm_basic [1]
      { r := 1, c := 16, br := 1, bc := 1, k := 1, b_row_start := [0, 1], b_col_idx := [0],
        b_values := [0, 0, 0, 0, 0, 0, 0, 0, 1, 0, 0, 0, 0, 0, 0, 0] }
      [0, 0, 0, 0, 0, 0, 0, 0, 0, 0, 0, 0, 0, 0, 0, 0]
      [0, 0, 0, 0, 0, 0, 0, 0, 0, 0, 0, 0, 0, 0, 0, 0] 1 16 1) (0 * 16 + 8) = 1 := by
    rw [(bcsr_sgemm_basic_pw 16 [1] _ [0, 0, 0, 0, 0, 0, 0, 0, 0, 0, 0, 0, 0, 0, 0, 0] 1 16 1 [0, 0, 0, 0, 0, 0, 0, 0, 0, 0, 0, 0, 0, 0, 0, 0] rfl).2 (0 * 16 + 8) (by decide)]
    norm_num [bcsr_cell, rdN, forLoop, rd, List.range']
  have h2 : rd (bcsr_sgemm_avx [1]
      { r := 1, c := 16, br := 1, bc := 1, k := 1, b_row_start := [0, 1], b_col_idx := [0],
        b_values := [0, 0, 0, 0, 0, 0, 0, 0, 1, 0, 0, 0, 0, 0, 0, 0] }
      [0, 0, 0, 0, 0, 0, 0, 0, 0, 0, 0, 0, 0, 0, 0, 0]
      [0, 0, 0, 0, 0, 0, 0, 0, 0, 0, 0, 0, 0, 0, 0, 0] 1 16 1) (0 * 16 + 8) = 0 := by
    rw [bcsr_sgemm_avx_eq_cols_same _ _ _ _ 1 16 1 (by decide),
      (bcsr_sgemm_basic_cols_pw 16 8 [1] _ [0, 0, 0, 0, 0, 0, 0, 0, 0, 0, 0, 0, 0, 0, 0, 0] 1 16 1 [0, 0, 0, 0, 0, 0, 0, 0, 0, 0, 0, 0, 0, 0, 0, 0] rfl).2 (0 * 16 + 8) (by decide)]
    norm_num [rdN, forLoop, rd, List.range']
  refine ⟨h1, h2, ?_⟩
  intro h
  rw [h, h1] at h2
  norm_num at h2

/-- Claim C27, amended (the vector kernel accumulates eight columns per block).
For every BCSR descriptor of any block width `c` (in particular every positive
multiple of 8), every `N` that is a multiple of 8 and every `X`, `B`, with the
vector operations modelled lane-wise in exact arithmetic, `bcsr_sgemm_avx` leaves
in the `M * N` output buffer the content left by the scalar kernel that
accumulates only the first 8 columns of every stored block; this is the output
of `bcsr_sgemm_basic`, all `c` columns accumulated, when `c = 8`. -/
theorem bcsr_sgemm_avx_first_eight (X : List ℚ) (W : bcsr_t) (B Y Z : List ℚ) (M N K : Nat)
    (hN : N % 8 = 0) (hY : Y.length = M * N) (hZ : Z.length = M * N) :
    bcsr_sgemm_avx X W B Y M N K = bcsr_sgemm_basic_cols 8 X W B Z M N K ∧
    bcsr_sgemm_basic_cols W.c X W B Z M N K = bcsr_sgemm_basic X W B Z M N K ∧
    (W.c = 8 → bcsr_sgemm_avx X W B Y M N K = bcsr_sgemm_basic X W B Z M N K) := by
  have e : bcsr_sgemm_avx X W B Y M N K = bcsr_sgemm_basic_cols 8 X W B Z M N K := by
    rw [bcsr_sgemm_avx_eq_cols_same X W B Y M N K hN]
    refine (Pointwise.init_indep (bcsr_sgemm_basic_cols_pw (M * N) 8 X W B M N K) ?_
      Y Z hY hZ).1
    intro p hp x y
    dsimp only
    rw [if_pos hp, if_pos hp]
  refine ⟨e, rfl, ?_⟩
  intro hc
  rw [e, ← hc]
  rfl

/-- Witness of claim C27, amended: one 1 × 16 block, `N = 16`. -/
theorem bcsr_sgemm_avx_first_eight_witness :
    bcsr_sgemm_avx [1]
      { r := 1, c := 16, br := 1, bc := 1, k := 1, b_row_start := [0, 1], b_col_idx := [0],
        b_values := [0, 0, 0, 0, 0, 0, 0, 0, 1, 0, 0, 0, 0, 0, 0, 0] }
      [0, 0, 0, 0, 0, 0, 0, 0, 0, 0, 0, 0, 0, 0, 0, 0]
      [0, 0, 0, 0, 0, 0, 0, 0, 0, 0, 0, 0, 0, 0, 0, 0] 1 16 1 =
    bcsr_sgemm_basic_cols 8 [1]
      { r := 1, c := 16, br := 1, bc := 1, k := 1, b_row_start := [0, 1], b_col_idx := [0],
        b_values := [0, 0, 0, 0, 0, 0, 0, 0, 1, 0, 0, 0, 0, 0, 0, 0] }
      [0, 0, 0, 0, 0, 0, 0, 0, 0, 0, 0, 0, 0, 0, 0, 0]
      [1, 1, 1, 1, 1, 1, 1, 1, 1, 1, 1, 1, 1, 1, 1, 1] 1 16 1 :=
  (bcsr_sgemm_avx_first_eight [1] _ [0, 0, 0, 0, 0, 0, 0, 0, 0, 0, 0, 0, 0, 0, 0, 0]
    [0, 0, 0, 0, 0, 0, 0, 0, 0, 0, 0, 0, 0, 0, 0, 0]
    [1, 1, 1, 1, 1, 1, 1, 1, 1, 1, 1, 1, 1, 1, 1, 1] 1 16 1 (by decide) rfl rfl).1

/-! ## Main results: the report of the validator -/

/-- A loop on a state that carries a component its body never changes. -/
theorem forLoop_frame {σ μ : Type} (lo hi : Nat) (body : Nat → σ → σ)
    (body2 : Nat → σ × μ → σ × μ) (m : μ) (h : ∀ i s, body2 i (s, m) = (body i s, m)) (s : σ) :
    forLoop lo hi body2 (s, m) = (forLoop lo hi body s, m) := by
  unfold forLoop
  generalize List.range' lo (hi - lo) = l
  induction l generalizing s with
  | nil => rfl
  | cons a l ih => rw [List.foldl_cons, List.foldl_cons, h, ih]

theorem compare_state_eq (result target : List ℚ) (rows cols : Nat) :
    compare_state result target rows cols =
      (compare_scan result target rows cols, result, target) := by
  unfold compare_state compare_scan
  apply forLoop_frame
  intro row s
  apply forLoop_frame
  intro col s
  cases s with
  | some r => rfl
  | none =>
    dsimp only
    by_cases c : |rd result (row * cols + col) - rd target (row * cols + col)| > compare_tol
    · rw [if_pos c, if_pos c]
    · rw [if_neg c, if_neg c]

theorem CompareInv.step {result target : List ℚ} {cols row col : Nat}
    {s : Option (Nat × Nat × ℚ × ℚ)} (hcol : col < cols) :
    CompareInv result target cols (row * cols + col) s →
    CompareInv result target cols (row * cols + col + 1)
      (match s with
        | some r => some r
        | none =>
          let ij := row * cols + col
          let res := rd result ij
          let tar := rd target ij
          if |res - tar| > compare_tol then some (row, col, tar, res) else none) := by
  intro h
  rcases h with ⟨rfl, h⟩ | ⟨r, c, h1, h2, rfl, h4, h5⟩
  · dsimp only
    by_cases c : |rd result (row * cols + col) - rd target (row * cols + col)| > compare_tol
    · rw [if_pos c]
      exact Or.inr ⟨row, col, hcol, Nat.lt_succ_self _, rfl, c, h⟩
    · rw [if_neg c]
      refine Or.inl ⟨rfl, fun i hi => ?_⟩
      rcases Nat.lt_succ_iff_lt_or_eq.mp hi with hlt | heq
      · exact h i hlt
      · rw [heq]; exact not_lt.mp c
  · exact Or.inr ⟨r, c, h1, Nat.lt_succ_of_lt h2, rfl, h4, h5⟩

theorem compare_scan_inv (result target : List ℚ) (rows cols : Nat) :
    CompareInv result target cols (rows * cols) (compare_scan result target rows cols) := by
  unfold compare_scan
  refine forLoop_inv (fun row s => CompareInv result target cols (row * cols) s)
    0 rows (Nat.zero_le _) _ none ?_ ?_
  · exact Or.inl ⟨rfl, fun i hi => by simp at hi⟩
  · intro row s _ _ hs
    have key := forLoop_inv (fun col s => CompareInv result target cols (row * cols + col) s)
      0 cols (Nat.zero_le _)
      (fun col ret =>
        match ret with
        | some r => some r
        | none =>
          let ij := row * cols + col
          let res := rd result ij
          let tar := rd target ij
          if |res - tar| > compare_tol then some (row, col, tar, res) else none) s
      (by dsimp only; rw [Nat.add_zero]; exact hs) ?_
    · dsimp only at key ⊢
      rw [Nat.succ_mul]
      exact key
    · intro col s _ hcol hs
      exact CompareInv.step hcol hs

/-- Claim C28 (the report of the validator).  With the printed report modelled
as the returned tuple `(row, col, expected, got)`: whenever `compare` returns
false, the reported `(row, col)` is a position of the `rows × cols` grid whose
element is out of tolerance, every element before it in row-major order is
within tolerance, the reported `expected` is `target`'s value and `got` is
`result`'s value at that position, and both buffers are unchanged. -/
theorem compare_first_mismatch (result target : List ℚ) (rows cols : Nat)
    (_hR : result.length = rows * cols) (_hT : target.length = rows * cols)
    (h : compare result target rows cols = false) :
    ∃ row col, row < rows ∧ col < cols ∧
      compare_scan result target rows cols =
        some (row, col, rd target (row * cols + col), rd result (row * cols + col)) ∧
      |rd result (row * cols + col) - rd target (row * cols + col)| > 1 / 10000 ∧
      (∀ i, i < row * cols + col → |rd result i - rd target i| ≤ 1 / 10000) ∧
      compare_state result target rows cols =
        (some (row, col, rd target (row * cols + col), rd result (row * cols + col)),
          result, target) := by
  unfold compare at h
  rcases compare_scan_inv result target rows cols with ⟨h1, _⟩ | ⟨r, c, h1, h2, h3, h4, h5⟩
  · rw [h1] at h
    exact absurd h (by decide)
  · refine ⟨r, c, ?_, h1, h3, h4, h5, by rw [compare_state_eq, h3]⟩
    by_contra hr
    have : rows * cols ≤ r * cols := Nat.mul_le_mul_right cols (not_lt.mp hr)
    omega

/-- Witness of claim C28: a 2 × 2 pair with mismatches at `(0, 1)` and `(1, 0)`;
the report is `(0, 1, 5, 7)`. -/
theorem compare_first_mismatch_witness :
    ∃ row col, row < 2 ∧ col < 2 ∧
      compare_scan [1, 7, 3, 4] [1, 5, 0, 4] 2 2 =
        some (row, col, rd [1, 5, 0, 4] (row * 2 + col), rd [1, 7, 3, 4] (row * 2 + col)) ∧
      |rd [1, 7, 3, 4] (row * 2 + col) - rd [1, 5, 0, 4] (row * 2 + col)| > 1 / 10000 ∧
      (∀ i, i < row * 2 + col → |rd [1, 7, 3, 4] i - rd [1, 5, 0, 4] i| ≤ 1 / 10000) ∧
      compare_state [1, 7, 3, 4] [1, 5, 0, 4] 2 2 =
        (some (row, col, rd [1, 5, 0, 4] (row * 2 + col), rd [1, 7, 3, 4] (row * 2 + col)),
          [1, 7, 3, 4], [1, 5, 0, 4]) :=
  compare_first_mismatch [1, 7, 3, 4] [1, 5, 0, 4] 2 2 rfl rfl
    (by norm_num [compare, compare_scan, compare_tol, forLoop, rd, List.range', abs_lt])

/-! ## Main results: the accesses of `bcsr_from_dense` stay inside the buffers -/

theorem forLoop_all {α : Type} (P : α → Prop) (lo hi : Nat) (body : Nat → List α → List α)
    (h : ∀ i t, lo ≤ i → i < hi → (∀ a ∈ t, P a) → ∀ a ∈ body i t, P a)
    (t : List α) (ht : ∀ a ∈ t, P a) : ∀ a ∈ forLoop lo hi body t, P a := by
  rcases Nat.lt_or_ge hi lo with hlt | hge
  · rw [forLoop_empty lo hi (Nat.le_of_lt hlt)]
    exact ht
  · exact forLoop_inv (fun _ t => ∀ a ∈ t, P a) lo hi hge body t ht
      (fun i t h1 h2 hp => h i t h1 h2 hp)

theorem all_append_one {α : Type} (P : α → Prop) (t : List α) (x : α)
    (ht : ∀ a ∈ t, P a) (hx : P x) : ∀ a ∈ t ++ [x], P a := by
  intro a ha
  rcases List.mem_append.mp ha with h | h
  · exact ht a h
  · rw [List.mem_singleton.mp h]
    exact hx

theorem block_cell_lt (n b k q : Nat) (hb : b < k) (hq : q < n) : b * n + q < k * n := by
  have h1 : (b + 1) * n ≤ k * n := Nat.mul_le_mul_right n hb
  rw [Nat.succ_mul] at h1
  omega

/-- A dense read of a block scan is inside the buffer, below row `br * r` and
left of column `bc * c`. -/
theorem bcsr_dense_read_ok (rows cols r c k brow bcol row col : Nat)
    (hb : brow < rows / r) (hc : bcol < cols / c) (hr : row < r) (hcol : col < c) :
    bcsr_access_ok rows cols r c k (bcsr_access.dense_read (brow * r + row) (bcol * c + col)) := by
  have h1 : brow * r + row < rows / r * r := block_cell_lt r brow (rows / r) row hb hr
  have h2 : bcol * c + col < cols / c * c := block_cell_lt c bcol (cols / c) col hc hcol
  have h3 : rows / r * r ≤ rows := Nat.div_mul_le_self rows r
  have h4 : cols / c * c ≤ cols := Nat.div_mul_le_self cols c
  exact ⟨h1, h2, cell_lt rows cols _ _ (by omega) (by omega)⟩

theorem bcsr_pass1_trace_ok (dense : List ℚ) (rows cols r c k : Nat) :
    ∀ a ∈ bcsr_pass1_trace dense cols r c (rows / r) (cols / c),
      bcsr_access_ok rows cols r c k a := by
  unfold bcsr_pass1_trace
  dsimp only
  apply forLoop_all
  · intro brow t _ hb ht
    apply forLoop_all _ _ _ _ ?_ t ht
    intro bcol t _ hc ht
    have h1 : ∀ a ∈ forLoop 0 r (fun row log =>
        forLoop 0 c (fun col log =>
          log ++ [bcsr_access.dense_read (brow * r + row) (bcol * c + col)]) log) t,
        bcsr_access_ok rows cols r c k a := by
      apply forLoop_all _ _ _ _ ?_ t ht
      intro row t _ hr ht
      apply forLoop_all _ _ _ _ ?_ t ht
      intro col t _ hcol ht
      exact all_append_one _ t _ ht
        (bcsr_dense_read_ok rows cols r c k brow bcol row col hb hc hr hcol)
    by_cases e : bcsr_need_new_block dense cols r c brow bcol = true
    · rw [if_pos e]
      exact all_append_one _ _ _ h1 (cell_lt (rows / r) (cols / c) brow bcol hb hc)
    · rw [if_neg e]
      exact h1
  · apply forLoop_all
    · intro i t _ hi ht
      exact all_append_one _ t _ ht hi
    · intro a ha
      simp at ha

/-- A stored block index read back in pass 2 lies in `[0, k)`. -/
theorem bcsr_block_index_lt (junk : bcsr_junk) (dense : List ℚ) (cols r c br bc p : Nat)
    (hp : p < br * bc)
    (h : rdI (bcsr_pass1 junk dense cols r c br bc).is_valid_block p ≠ -1) :
    ∃ b : Nat, rdI (bcsr_pass1 junk dense cols r c br bc).is_valid_block p = (b : Int) ∧
      b < bcsr_rank dense cols r c bc (br * bc) := by
  have hS := bcsr_pass1_inv junk dense cols r c br bc
  have hcell := hS.cell p hp
  by_cases e : p < br * bc ∧ bcsr_block_nonzero dense cols r c (p / bc) (p % bc)
  · rw [if_pos e] at hcell
    exact ⟨_, hcell, bcsr_rank_lt dense cols r c bc p (br * bc) hp e.2⟩
  · rw [if_neg e] at hcell
    exact absurd hcell h

theorem bcsr_fill_block_trace_ok (junk : bcsr_junk) (dense : List ℚ) (rows cols r c k : Nat)
    (brow bcol : Nat) (st : bcsr_trace_fill)
    (hk : k = bcsr_rank dense cols r c (cols / c) (rows / r * (cols / c)))
    (hb : brow < rows / r) (hc : bcol < cols / c)
    (hst : TraceInv (bcsr_access_ok rows cols r c k) brow st) :
    TraceInv (bcsr_access_ok rows cols r c k) brow
      (bcsr_fill_block_trace
        (bcsr_pass1 junk dense cols r c (rows / r) (cols / c)).is_valid_block
        r c (cols / c) brow bcol st) := by
  obtain ⟨h1, h2, h3⟩ := hst
  have hp : brow * (cols / c) + bcol < rows / r * (cols / c) :=
    cell_lt (rows / r) (cols / c) brow bcol hb hc
  have hlog := all_append_one (bcsr_access_ok rows cols r c k) st.log
    (bcsr_access.is_valid_block_read (brow * (cols / c) + bcol)) h1 hp
  unfold bcsr_fill_block_trace
  dsimp only
  by_cases e : rdI (bcsr_pass1 junk dense cols r c (rows / r) (cols / c)).is_valid_block
      (brow * (cols / c) + bcol) = -1
  · rw [if_pos e]
    exact ⟨hlog, h2, h3⟩
  · rw [if_neg e]
    obtain ⟨b, hbi, hbk⟩ := bcsr_block_index_lt junk dense cols r c (rows / r) (cols / c)
      (brow * (cols / c) + bcol) hp e
    rw [← hk] at hbk
    rw [hbi]
    have hcolw : bcsr_access_ok rows cols r c k (bcsr_access.b_col_idx_write (b : Int)) :=
      ⟨Int.natCast_nonneg b, by rw [Nat.one_mul]; exact_mod_cast hbk⟩
    have hblock : ∀ t : List bcsr_access, (∀ a ∈ t, bcsr_access_ok rows cols r c k a) →
        ∀ a ∈ forLoop 0 r (fun row log =>
          forLoop 0 c (fun col log =>
            log ++ [bcsr_access.dense_read (brow * r + row) (bcol * c + col),
              bcsr_access.b_values_write ((b : Int) * r * c + (row * c + col))]) log) t,
          bcsr_access_ok rows cols r c k a := by
      intro t ht
      apply forLoop_all _ _ _ _ ?_ t ht
      intro row t _ hr ht
      apply forLoop_all _ _ _ _ ?_ t ht
      intro col t _ hcol ht
      intro a ha
      rcases List.mem_append.mp ha with h | h
      · exact ht a h
      · rcases List.mem_cons.mp h with h | h
        · rw [h]
          exact bcsr_dense_read_ok rows cols r c k brow bcol row col hb hc hr hcol
        · rw [List.mem_singleton.mp h]
          have hq : row * c + col < r * c := block_cell_lt c row r col hr hcol
          have hv : b * (r * c) + (row * c + col) < k * (r * c) :=
            block_cell_lt (r * c) b k _ hbk hq
          constructor
          · positivity
          · have : ((b : Int) * r * c + (row * c + col)) =
                ((b * (r * c) + (row * c + col) : Nat) : Int) := by
              push_cast
              ring
            rw [this]
            exact_mod_cast hv
    by_cases n : st.is_new_row = true
    · rw [if_pos n]
      dsimp only
      refine ⟨hblock _ (all_append_one _ _ _ (all_append_one _ _ _ hlog ?_) hcolw), ?_, ?_⟩
      · show st.b_row_start_index < 1 * (rows / r + 1)
        have := h2 n
        omega
      · intro hf
        exact absurd (show false = true from hf) Bool.false_ne_true
      · show st.b_row_start_index + 1 ≤ brow + 1
        have := h2 n
        omega
    · rw [if_neg n]
      dsimp only
      exact ⟨hblock _ (all_append_one _ _ _ hlog hcolw), h2, h3⟩

/-- Claim C30 (the accesses of the builder stay inside the buffers).  For every
`rows`, `cols ≥ 0` and every `r`, `c ≥ 1`, also where `r` does not divide `rows`
or `c` does not divide `cols`: every read `dense[i * cols + j]` of
`bcsr_from_dense` has `i * cols + j < rows * cols`, with `i` below
`(rows / r) * r` and `j` below `(cols / c) * c`, so the trailing rows and
columns are never read; and every write to `is_valid_block`, `b_row_start`,
`b_col_idx` and `b_values` (and every read of `is_valid_block`) is inside the
allocated size. -/
theorem bcsr_from_dense_in_bounds (junk : bcsr_junk) (dense : List ℚ) (rows cols r c : Nat)
    (_hr : 1 ≤ r) (_hc : 1 ≤ c) (_hd : dense.length = rows * cols) :
    (∀ a ∈ bcsr_from_dense_trace junk dense rows cols r c,
      bcsr_access_ok rows cols r c (bcsr_from_dense junk dense rows cols r c).k a) ∧
    rows / r * r ≤ rows ∧ cols / c * c ≤ cols := by
  refine ⟨?_, Nat.div_mul_le_self rows r, Nat.div_mul_le_self cols c⟩
  have hk := (bcsr_from_dense_inv junk dense rows cols r c).k_eq
  dsimp only at hk
  unfold bcsr_from_dense_trace bcsr_pass2_trace
  dsimp only
  have key := forLoop_inv (fun brow st =>
      TraceInv (bcsr_access_ok rows cols r c (bcsr_from_dense junk dense rows cols r c).k)
        brow st ∧ st.b_row_start_index ≤ brow)
    0 (rows / r) (Nat.zero_le _)
    (fun brow st =>
      forLoop 0 (cols / c) (bcsr_fill_block_trace
        (bcsr_pass1 junk dense cols r c (rows / r) (cols / c)).is_valid_block r c (cols / c) brow)
        { st with is_new_row := true })
    { log := bcsr_pass1_trace dense cols r c (rows / r) (cols / c), b_row_start_index := 0,
      is_new_row := true }
    ⟨⟨bcsr_pass1_trace_ok dense rows cols r c _, fun _ => le_refl _, Nat.zero_le _⟩, le_refl _⟩
    ?_
  · obtain ⟨⟨h1, _, _⟩, h4⟩ := key
    refine all_append_one _ _ _ h1 ?_
    show _ < 1 * (rows / r + 1)
    omega
  · intro brow st _ hb hst
    obtain ⟨⟨h1, _, _⟩, h4⟩ := hst
    have inner := forLoop_inv (fun _ st =>
        TraceInv (bcsr_access_ok rows cols r c (bcsr_from_dense junk dense rows cols r c).k)
          brow st)
      0 (cols / c) (Nat.zero_le _)
      (bcsr_fill_block_trace
        (bcsr_pass1 junk dense cols r c (rows / r) (cols / c)).is_valid_block r c (cols / c) brow)
      { st with is_new_row := true }
      ⟨h1, fun _ => h4, Nat.le_succ_of_le h4⟩
      (fun bcol st _ hc hst =>
        bcsr_fill_block_trace_ok junk dense rows cols r c _ brow bcol st hk hb hc hst)
    refine ⟨⟨inner.1, fun _ => inner.2.2, Nat.le_succ_of_le inner.2.2⟩, inner.2.2⟩

/-- The accesses of `bcsr_from_dense` on a 3 × 3 buffer with 2 × 2 blocks: one
block is scanned and stored, row 2 and column 2 are never read. -/
theorem bcsr_from_dense_trace_three (junk : bcsr_junk) :
    bcsr_from_dense_trace junk [1, 0, 0, 0, 0, 0, 0, 0, -1] 3 3 2 2 =
      [bcsr_access.is_valid_block_write 0,
       bcsr_access.dense_read 0 0, bcsr_access.dense_read 0 1,
       bcsr_access.dense_read 1 0, bcsr_access.dense_read 1 1,
       bcsr_access.is_valid_block_write 0,
       bcsr_access.is_valid_block_read 0,
       bcsr_access.b_row_start_write 0,
       bcsr_access.b_col_idx_write 0,
       bcsr_access.dense_read 0 0, bcsr_access.b_values_write 0,
       bcsr_access.dense_read 0 1, bcsr_access.b_values_write 1,
       bcsr_access.dense_read 1 0, bcsr_access.b_values_write 2,
       bcsr_access.dense_read 1 1, bcsr_access.b_values_write 3,
       bcsr_access.b_row_start_write 1] := by
  norm_num [bcsr_from_dense_trace, bcsr_pass2_trace, bcsr_fill_block_trace, bcsr_pass1_trace,
    bcsr_pass1, bcsr_need_new_block, malloc, forLoop, rd, rdI, List.range', List.range,
    List.range.loop]

/-- Witness of claim C30: a 3 × 3 buffer with 2 × 2 blocks, which divide neither
dimension. -/
theorem bcsr_from_dense_in_bounds_witness :
    (∀ a ∈ bcsr_from_dense_trace ⟨fun _ => 0, fun _ => 0, fun _ => 0, fun _ => 0⟩
        [1, 0, 0, 0, 0, 0, 0, 0, -1] 3 3 2 2,
      bcsr_access_ok 3 3 2 2
        (bcsr_from_dense ⟨fun _ => 0, fun _ => 0, fun _ => 0, fun _ => 0⟩
          [1, 0, 0, 0, 0, 0, 0, 0, -1] 3 3 2 2).k a) ∧
    3 / 2 * 2 ≤ 3 ∧ 3 / 2 * 2 ≤ 3 :=
  bcsr_from_dense_in_bounds ⟨fun _ => 0, fun _ => 0, fun _ => 0, fun _ => 0⟩
    [1, 0, 0, 0, 0, 0, 0, 0, -1] 3 3 2 2 (by decide) (by decide) rfl

/-! ## Main results: the non-uniform generator -/

/-- A `while` loop that ends leaves a state that satisfies every invariant of
its body and fails its condition. -/
theorem whileLoop_inv {σ : Type} (I : σ → Prop) (cond : σ → Bool) (body : σ → σ)
    (hstep : ∀ s, I s → cond s = true → I (body s)) :
    ∀ (fuel : Nat) (s t : σ), I s → whileLoop cond body fuel s = some t →
      I t ∧ cond t = false := by
  intro fuel
  induction fuel with
  | zero =>
    intro s t hs h
    unfold whileLoop at h
    by_cases c : cond s = true
    · rw [if_pos c] at h
      exact absurd h (by simp)
    · rw [if_neg c] at h
      obtain rfl := Option.some.inj h
      exact ⟨hs, Bool.eq_false_iff.mpr c⟩
  | succ n ih =>
    intro s t hs h
    unfold whileLoop at h
    by_cases c : cond s = true
    · rw [if_pos c] at h
      exact ih (body s) t (hstep s hs c) h
    · rw [if_neg c] at h
      obtain rfl := Option.some.inj h
      exact ⟨hs, Bool.eq_false_iff.mpr c⟩

theorem countRow_succ (u : Int) (y : List Int) (base n : Nat) :
    countRow u y base (n + 1) =
      countRow u y base n + if rdI y (base + n) = u then 1 else 0 := by
  unfold countRow
  rw [List.range_succ, List.filter_append, List.length_append]
  by_cases c : rdI y (base + n) = u
  · simp [c]
  · simp [c]

theorem countRow_congr (u : Int) (y z : List Int) (base n : Nat)
    (h : ∀ w, w < n → rdI y (base + w) = rdI z (base + w)) :
    countRow u y base n = countRow u z base n := by
  induction n with
  | zero => rfl
  | succ n ih =>
    rw [countRow_succ, countRow_succ, ih (fun w hw => h w (Nat.lt_succ_of_lt hw)),
      h n (Nat.lt_succ_self n)]

theorem countRow_zero (u : Int) (y : List Int) (base n : Nat) (hu : u ≠ 0)
    (h : ∀ w, w < n → rdI y (base + w) = 0) : countRow u y base n = 0 := by
  induction n with
  | zero => rfl
  | succ n ih =>
    rw [countRow_succ, ih (fun w hw => h w (Nat.lt_succ_of_lt hw)), h n (Nat.lt_succ_self n),
      if_neg (Ne.symm hu)]

theorem rdI_set_ne (y : List Int) (i p : Nat) (v : Int) (h : p ≠ i) :
    rdI (y.set i v) p = rdI y p := by
  unfold rdI
  rw [List.getD_eq_getElem?_getD, List.getD_eq_getElem?_getD,
    List.getElem?_set_ne (Ne.symm h)]

/-- Writing `v` into a cell of the row that did not hold `v` raises the count of
`v` by one. -/
theorem countRow_set_hit (v : Int) (y : List Int) (base a : Nat)
    (ha : base + a < y.length) (hold : rdI y (base + a) ≠ v) (n : Nat) :
    countRow v (y.set (base + a) v) base n =
      countRow v y base n + if a < n then 1 else 0 := by
  induction n with
  | zero => rfl
  | succ n ih =>
    rw [countRow_succ, countRow_succ, ih]
    rcases Nat.lt_trichotomy n a with h | h | h
    · rw [rdI_set_ne y (base + a) (base + n) v (by omega), if_neg (show ¬ a < n by omega),
        if_neg (show ¬ a < n + 1 by omega)]
      omega
    · subst h
      rw [rdI_set y _ _ v ha, if_pos rfl, if_pos rfl, if_neg hold,
        if_neg (show ¬ n < n by omega), if_pos (show n < n + 1 by omega)]
    · rw [rdI_set_ne y (base + a) (base + n) v (by omega), if_pos h,
        if_pos (show a < n + 1 by omega)]
      omega

/-- Writing `v` into a cell that did not hold `u` leaves the count of `u ≠ v`
unchanged. -/
theorem countRow_set_other (u v : Int) (y : List Int) (base a : Nat) (huv : u ≠ v)
    (hold : rdI y (base + a) ≠ u) (n : Nat) :
    countRow u (y.set (base + a) v) base n = countRow u y base n := by
  induction n with
  | zero => rfl
  | succ n ih =>
    rw [countRow_succ, countRow_succ, ih]
    congr 1
    by_cases e : n = a
    · subst e
      rw [if_neg hold]
      by_cases hl : base + n < y.length
      · rw [rdI_set y _ _ v hl, if_pos rfl, if_neg (Ne.symm huv)]
      · rw [List.set_eq_of_length_le (not_lt.mp hl), if_neg hold]
    · rw [rdI_set_ne y (base + a) (base + n) v (by omega)]


theorem PlaceInv.place_start (v limit : Int) (y : List Int) (L base W generator : Nat)
    (hL : y.length = L) (hlim : 0 ≤ limit) :
    PlaceInv v limit y L base W { y := y, count := 0, generator := generator } :=
  ⟨hL, hlim, rfl, fun _ _ _ => rfl, fun _ _ => rfl, fun _ => Or.inl rfl⟩

/-- One iteration of a placement loop keeps its invariant. -/
theorem PlaceInv.place_step {v limit : Int} {y0 : List Int} {L base W : Nat} {s : place_state}
    (hs : PlaceInv v limit y0 L base W s) (a : Nat) (ha : a < W) (hb : base + W ≤ L)
    (hv : v ≠ 0) (hc : (s.count : Int) < limit) :
    PlaceInv v limit y0 L base W
      (if rdI s.y (base + a) = 0 then
        { y := s.y.set (base + a) v, count := s.count + 1, generator := s.generator + 1 }
      else { s with generator := s.generator + 1 }) := by
  by_cases c : rdI s.y (base + a) = 0
  · rw [if_pos c]
    have hlen : base + a < s.y.length := by rw [hs.len]; omega
    have hne : rdI s.y (base + a) ≠ v := by rw [c]; exact Ne.symm hv
    refine ⟨by simp [hs.len], ?_, ?_, ?_, ?_, ?_⟩
    · show ((s.count + 1 : Nat) : Int) ≤ limit
      push_cast
      omega
    · show countRow v (s.y.set (base + a) v) base W = countRow v y0 base W + (s.count + 1)
      rw [countRow_set_hit v s.y base a hlen hne W, if_pos ha, hs.hit]
      omega
    · intro u hu hu0
      show countRow u (s.y.set (base + a) v) base W = countRow u y0 base W
      rw [countRow_set_other u v s.y base a hu (by rw [c]; exact Ne.symm hu0) W]
      exact hs.other u hu hu0
    · intro p hp
      show rdI (s.y.set (base + a) v) p = rdI y0 p
      rw [rdI_set_ne s.y (base + a) p v (by omega)]
      exact hs.frame p hp
    · intro p
      show rdI (s.y.set (base + a) v) p = rdI y0 p ∨ rdI (s.y.set (base + a) v) p = v
      by_cases e : p = base + a
      · subst e
        rw [rdI_set s.y _ _ v hlen, if_pos rfl]
        exact Or.inr rfl
      · rw [rdI_set_ne s.y (base + a) p v e]
        exact hs.vals p
  · rw [if_neg c]
    exact ⟨hs.len, hs.le, hs.hit, hs.other, hs.frame, hs.vals⟩

/-- A placement loop that ends has written exactly `limit` entries `v` into
cells of its row that held `0`, and nothing else. -/
theorem generateSparseMatrix_place_spec (range : Nat → Nat) (fuel W h : Nat) (v limit : Int)
    (y : List Int) (generator L : Nat) (s : place_state)
    (hrange : ∀ i, range i < W) (hv : v ≠ 0) (hlim : 0 ≤ limit) (hL : y.length = L)
    (hb : h * W + W ≤ L)
    (hs : generateSparseMatrix_place range fuel W h v limit y generator = some s) :
    PlaceInv v limit y L (h * W) W s ∧ (s.count : Int) = limit := by
  unfold generateSparseMatrix_place at hs
  obtain ⟨h1, h2⟩ := whileLoop_inv (PlaceInv v limit y L (h * W) W) _ _
    (fun s hs hc => PlaceInv.place_step hs (range s.generator) (hrange _) hb hv
      (of_decide_eq_true hc))
    fuel _ s (PlaceInv.place_start v limit y L (h * W) W generator hL hlim) hs
  refine ⟨h1, le_antisymm h1.le ?_⟩
  have := of_decide_eq_false h2
  omega

theorem vari_le_half (q p : Nat) (hq : 2 ≤ q) (hp : p ≤ q / 20 + 1) : p ≤ q / 2 := by
  omega

/-- One iteration of the row loop of `generateSparseMatrix` that ends. -/
theorem generateSparseMatrix_row_spec (dist : Nat → Nat → Nat → Nat)
    (hdist : ∀ a b i, a ≤ b → a ≤ dist a b i ∧ dist a b i ≤ b)
    (fuel H W nonZero h : Nat) (hq : 2 ≤ W / nonZero) (hh : h < H)
    (st t : List Int × Nat) (hL : st.1.length = H * W)
    (hz : ∀ w, w < W → rdI st.1 (h * W + w) = 0)
    (ht : generateSparseMatrix_row dist fuel W nonZero h st = some t) :
    t.1.length = H * W ∧ RowOK t.1 W nonZero h ∧
    (∀ p, (p < h * W ∨ h * W + W ≤ p) → rdI t.1 p = rdI st.1 p) ∧
    (∀ p, rdI t.1 p = rdI st.1 p ∨ rdI t.1 p = 1 ∨ rdI t.1 p = -1) := by
  have hW : 2 ≤ W := le_trans hq (Nat.div_le_self W nonZero)
  have hrange : ∀ i, dist 0 (W - 1) i < W := by
    intro i
    have := (hdist 0 (W - 1) i (Nat.zero_le _)).2
    omega
  have hvari := (hdist 0 (W / nonZero / 20 + 1) st.2 (Nat.zero_le _)).2
  have hhalf := vari_le_half (W / nonZero) _ hq hvari
  have hb : h * W + W ≤ H * W := by
    have : (h + 1) * W ≤ H * W := Nat.mul_le_mul_right W hh
    rw [Nat.succ_mul] at this
    exact this
  unfold generateSparseMatrix_row at ht
  dsimp only at ht
  cases e1 : generateSparseMatrix_place (dist 0 (W - 1)) fuel W h 1
      (((W / nonZero / 2 : Nat) : Int) + ((dist 0 (W / nonZero / 20 + 1) st.2 : Nat) : Int))
      st.1 (st.2 + 1) with
  | none =>
    rw [e1] at ht
    exact absurd ht (by simp)
  | some s1 =>
    rw [e1] at ht
    dsimp only at ht
    cases e2 : generateSparseMatrix_place (dist 0 (W - 1)) fuel W h (-1)
        (((W / nonZero / 2 : Nat) : Int) - ((dist 0 (W / nonZero / 20 + 1) st.2 : Nat) : Int))
        s1.y s1.generator with
    | none =>
      rw [e2] at ht
      exact absurd ht (by simp)
    | some s2 =>
      rw [e2] at ht
      obtain rfl := Option.some.inj ht
      obtain ⟨p1, c1⟩ := generateSparseMatrix_place_spec _ fuel W h 1 _ st.1 (st.2 + 1) (H * W)
        s1 hrange (by decide) (by positivity) hL hb e1
      obtain ⟨p2, c2⟩ := generateSparseMatrix_place_spec _ fuel W h (-1) _ s1.y s1.generator
        (H * W) s2 hrange (by decide) (by omega) p1.len hb e2
      have z1 : countRow 1 st.1 (h * W) W = 0 := countRow_zero 1 st.1 (h * W) W (by decide) hz
      have z2 : countRow (-1) st.1 (h * W) W = 0 :=
        countRow_zero (-1) st.1 (h * W) W (by decide) hz
      refine ⟨p2.len, ⟨dist 0 (W / nonZero / 20 + 1) st.2, hvari, hhalf, ?_, ?_⟩, ?_, ?_⟩
      · show countRow 1 s2.y (h * W) W = _
        rw [p2.other 1 (by decide) (by decide), p1.hit, z1]
        omega
      · show countRow (-1) s2.y (h * W) W = _
        rw [p2.hit, p1.other (-1) (by decide) (by decide), z2]
        omega
      · intro p hp
        show rdI s2.y p = rdI st.1 p
        rw [p2.frame p hp, p1.frame p hp]
      · intro p
        show rdI s2.y p = rdI st.1 p ∨ rdI s2.y p = 1 ∨ rdI s2.y p = -1
        rcases p2.vals p with h2 | h2
        · rcases p1.vals p with h1 | h1
          · exact Or.inl (h2.trans h1)
          · exact Or.inr (Or.inl (h2.trans h1))
        · exact Or.inr (Or.inr h2)

theorem rdI_replicate_zero (n p : Nat) : rdI (List.replicate n 0) p = 0 := by
  unfold rdI
  rw [List.getD_eq_getElem?_getD, List.getElem?_replicate]
  by_cases c : p < n
  · rw [if_pos c]; rfl
  · rw [if_neg c]; rfl

theorem RowOK.of_frame {y z : List Int} {W nonZero h : Nat} (hy : RowOK y W nonZero h)
    (hf : ∀ w, w < W → rdI z (h * W + w) = rdI y (h * W + w)) : RowOK z W nonZero h := by
  obtain ⟨p, h1, h2, h3, h4⟩ := hy
  exact ⟨p, h1, h2, by rw [countRow_congr 1 z y (h * W) W hf, h3],
    by rw [countRow_congr (-1) z y (h * W) W hf, h4]⟩

theorem generateSparseMatrix_inv (dist : Nat → Nat → Nat → Nat)
    (hdist : ∀ a b i, a ≤ b → a ≤ dist a b i ∧ dist a b i ≤ b)
    (fuel H W nonZero : Nat) (hq : 2 ≤ W / nonZero) :
    GenInv H W nonZero H
      (forLoop 0 H (fun h st =>
        match st with
        | none => none
        | some s => generateSparseMatrix_row dist fuel W nonZero h s)
        (some (List.replicate (H * W) 0, 0))) := by
  refine forLoop_inv (fun h st => GenInv H W nonZero h st) 0 H (Nat.zero_le _) _ _ ?_ ?_
  · intro s hs
    obtain rfl := Option.some.inj hs
    refine ⟨List.length_replicate _ _, fun p => Or.inr (Or.inl (rdI_replicate_zero _ p)),
      fun p _ => rdI_replicate_zero _ p, fun h2 hh => absurd hh (Nat.not_lt_zero _)⟩
  · intro h st _ hh hst
    cases st with
    | none =>
      intro t ht
      exact absurd ht (by simp)
    | some s =>
      intro t ht
      obtain ⟨i1, i2, i3, i4⟩ := hst s rfl
      obtain ⟨r1, r2, r3, r4⟩ := generateSparseMatrix_row_spec dist hdist fuel H W nonZero h hq hh
        s t i1 (fun w _ => i3 _ (Nat.le_add_right _ _)) ht
      refine ⟨r1, ?_, ?_, ?_⟩
      · intro p
        rcases r4 p with e | e | e
        · rw [e]; exact i2 p
        · exact Or.inr (Or.inr e)
        · exact Or.inl e
      · intro p hp
        rw [Nat.succ_mul] at hp
        rw [r3 p (Or.inr hp)]
        exact i3 p (by omega)
      · intro h2 hh2
        rcases Nat.lt_succ_iff_lt_or_eq.mp hh2 with hlt | heq
        · refine (i4 h2 hlt).of_frame ?_
          intro w hw
          apply r3
          left
          have : (h2 + 1) * W ≤ h * W := Nat.mul_le_mul_right W hlt
          rw [Nat.succ_mul] at this
          omega
        · rw [heq]; exact r2

/-- Claim C29 (the non-uniform generator).  For `generateSparseMatrix(H, W,
nonZero, false)` with `nonZero ≥ 1` and `q = W / nonZero ≥ 2`, for every sequence
of draws (each draw of a distribution lies within its bounds) and every run in
which the placement loops end: `limitNeg = q/2 - posVari` is never negative; the
result has `H * W` entries, all in `{-1, 0, +1}`; and every row `h` holds exactly
`limitPos = q/2 + posVari` entries `+1` and `limitNeg = q/2 - posVari` entries
`-1` for a `posVari` in `[0, q/20 + 1]`, hence exactly `2 * (q/2)` nonzero
entries. -/
theorem generateSparseMatrix_rows (dist : Nat → Nat → Nat → Nat)
    (hdist : ∀ a b i, a ≤ b → a ≤ dist a b i ∧ dist a b i ≤ b)
    (fuel H W nonZero : Nat) (_hnz : 1 ≤ nonZero) (hq : 2 ≤ W / nonZero) (y : List Int)
    (hy : generateSparseMatrix dist fuel H W nonZero = some y) :
    (∀ i, (0 : Int) ≤ ((W / nonZero / 2 : Nat) : Int) -
      ((dist 0 (W / nonZero / 20 + 1) i : Nat) : Int)) ∧
    y.length = H * W ∧
    (∀ w ∈ y, w = -1 ∨ w = 0 ∨ w = 1) ∧
    ∀ h, h < H → ∃ posVari : Nat, posVari ≤ W / nonZero / 20 + 1 ∧
      ((countRow 1 y (h * W) W : Nat) : Int) =
        ((W / nonZero / 2 : Nat) : Int) + (posVari : Int) ∧
      ((countRow (-1) y (h * W) W : Nat) : Int) =
        ((W / nonZero / 2 : Nat) : Int) - (posVari : Int) ∧
      countRow 1 y (h * W) W + countRow (-1) y (h * W) W = 2 * (W / nonZero / 2) := by
  have key := generateSparseMatrix_inv dist hdist fuel H W nonZero hq
  unfold generateSparseMatrix at hy
  dsimp only at hy
  cases e : forLoop 0 H (fun h st =>
      match st with
      | none => none
      | some s => generateSparseMatrix_row dist fuel W nonZero h s)
      (some (List.replicate (H * W) 0, 0)) with
  | none =>
    rw [e] at hy
    exact absurd hy (by simp)
  | some s =>
    rw [e] at hy
    obtain rfl := Option.some.inj hy
    obtain ⟨i1, i2, _, i4⟩ := key s e
    refine ⟨?_, i1, ?_, ?_⟩
    · intro i
      have h1 := (hdist 0 (W / nonZero / 20 + 1) i (Nat.zero_le _)).2
      have h2 := vari_le_half (W / nonZero) _ hq h1
      omega
    · intro w hw
      obtain ⟨i, hi, rfl⟩ := List.getElem_of_mem hw
      have := i2 i
      unfold rdI at this
      rw [List.getD_eq_getElem _ _ hi] at this
      exact this
    · intro h hh
      obtain ⟨p, h1, h2, h3, h4⟩ := i4 h hh
      refine ⟨p, h1, ?_, ?_, ?_⟩
      · rw [h3]; push_cast; rfl
      · rw [h4]; omega
      · rw [h3, h4]; omega

/-- Witness of claim C29: `H = 2`, `W = 4`, `nonZero = 2` and the draws
`a + (3 i + 1) mod (b - a + 1)`; the run ends with the matrix
`[1, 0, 0, 1, -1, 1, 0, 0]`, whose row 1 holds one `+1` and one `-1`. -/
theorem generateSparseMatrix_rows_witness :
    generateSparseMatrix (fun a b i => a + (3 * i + 1) % (b - a + 1)) 10 2 4 2 =
      some [1, 0, 0, 1, -1, 1, 0, 0] ∧
    ∃ posVari : Nat, posVari ≤ 4 / 2 / 20 + 1 ∧
      ((countRow 1 [1, 0, 0, 1, -1, 1, 0, 0] (1 * 4) 4 : Nat) : Int) =
        ((4 / 2 / 2 : Nat) : Int) + (posVari : Int) ∧
      ((countRow (-1) [1, 0, 0, 1, -1, 1, 0, 0] (1 * 4) 4 : Nat) : Int) =
        ((4 / 2 / 2 : Nat) : Int) - (posVari : Int) ∧
      countRow 1 [1, 0, 0, 1, -1, 1, 0, 0] (1 * 4) 4 +
        countRow (-1) [1, 0, 0, 1, -1, 1, 0, 0] (1 * 4) 4 = 2 * (4 / 2 / 2) :=
  ⟨by decide,
    (generateSparseMatrix_rows (fun a b i => a + (3 * i + 1) % (b - a + 1))
      (fun a b i hab => by
        have := Nat.mod_lt (3 * i + 1) (show 0 < b - a + 1 by omega)
        dsimp only
        omega)
      10 2 4 2 (by decide) (by decide) [1, 0, 0, 1, -1, 1, 0, 0] (by decide)).2.2.2 1
      (by decide)⟩

end SparseGemm
